import Mathlib

/-!
# Procedural3DTree: the L-system engine

A shallow embedding of `src/prev_tree/src/lsystem.cpp` / `lsystem.hpp`, and of the branch
thickness of `src/source/tree.cpp`.

* `float` values are read as elements of an ordered field `K` (exact arithmetic, no rounding
  and no overflow); the definitions run at `K = ℚ`, the numerical theorems are stated at
  `K = ℝ`. The one overflow the code meets on an ordinary input, the bounding box of an empty
  vertex list, is treated apart in `bbfixOf`.
* `std::string` is a `List Char`; `std::vector` is a `List`, `push_back` appends at the end.
* `std::multimap<char, pair<string,float>>` is the list of its entries in insertion
  order; `equal_range` keeps the entries of one key in that order.
* `std::mt19937` with `std::uniform_real_distribution<float>` is the stream of the
  canonical draws the generator will still deliver.
* `glm` (vectors, `radians`, `rotate`) and `<cmath>` are not part of the repository;
  `cos`, `sin`, `inversesqrt` and `pi` are taken as parameters (`MathOps`).
* OpenGL buffer calls have no effect on the modelled state except `bufSize`.
* `LSystem::parse` is embedded in two halves: reading the description into local variables
  (`parseFields`, over a model of `std::istream`, `std::getline`, `std::stoi`; `std::stof` is a
  parameter, with the decimal reader `stofDecimal` to run it), and the part from
  `angle = inAngle;` on (`parseCommit`). How a call ends is an `Outcome`: it returns, throws,
  or never returns.
* The callback of `GenerateNewTree` (`src/source/tree.cpp`) is embedded in `namespace Tree`:
  thickness, ring divisions, leaf parameters and the vertex and index loops of a branch mesh,
  with `powf`, `pow`, `sqrt` and `acos` as parameters. The types `Bone`, `FractalBranch` and
  `GLTriangleMesh` are declared outside the sources and are modelled from the specification.
* The viewer of `src/prev_tree/src/main.cpp` (`menu`, `display`, the start of `main`) is
  embedded over the globals it uses; the contents of the files are a function of the name.
* `GLint`, `GLsizei` and `size_t` quantities are natural numbers (no wrap-around below `2^31`
  vertices).
-/

set_option linter.unusedSectionVars false

namespace LSys

/-! ## glm vectors and matrices -/

/-- The type `glm::vec3` over the scalar type `K`. -/
@[ext]
structure Vec3 (K : Type) where
  x : K
  y : K
  z : K
deriving DecidableEq

/-- The type `glm::vec4` over the scalar type `K`. -/
structure Vec4 (K : Type) where
  x : K
  y : K
  z : K
  w : K
deriving DecidableEq

/-- The type `glm::mat4`, column-major: `c0 .. c3` are the columns `m[0] .. m[3]`. -/
structure Mat4 (K : Type) where
  c0 : Vec4 K
  c1 : Vec4 K
  c2 : Vec4 K
  c3 : Vec4 K
deriving DecidableEq

section Scalars

variable {K : Type} [LinearOrderedField K]

namespace Vec3

/-- Componentwise `a + b`. -/
def add (a b : Vec3 K) : Vec3 K := ⟨a.x + b.x, a.y + b.y, a.z + b.z⟩

/-- Componentwise `a - b`. -/
def sub (a b : Vec3 K) : Vec3 K := ⟨a.x - b.x, a.y - b.y, a.z - b.z⟩

/-- Unary minus `-a`. -/
def neg (a : Vec3 K) : Vec3 K := ⟨-a.x, -a.y, -a.z⟩

/-- Vector times scalar, `v * s`. -/
def smul (v : Vec3 K) (s : K) : Vec3 K := ⟨v.x * s, v.y * s, v.z * s⟩

/-- Vector divided by scalar, `v / s`. -/
def sdiv (v : Vec3 K) (s : K) : Vec3 K := ⟨v.x / s, v.y / s, v.z / s⟩

/-- The function `glm::dot`. -/
def dot (a b : Vec3 K) : K := a.x * b.x + a.y * b.y + a.z * b.z

/-- Componentwise `glm::min`. -/
def vmin (a b : Vec3 K) : Vec3 K := ⟨min a.x b.x, min a.y b.y, min a.z b.z⟩

/-- Componentwise `glm::max`. -/
def vmax (a b : Vec3 K) : Vec3 K := ⟨max a.x b.x, max a.y b.y, max a.z b.z⟩

/-- The constructor `glm::vec3(s)`: all three components equal to `s`. -/
def splat (s : K) : Vec3 K := ⟨s, s, s⟩

end Vec3

/-- The identity matrix `glm::mat4(1.0f)`. -/
def Mat4.identity : Mat4 K :=
  ⟨⟨1, 0, 0, 0⟩, ⟨0, 1, 0, 0⟩, ⟨0, 0, 1, 0⟩, ⟨0, 0, 0, 1⟩⟩

/-- Matrix times column vector, `m * v`. -/
def Mat4.mulVec (m : Mat4 K) (v : Vec4 K) : Vec4 K :=
  ⟨m.c0.x * v.x + m.c1.x * v.y + m.c2.x * v.z + m.c3.x * v.w,
   m.c0.y * v.x + m.c1.y * v.y + m.c2.y * v.z + m.c3.y * v.w,
   m.c0.z * v.x + m.c1.z * v.y + m.c2.z * v.z + m.c3.z * v.w,
   m.c0.w * v.x + m.c1.w * v.y + m.c2.w * v.z + m.c3.w * v.w⟩

/-- What the vertex shader does with a vertex: `m * vec4(v, 1)`, first three components. -/
def Mat4.transformPoint (m : Mat4 K) (v : Vec3 K) : Vec3 K :=
  let r := m.mulVec ⟨v.x, v.y, v.z, 1⟩
  ⟨r.x, r.y, r.z⟩

/-! ## The mathematical library the code calls -/

/-- The scalar functions of `<cmath>` / `glm` used by the turtle, as parameters. -/
structure MathOps (K : Type) where
  /-- The cosine of an angle in radians. -/
  cos : K → K
  /-- The sine of an angle in radians. -/
  sin : K → K
  /-- The function `glm::inversesqrt`, `1 / sqrt x`. -/
  inversesqrt : K → K
  /-- The constant pi. -/
  pi : K

/-- The function `glm::radians`: degrees to radians. -/
def radians (m : MathOps K) (degrees : K) : K := degrees * (m.pi / 180)

/-- The function `glm::normalize`: `v * inversesqrt(dot(v, v))`. -/
def normalize (m : MathOps K) (v : Vec3 K) : Vec3 K := v.smul (m.inversesqrt (v.dot v))

/-- The function `glm::rotate(v, angle, normal)` of `glm/gtx/rotate_vector`: the upper 3x3 block of
`glm::rotate(mat4(1), angle, normal)` applied to `v`. -/
def rotate (m : MathOps K) (v : Vec3 K) (angle : K) (normal : Vec3 K) : Vec3 K :=
  let c := m.cos angle
  let s := m.sin angle
  let axis := normalize m normal
  let temp := axis.smul (1 - c)
  let r00 := c + temp.x * axis.x
  let r01 := temp.x * axis.y + s * axis.z
  let r02 := temp.x * axis.z - s * axis.y
  let r10 := temp.y * axis.x - s * axis.z
  let r11 := c + temp.y * axis.y
  let r12 := temp.y * axis.z + s * axis.x
  let r20 := temp.z * axis.x + s * axis.y
  let r21 := temp.z * axis.y - s * axis.x
  let r22 := c + temp.z * axis.z
  ⟨r00 * v.x + r10 * v.y + r20 * v.z,
   r01 * v.x + r11 * v.y + r21 * v.z,
   r02 * v.x + r12 * v.y + r22 * v.z⟩

/-! ## The random generator -/

/-- One canonical draw of the generator: a value of the unit interval. The standard promises
`[0, 1)`; rounding to `float` can deliver the upper end itself, which is admitted here. -/
structure Canon (K : Type) [LinearOrderedField K] where
  val : K
  nonneg : 0 ≤ val
  le_one : val ≤ 1

/-- The state of `std::mt19937 rng`: the canonical draws it will deliver from now on. -/
def Rng (K : Type) [LinearOrderedField K] : Type := Nat → Canon K

/-- Take the next draw and advance the generator. -/
def Rng.next (g : Rng K) : Canon K × Rng K := (g 0, fun n => g (n + 1))

/-- Calling `std::uniform_real_distribution<float> dist(a, b); dist(rng)`: the value
`a + (b - a) * u` for the next canonical draw `u`. -/
def uniformReal (a b : K) (g : Rng K) : K × Rng K :=
  let p := g.next
  (a + (b - a) * p.1.val, p.2)

/-! ## Rewriting: `LSystem::applyRules` -/

/-- The member `rules`: the entries `(symbol, (replacement, weight))` in insertion order. -/
abbrev Rules (K : Type) := List (Char × List Char × K)

/-- The call `rules.equal_range(c)`: the candidates of symbol `c`, in rule-definition order. -/
def equalRange (rules : Rules K) (c : Char) : List (List Char × K) :=
  (rules.filter (fun r => r.1 == c)).map (fun r => r.2)

/-- The first loop of the `else` branch: the sum of the candidates' weights. -/
def totalWeight (cands : List (List Char × K)) : K :=
  cands.foldl (fun acc cand => acc + cand.2) 0

/-- The second loop of the `else` branch, started with `cumulativeWeight = cum`: the replacement of
the first candidate at which `randomWeight <= cumulativeWeight`, or nothing if the loop runs out. -/
def selectCandidate (randomWeight : K) : K → List (List Char × K) → Option (List Char)
  | _, [] => none
  | cum, cand :: rest =>
    if randomWeight ≤ cum + cand.2 then some cand.1
    else selectCandidate randomWeight (cum + cand.2) rest

/-- One round of the `for (char c : string)` loop of `applyRules`. -/
def applyRulesStep (rules : Rules K) (acc : List Char × Rng K) (c : Char) : List Char × Rng K :=
  if equalRange rules c = [] then
    (acc.1 ++ [c], acc.2)
  else
    let range := equalRange rules c
    let d := uniformReal 0 (totalWeight range) acc.2
    match selectCandidate d.1 0 range with
    | some replacement => (acc.1 ++ replacement, d.2)
    | none => (acc.1, d.2)

/-- The method `LSystem::applyRules`: the new string and the generator state afterwards. -/
def applyRules (rules : Rules K) (string : List Char) (g : Rng K) : List Char × Rng K :=
  string.foldl (applyRulesStep rules) ([], g)

/-! ## Turtle interpretation: `LSystem::createGeometry` -/

/-- The cursor `(pos, dir, up, right)`, also the tuple saved on the stack. -/
structure Cursor (K : Type) where
  pos : Vec3 K
  dir : Vec3 K
  up : Vec3 K
  right : Vec3 K
deriving DecidableEq

/-- The local variables of `createGeometry` together with the generator it draws from. -/
structure Turtle (K : Type) [LinearOrderedField K] where
  verts : List (Vec3 K)
  cur : Cursor K
  stack : List (Cursor K)
  rng : Rng K

/-- The cursor at the start: origin, forward `+Y`, up `+Z`, right `+X`. -/
def Cursor.initial : Cursor K :=
  ⟨⟨0, 0, 0⟩, ⟨0, 1, 0⟩, ⟨0, 0, 1⟩, ⟨1, 0, 0⟩⟩

/-- The state of `createGeometry` before its loop. -/
def Turtle.initial (g : Rng K) : Turtle K := ⟨[], Cursor.initial, [], g⟩

/-- The angle of one rotation command: `currangle = base`, and when `jitter != 0` a draw of
`uniform(-jitter, jitter)`, converted to radians, is added. -/
def currAngle (m : MathOps K) (jitter base : K) (g : Rng K) : K × Rng K :=
  if jitter ≠ 0 then
    let d := uniformReal (-jitter) jitter g
    (base + radians m d.1, d.2)
  else
    (base, g)

/-- One round of the `for` loop of `createGeometry`, on character `c`. -/
def turtleStep (m : MathOps K) (angle jitter : K) (t : Turtle K) (c : Char) : Turtle K :=
  if c.toLower = 'f' ∨ c.toLower = 'g' then
    let newPos := t.cur.pos.add t.cur.dir
    { t with verts := t.verts ++ [t.cur.pos, newPos], cur := { t.cur with pos := newPos } }
  else if c.toLower = 's' then
    { t with cur := { t.cur with pos := t.cur.pos.add t.cur.dir } }
  else if c = '+' then
    let a := currAngle m jitter (radians m angle) t.rng
    { t with cur := { t.cur with dir := rotate m t.cur.dir a.1 t.cur.up,
                                 right := rotate m t.cur.right a.1 t.cur.up },
             rng := a.2 }
  else if c = '-' then
    let a := currAngle m jitter (radians m (-angle)) t.rng
    { t with cur := { t.cur with dir := rotate m t.cur.dir a.1 t.cur.up,
                                 right := rotate m t.cur.right a.1 t.cur.up },
             rng := a.2 }
  else if c = '&' then
    let a := currAngle m jitter (radians m angle) t.rng
    { t with cur := { t.cur with dir := rotate m t.cur.dir a.1 t.cur.right,
                                 up := rotate m t.cur.up a.1 t.cur.right },
             rng := a.2 }
  else if c = '^' then
    let a := currAngle m jitter (radians m (-angle)) t.rng
    { t with cur := { t.cur with dir := rotate m t.cur.dir a.1 t.cur.right,
                                 up := rotate m t.cur.up a.1 t.cur.right },
             rng := a.2 }
  else if c = '/' then
    let a := currAngle m jitter (radians m angle) t.rng
    { t with cur := { t.cur with right := rotate m t.cur.right a.1 t.cur.dir,
                                 up := rotate m t.cur.up a.1 t.cur.dir },
             rng := a.2 }
  else if c = '\\' then
    let a := currAngle m jitter (radians m (-angle)) t.rng
    { t with cur := { t.cur with right := rotate m t.cur.right a.1 t.cur.dir,
                                 up := rotate m t.cur.up a.1 t.cur.dir },
             rng := a.2 }
  else if c = '|' then
    { t with cur := { t.cur with dir := t.cur.dir.neg, right := t.cur.right.neg } }
  else if c = '[' then
    { t with stack := t.cur :: t.stack }
  else if c = ']' then
    match t.stack with
    | top :: rest => { t with cur := top, stack := rest }
    | [] => t
  else
    t

/-- The `for` loop of `createGeometry` over the characters of `string`, from state `t`. -/
def turtleRun (m : MathOps K) (angle jitter : K) (t : Turtle K) (string : List Char) : Turtle K :=
  string.foldl (turtleStep m angle jitter) t

/-- The method `LSystem::createGeometry`: the vertex list (two vertices per line segment) and the
generator state afterwards. -/
def createGeometry (m : MathOps K) (angle jitter : K) (string : List Char) (g : Rng K) :
    List (Vec3 K) × Rng K :=
  let t := turtleRun m angle jitter (Turtle.initial g) string
  (t.verts, t.rng)

/-! ## Per-iteration records: `LSystem::addVerts` -/

/-- The record `LSystem::IterData`. The `GLint` / `GLsizei` fields are read as natural numbers,
which is exact as long as the buffer holds fewer than `2^31` vertices. -/
structure IterData (K : Type) where
  first : Nat
  count : Nat
  bbfix : Mat4 K
deriving DecidableEq

/-- The fields of `LSystem` that the rewriting engine reads or writes. -/
structure LSystem (K : Type) [LinearOrderedField K] where
  strings : List (List Char)
  rules : Rules K
  angle : K
  jitter : K
  rng : Rng K
  iterData : List (IterData K)
  bufSize : Nat

/-- The constant `LSystem::MAX_BUF = 1 << 26`. -/
def MAX_BUF : Nat := 2 ^ 26

/-- The value of `sizeof(glm::vec3)`: three 4-byte floats. -/
def sizeofVec3 : Nat := 12

/-- The constant `std::numeric_limits<float>::max()`, `(2^24 - 1) * 2^104`. -/
def floatMax : K := 340282346638528859811704183484516925440

/-- The bounding-box loop of `addVerts`: `(minBB, maxBB)` after folding over the vertices; for
the empty list the start values `(FLT_MAX, -FLT_MAX)`. -/
def boundingBox (verts : List (Vec3 K)) : Vec3 K × Vec3 K :=
  verts.foldl (fun bb v => (bb.1.vmin v, bb.2.vmax v))
    (Vec3.splat floatMax, Vec3.splat (-floatMax))

/-- The largest extent `glm::max(glm::max(diag.x, diag.y), diag.z)` of `diag = maxBB - minBB`,
for a non-empty list (exact subtraction). For the empty list the `float` subtraction
`lowest - max` overflows to `-inf`, which no element of `K` stands for: `bbfixOf` treats that
list apart and nothing is stated about `maxExtent []`. -/
def maxExtent (verts : List (Vec3 K)) : K :=
  let bb := boundingBox verts
  let diag := bb.2.sub bb.1
  max (max diag.x diag.y) diag.z

/-- The normalisation transform that `addVerts` stores in `id.bbfix`, with
`scale = 1.9f / max(...)`. For the empty list the divisor is `-inf` in `float` and the quotient
is `-0.0f`, read as 0. -/
def bbfixOf (verts : List (Vec3 K)) : Mat4 K :=
  let bb := boundingBox verts
  let scale := if verts.isEmpty then 0 else (19 / 10 : K) / maxExtent verts
  let t := (((bb.1.add bb.2).neg).smul scale).sdiv 2
  { c0 := ⟨scale, 0, 0, 0⟩,
    c1 := ⟨0, scale, 0, 0⟩,
    c2 := ⟨0, 0, scale, 0⟩,
    c3 := ⟨t.x, t.y, t.z, 1⟩ }

/-- The value `lastID.first + lastID.count` of the last record, `0` when there is none. -/
def usedVerts (iterData : List (IterData K)) : Nat :=
  match iterData.getLast? with
  | none => 0
  | some lastID => lastID.first + lastID.count

/-- The method `LSystem::addVerts`: append the record of `verts` and grow the buffer. -/
def addVerts (st : LSystem K) (verts : List (Vec3 K)) : LSystem K :=
  let id : IterData K := ⟨usedVerts st.iterData, verts.length, bbfixOf verts⟩
  let newSize := (id.first + id.count) * sizeofVec3
  { st with iterData := st.iterData ++ [id],
            bufSize := if newSize > st.bufSize then newSize else st.bufSize }

/-! ## `LSystem::iterate` and `LSystem::parse` -/

/-- The accessor `LSystem::getNumIter`. -/
def getNumIter (st : LSystem K) : Nat := st.strings.length

/-- The accessor `LSystem::getString`; `at` throws when out of range. -/
def getString (st : LSystem K) (iter : Nat) : Option (List Char) := st.strings.get? iter

/-- The method `LSystem::iterate`: the outcome (the returned count, or the exception thrown) and
the object afterwards. `iterData.back()` on an empty vector is undefined in C++ and is read as a
record with `first + count = 0`; it is never reached from the constructor, `parse` and `iterate`. -/
def iterate (m : MathOps K) (st : LSystem K) : Except String Nat × LSystem K :=
  match st.strings.getLast? with
  | none => (.ok 0, st)
  | some back =>
    let r := applyRules st.rules back st.rng
    let newString := r.1
    let v := createGeometry m st.angle st.jitter newString r.2
    let verts := v.1
    let st1 := { st with rng := v.2 }
    if (usedVerts st.iterData + verts.length) * sizeofVec3 > MAX_BUF then
      (.error "geometry exceeds maximum buffer size", st1)
    else
      let st2 := addVerts { st1 with strings := st1.strings ++ [newString] } verts
      (.ok (getNumIter st2), st2)

/-- The loop `while (strings.size() < inIters) iterate();` inside the `try` of `parse`; an
exception leaves the loop. `fuel` bounds the number of rounds. -/
def iterateLoop (m : MathOps K) (inIters : Nat) : Nat → LSystem K → LSystem K
  | 0, st => st
  | fuel + 1, st =>
    if st.strings.length < inIters then
      match iterate m st with
      | (.ok _, st1) => iterateLoop m inIters fuel st1
      | (.error _, st1) => st1
    else st

/-- The object as the constructor `LSystem::LSystem()` leaves it; `jitter` is not initialised there
and `rng` is seeded from `std::random_device`, so both are arbitrary. -/
def LSystem.create (jitter : K) (g : Rng K) : LSystem K :=
  ⟨[], [], 0, jitter, g, [], 0⟩

/-- The second half of `LSystem::parse` (from `angle = inAngle;` on), run once the fields
`inAngle`, `inJitter`, `inIters`, `inText` (the first string) and `inRules` have been read
from the description. Every round of the loop adds a string, so `inIters - 1` rounds suffice. -/
def parseCommit (m : MathOps K) (st : LSystem K) (inAngle inJitter : K) (inIters : Nat)
    (inText : List Char) (inRules : Rules K) : LSystem K :=
  let st1 := { st with angle := inAngle, jitter := inJitter, strings := [inText],
                       rules := inRules, iterData := [] }
  let v := createGeometry m st1.angle st1.jitter inText st1.rng
  let st2 := addVerts { st1 with rng := v.2 } v.1
  iterateLoop m inIters (inIters - 1) st2

/-- The states an `LSystem` object can be in: constructed, then any sequence of `parse` calls
that get as far as committing their fields, and `iterate` calls. -/
inductive Reachable (m : MathOps K) : LSystem K → Prop
  | create (jitter : K) (g : Rng K) : Reachable m (LSystem.create jitter g)
  | parse (st : LSystem K) (inAngle inJitter : K) (inIters : Nat) (inText : List Char)
      (inRules : Rules K) :
      Reachable m st → Reachable m (parseCommit m st inAngle inJitter inIters inText inRules)
  | iterate (st : LSystem K) : Reachable m st → Reachable m (iterate m st).2

/-! ## Definitions used to state the properties -/

/-- A rational stand-in for the mathematical library, for running the definitions: crude
polynomial `cos` and `sin`, `inversesqrt` exact at 1 only. -/
def sampleOps : MathOps ℚ := ⟨fun x => 1 - x * x / 2, fun x => x, fun _ => 1, 22 / 7⟩

/-- A generator whose every canonical draw is `1/2`. -/
def halfRng : Rng ℚ := fun _ => ⟨1 / 2, by norm_num, by norm_num⟩

/-- Spec wording, the plain context-free rewrite `h`: each character that has a rule is replaced
by the replacement of its rule, every other character is kept. -/
def plainRewrite (rules : Rules K) (s : List Char) : List Char :=
  s.flatMap (fun c =>
    match rules.find? (fun r => r.1 == c) with
    | some r => r.2.1
    | none => [c])

/-- Every symbol that has a rule has exactly one candidate, of weight 1 (no siblings). -/
def SingleCandidate (rules : Rules K) : Prop :=
  ∀ c, equalRange rules c = [] ∨ ∃ rep, equalRange rules c = [(rep, 1)]

/-- The outcome of `k` calls of `iterate` in a row when all of them return normally. -/
def iterateTimes (m : MathOps K) : Nat → LSystem K → Option (LSystem K)
  | 0, st => some st
  | k + 1, st =>
    match iterate m st with
    | (.ok _, st1) => iterateTimes m k st1
    | (.error _, _) => none

/-- Spec wording: the cumulative weight of the candidates up to and including index `i`. -/
def cumulativeWeight (cands : List (List Char × K)) (i : Nat) : K :=
  ((cands.take (i + 1)).map (fun cand => cand.2)).sum

/-- Spec wording: the index of the first candidate, in rule-definition order, whose cumulative
weight is at least the drawn value `r`. -/
def firstReaching (cands : List (List Char × K)) (r : K) : Option Nat :=
  (List.range cands.length).find? (fun i => r ≤ cumulativeWeight cands i)

/-- Spec wording: the value drawn for a ruled symbol, `uniform(0, totalWeight)` at canonical
draw `u`. -/
def drawnValue (cands : List (List Char × K)) (u : Canon K) : K :=
  (cands.map (fun cand => cand.2)).sum * u.val

/-- Spec wording: what one ruled symbol is rewritten to at canonical draw `u`. -/
def chosenReplacement (cands : List (List Char × K)) (u : Canon K) : List Char :=
  match firstReaching cands (drawnValue cands u) with
  | some i => ((cands.get? i).map (fun cand => cand.1)).getD []
  | none => []

/-- Spec wording: the rewrite of a string, character by character in order; a ruled symbol
consumes one draw of the generator. -/
def weightedRewrite (rules : Rules K) : List Char → Rng K → List Char
  | [], _ => []
  | c :: cs, g =>
    if equalRange rules c = [] then c :: weightedRewrite rules cs g
    else chosenReplacement (equalRange rules c) (g 0) ++ weightedRewrite rules cs g.next.2

/-- The brackets of the string are properly nested, read from bracket depth `d`: no `]` closes
more than is open, and the string ends at depth `0`. -/
def nestedFrom : Nat → List Char → Bool
  | d, [] => d == 0
  | d, c :: cs =>
    if c = '[' then nestedFrom (d + 1) cs
    else if c = ']' then
      match d with
      | 0 => false
      | d1 + 1 => nestedFrom d1 cs
    else nestedFrom d cs

/-- The brackets of the string are properly nested. -/
def properlyNested (w : List Char) : Bool := nestedFrom 0 w

/-- The number of vertices held by the records: the sum of their counts. -/
def storedVerts (iterData : List (IterData K)) : Nat :=
  (iterData.map (fun d => d.count)).sum

/-- The string that the next call of `iterate` computes from the last string `back`. -/
def nextString (st : LSystem K) (back : List Char) : List Char :=
  (applyRules st.rules back st.rng).1

/-- The vertices that the next call of `iterate` computes for its new string. -/
def nextVerts (m : MathOps K) (st : LSystem K) (back : List Char) : List (Vec3 K) :=
  (createGeometry m st.angle st.jitter (applyRules st.rules back st.rng).1
    (applyRules st.rules back st.rng).2).1

/-- The records are laid out one after the other from vertex `start` on: each `first` is the
previous `first + count`. -/
def ChainFrom : Nat → List (IterData K) → Prop
  | _, [] => True
  | start, d :: ds => d.first = start ∧ ChainFrom (d.first + d.count) ds

/-- The number of characters of a string that draw a segment (`f`, `F`, `g`, `G`). -/
def drawCount (s : List Char) : Nat :=
  s.countP (fun c => decide (c.toLower = 'f' ∨ c.toLower = 'g'))

/-- Every component of the vertex is a finite `float`: it lies between `-FLT_MAX` and
`FLT_MAX`. -/
def inFloatRange (v : Vec3 K) : Prop :=
  (-floatMax ≤ v.x ∧ v.x ≤ floatMax) ∧ (-floatMax ≤ v.y ∧ v.y ≤ floatMax) ∧
    (-floatMax ≤ v.z ∧ v.z ≤ floatMax)

/-- The cross product `a × b` (the function `glm::cross`), used to describe quarter turns. -/
def Vec3.cross (a b : Vec3 K) : Vec3 K :=
  ⟨a.y * b.z - a.z * b.y, a.z * b.x - a.x * b.z, a.x * b.y - a.y * b.x⟩

/-- The frame of the cursor is orthonormal: `dir`, `up`, `right` are unit vectors, perpendicular
to one another. -/
def Cursor.Orthonormal (c : Cursor K) : Prop :=
  c.dir.dot c.dir = 1 ∧ c.up.dot c.up = 1 ∧ c.right.dot c.right = 1 ∧
    c.up.dot c.dir = 0 ∧ c.up.dot c.right = 0 ∧ c.dir.dot c.right = 0

/-- The library functions are exact at the quarter turn: `cos` and `sin` of `radians(90)` and
`radians(-90)` are `0, 1, 0, -1`, and `inversesqrt(1) = 1`. -/
def QuarterExact (m : MathOps K) : Prop :=
  m.cos (radians m 90) = 0 ∧ m.sin (radians m 90) = 1 ∧
    m.cos (radians m (-90)) = 0 ∧ m.sin (radians m (-90)) = -1 ∧ m.inversesqrt 1 = 1

/-! ## Text input: `trim`, `getNextLine`, `preprocessStream` and the first half of `parse` -/

/-- How a piece of code ends: it returns a value, it throws an exception (with its message), or
it never returns. -/
inductive Outcome (α : Type) where
  | ok (a : α)
  | throws (what : String)
  | diverges
deriving DecidableEq

/-- The call `s.find(c)`: the position of the first occurrence of `c`; `none` is `npos`. -/
def find : List Char → Char → Option Nat
  | [], _ => none
  | x :: xs, c => if x = c then some 0 else (find xs c).map (fun i => i + 1)

/-- The call `s.substr(pos, n)`; every call in the source has `pos <= s.size()`. -/
def substr (s : List Char) (pos n : Nat) : List Char := (s.drop pos).take n

/-- The call `s.substr(pos)`; every call in the source has `pos <= s.size()`. -/
def substrFrom (s : List Char) (pos : Nat) : List Char := s.drop pos

/-- The constant `std::string::npos` of a 64-bit `size_t`. -/
def npos : Nat := 2 ^ 64 - 1

/-- The characters of `const std::string whitespace = " \t\r\n"` in `trim`. -/
def whitespace : List Char := [' ', '\t', '\r', '\n']

/-- The call `s.find_first_not_of(set)`; `none` is `npos`. -/
def findFirstNotOf : List Char → List Char → Option Nat
  | [], _ => none
  | x :: xs, set => if set.contains x then (findFirstNotOf xs set).map (fun i => i + 1) else some 0

/-- The call `s.find_last_not_of(set)`; `none` is `npos`. -/
def findLastNotOf : List Char → List Char → Option Nat
  | [], _ => none
  | x :: xs, set =>
    match findLastNotOf xs set with
    | some i => some (i + 1)
    | none => if set.contains x then none else some 0

/-- The helper `trim` of `lsystem.cpp`. -/
def trim (line : List Char) : List Char :=
  match findFirstNotOf line whitespace with
  | none => []
  | some first =>
    match findLastNotOf line whitespace with
    | none => []
    | some last => substr line first (last - first + 1)

/-- An input stream `std::istream`: the characters not yet read, the state bits `eofbit` and
`failbit`, and whether `exceptions(badbit | failbit)` has been set. `badbit` never arises. -/
structure IStream where
  rest : List Char
  eofbit : Bool
  failbit : Bool
  throwing : Bool
deriving DecidableEq

/-- A freshly constructed `std::stringstream` holding `text`. -/
def IStream.ofString (text : List Char) : IStream := ⟨text, false, false, false⟩

/-- The member `istr.eof()`. -/
def IStream.eof (istr : IStream) : Bool := istr.eofbit

/-- Split the unread characters at the first newline: the characters before it and, when there
is a newline, the characters after it. -/
def lineBreak : List Char → List Char × Option (List Char)
  | [] => ([], none)
  | c :: cs =>
    if c = '\n' then ([], some cs)
    else ((c :: (lineBreak cs).1), (lineBreak cs).2)

/-- The call `std::getline(istr, line)`, before any exception is raised: the new value of `line`
and the stream afterwards. If the stream is not good the sentry fails: `failbit` is set and
`line` is left as it was. Otherwise `line` is erased and characters are extracted up to the
newline, which is discarded; meeting the end sets `eofbit`, extracting nothing sets `failbit`. -/
def getline (istr : IStream) (line : List Char) : List Char × IStream :=
  if istr.eofbit ∨ istr.failbit then
    (line, { istr with failbit := true })
  else
    match istr.rest with
    | [] => ([], { istr with eofbit := true, failbit := true })
    | c :: cs =>
      match lineBreak (c :: cs) with
      | (l, none) => (l, { istr with rest := [], eofbit := true })
      | (l, some r) => (l, { istr with rest := r })

/-- The part of the loop body of `getNextLine` after `std::getline`: cut at the first `#`. -/
def cutComment (line : List Char) : List Char :=
  match find line '#' with
  | some found => substr line 0 found
  | none => line

/-- The loop `while (line == "")` of `getNextLine`, entered with `line == ""`. A failed
`std::getline` throws when the stream has `exceptions` set; otherwise `line` stays empty and the
stream stays failed, so the loop never ends. `fuel` bounds the number of rounds. -/
def getNextLineLoop : Nat → IStream → Outcome (List Char) × IStream
  | 0, istr => (.diverges, istr)
  | fuel + 1, istr =>
    let r := getline istr []
    if r.2.failbit then
      if r.2.throwing then (.throws "basic_ios::clear", r.2) else (.diverges, r.2)
    else
      let line := trim (cutComment r.1)
      if line = [] then getNextLineLoop fuel r.2 else (.ok line, r.2)

/-- The helper `getNextLine`: the next line that is not empty after its comment is cut and it is
trimmed, together with the stream afterwards. Every round that goes on consumes a character, so
`rest.length + 1` rounds suffice. -/
def getNextLine (istr : IStream) : Outcome (List Char) × IStream :=
  getNextLineLoop (istr.rest.length + 1) istr

/-- The loop `while (true)` of `preprocessStream` with its `catch`: `ss` is what has been
written to the output so far. -/
def preprocessLoop : Nat → IStream → List Char → Outcome (List Char)
  | 0, _, _ => .diverges
  | fuel + 1, istr, ss =>
    match getNextLine istr with
    | (.ok line, istr1) => preprocessLoop fuel istr1 (ss ++ line ++ ['\n'])
    | (.throws what, istr1) => if !istr1.eof then .throws what else .ok ss
    | (.diverges, _) => .diverges

/-- The helper `preprocessStream`: the text of the returned `std::stringstream`. The call
`istr.exceptions(...)` throws at once if `failbit` is already set. -/
def preprocessStream (istr : IStream) : Outcome (List Char) :=
  if istr.failbit then .throws "basic_ios::clear"
  else preprocessLoop (istr.rest.length + 1) { istr with throwing := true } []

/-- The characters `std::isspace` accepts in the C locale, skipped by `stoi` and `stof`. -/
def isSpace (c : Char) : Bool :=
  c = ' ' ∨ c = '\t' ∨ c = '\n' ∨ c = '\x0b' ∨ c = '\x0c' ∨ c = '\r'

/-- The value of a decimal digit character. -/
def digitVal (c : Char) : Nat := c.toNat - '0'.toNat

/-- The value of a string of decimal digits. -/
def digitsValue (ds : List Char) : Nat := ds.foldl (fun acc d => 10 * acc + digitVal d) 0

/-- The function `std::stoi(s)` (base 10): leading white space, an optional sign, then the longest
run of digits; what follows the digits is ignored. It throws `invalid_argument` when there is no
digit and `out_of_range` when the value is not an `int`. -/
def stoi (s : List Char) : Except String Int :=
  let s1 := s.dropWhile isSpace
  let negative := s1.head? = some '-'
  let s2 := match s1 with
    | '-' :: r => r
    | '+' :: r => r
    | _ => s1
  let ds := s2.takeWhile Char.isDigit
  if ds = [] then .error "stoi: invalid_argument"
  else
    let v : Int := if negative then -(digitsValue ds : Int) else (digitsValue ds : Int)
    if v < -(2 ^ 31) ∨ 2 ^ 31 - 1 < v then .error "stoi: out_of_range" else .ok v

/-- The conversion of the `int` returned by `stoi` to `unsigned int inIters`. -/
def toUnsigned (n : Int) : Nat := (n % 2 ^ 32).toNat

/-- The decimal forms accepted by `std::stof`, in exact arithmetic: leading white space, an
optional sign, digits with an optional point (at least one digit), an optional exponent; what
follows is ignored. `none` stands for the exceptions `invalid_argument` (no number) and
`out_of_range` (beyond `FLT_MAX`). Hexadecimal forms, `inf` and `nan` are outside this model. -/
def stofDecimal (s : List Char) : Option ℚ :=
  let s1 := s.dropWhile isSpace
  let negative := s1.head? = some '-'
  let s2 := match s1 with
    | '-' :: r => r
    | '+' :: r => r
    | _ => s1
  let ip := s2.takeWhile Char.isDigit
  let s3 := s2.dropWhile Char.isDigit
  let fp := match s3 with
    | '.' :: r => r.takeWhile Char.isDigit
    | _ => []
  let s4 := match s3 with
    | '.' :: r => r.dropWhile Char.isDigit
    | _ => s3
  if ip = [] ∧ fp = [] then none
  else
    let mantissa : ℚ := (digitsValue ip : ℚ) + (digitsValue fp : ℚ) / 10 ^ fp.length
    let s5 := match s4 with
      | 'e' :: r => r
      | 'E' :: r => r
      | _ => []
    let expNegative := s5.head? = some '-'
    let s6 := match s5 with
      | '-' :: r => r
      | '+' :: r => r
      | _ => s5
    let ed := s6.takeWhile Char.isDigit
    let exponent : Int := if expNegative then -(digitsValue ed : Int) else (digitsValue ed : Int)
    let magnitude : ℚ := mantissa * 10 ^ exponent
    let v : ℚ := if negative then -magnitude else magnitude
    if floatMax < |v| then none else some v

/-- One rule line, the body of the `try` block after the line is read: the entry `(key[0],
(value, weight))` to be emplaced, or the exception. `stof` is the library function, `none` when it
throws. For an empty `key`, `key[0]` is the terminating null character. -/
def parseRule (stof : List Char → Option K) (line : List Char) :
    Except String (Char × List Char × K) :=
  match find line ':' with
  | none => .error "missing ':'"
  | some colonPos =>
    let key := trim (substr line 0 colonPos)
    let value := trim (substrFrom line (colonPos + 1))
    match find value ' ' with
    | some weightPos =>
      match stof (substrFrom value (weightPos + 1)) with
      | none => .error "stof"
      | some weight => .ok (key.headD '\x00', substr value 0 weightPos, weight)
    | none => .ok (key.headD '\x00', value, 1)

/-- The loop `while (true)` over the rule lines in `parse`, with its `try` / `catch`; `line` is
the variable `line` on entry to a round, `inRules` the rules read so far. A failed `std::getline`
leaves `line` as it was; if that line is then accepted as a rule, the same round repeats for
ever. An exception is swallowed (`break`) when `istr.eof()` and rethrown otherwise. -/
def rulesLoop (stof : List Char → Option K) :
    Nat → IStream → List Char → Rules K → Outcome (Rules K)
  | 0, _, _, _ => .diverges
  | fuel + 1, istr, line, inRules =>
    let r := getline istr line
    if r.2.failbit ∧ r.2.throwing then
      if r.2.eof then .ok inRules else .throws "basic_ios::clear"
    else if r.1 = [] then .ok inRules
    else
      match parseRule stof r.1 with
      | .error what => if r.2.eof then .ok inRules else .throws what
      | .ok rule =>
        if r.2.failbit then .diverges
        else rulesLoop stof fuel r.2 r.1 (inRules ++ [rule])

/-- The statements of `parse` after the rule loop: split the angle line at `<` and `>` and
convert the angle and the jitter. The length `endPos - pos - 1` is computed in `size_t`. -/
def parseAngle (stof : List Char → Option K) (angleLine : List Char) : Except String (K × K) :=
  match find angleLine '<' with
  | some pos =>
    let endPos := (find angleLine '>').getD npos
    let angleStr := substr angleLine 0 pos
    let jitterStr := substr angleLine (pos + 1) ((endPos + 2 ^ 64 - pos - 1) % 2 ^ 64)
    match stof angleStr with
    | none => .error "stof"
    | some inAngle =>
      match stof jitterStr with
      | none => .error "stof"
      | some inJitter => .ok (inAngle, inJitter)
  | none =>
    match stof angleLine with
    | none => .error "stof"
    | some inAngle => .ok (inAngle, 0)

/-- The local variables of `parse` once the description has been read. -/
structure Fields (K : Type) where
  inAngle : K
  inJitter : K
  inIters : Nat
  inText : List Char
  inRules : Rules K

/-- The first half of `LSystem::parse`, up to the debug output: read the angle line, the
iteration count, the first string and the rules, then convert the angle line. Nothing of the
object is touched. -/
def parseFields (stof : List Char → Option K) (istr : IStream) : Outcome (Fields K) :=
  match getNextLine istr with
  | (.throws what, _) => .throws what
  | (.diverges, _) => .diverges
  | (.ok angleLine, istr1) =>
    match getNextLine istr1 with
    | (.throws what, _) => .throws what
    | (.diverges, _) => .diverges
    | (.ok line, istr2) =>
      match stoi line with
      | .error what => .throws what
      | .ok n =>
        match getNextLine istr2 with
        | (.throws what, _) => .throws what
        | (.diverges, _) => .diverges
        | (.ok inText, istr3) =>
          match rulesLoop stof (istr3.rest.length + 1) istr3 inText [] with
          | .throws what => .throws what
          | .diverges => .diverges
          | .ok inRules =>
            match parseAngle stof angleLine with
            | .error what => .throws what
            | .ok a => .ok ⟨a.1, a.2, toUnsigned n, inText, inRules⟩

/-- The method `LSystem::parse`: how the call ends and the object afterwards. The object is
written only by the second half (`parseCommit`), which catches the exception of `iterate`. -/
def parse (m : MathOps K) (stof : List Char → Option K) (st : LSystem K) (istr : IStream) :
    Outcome Unit × LSystem K :=
  match parseFields stof istr with
  | .ok f => (.ok (), parseCommit m st f.inAngle f.inJitter f.inIters f.inText f.inRules)
  | .throws what => (.throws what, st)
  | .diverges => (.diverges, st)

/-- The method `LSystem::parseString`; `parseFile` does the same with the text of the file. -/
def parseString (m : MathOps K) (stof : List Char → Option K) (st : LSystem K)
    (string : List Char) : Outcome Unit × LSystem K :=
  match preprocessStream (IStream.ofString string) with
  | .ok ss => parse m stof st (IStream.ofString ss)
  | .throws what => (.throws what, st)
  | .diverges => (.diverges, st)

/-- One of the characters space, tab, CR, LF. -/
def isWhitespace (c : Char) : Bool := whitespace.contains c

/-- Spec wording: trimming leading and trailing whitespace. -/
def stripWhitespace (l : List Char) : List Char :=
  (l.dropWhile isWhitespace).rdropWhile isWhitespace

/-- Spec wording: a line cut at its first `#`, then trimmed. -/
def cleanLine (l : List Char) : List Char :=
  stripWhitespace (l.takeWhile (fun c => c != '#'))

/-- Spec wording: the lines of a text, cut at every newline (a text without newline is one
line). -/
def splitLines : List Char → List (List Char)
  | [] => [[]]
  | c :: cs =>
    if c = '\n' then [] :: splitLines cs
    else
      match splitLines cs with
      | l :: ls => (c :: l) :: ls
      | [] => [[c]]

/-- Spec wording: the lines of a text after cutting comments and trimming, those that become
empty discarded: the content lines of a description. -/
def cleanLines (text : List Char) : List (List Char) :=
  ((splitLines text).map cleanLine).filter (fun l => !l.isEmpty)

/-- Spec wording: the lines written out one after the other, each followed by a newline. -/
def unlines (ls : List (List Char)) : List Char := ls.flatMap (fun l => l ++ ['\n'])

/-- The rule lines read one after the other: the entries in line order, or the exception of the
first line that is rejected. -/
def readRules (stof : List Char → Option K) : List (List Char) → Except String (Rules K)
  | [] => .ok []
  | l :: ls =>
    match parseRule stof l with
    | .error what => .error what
    | .ok rule =>
      match readRules stof ls with
      | .error what => .error what
      | .ok rules => .ok (rule :: rules)

/-- A content line as `preprocessStream` writes it: not empty, without `#` and newline, neither
starting nor ending with whitespace. -/
def Clean (l : List Char) : Prop :=
  l ≠ [] ∧ '#' ∉ l ∧ '\n' ∉ l ∧ (∀ c, l.head? = some c → isWhitespace c = false) ∧
    (∀ c, l.getLast? = some c → isWhitespace c = false)

/-- The angle field of the angle line: the text before `<`, or the whole line without `<`
(the string handed to the first `std::stof` of `parse`). -/
def angleField (angleLine : List Char) : List Char :=
  match find angleLine '<' with
  | some pos => substr angleLine 0 pos
  | none => angleLine

/-- The jitter field of the angle line, when there is a `<`: `angleLine.substr(pos + 1,
endPos - pos - 1)`, the text between `<` and `>`. -/
def jitterField (angleLine : List Char) : Option (List Char) :=
  match find angleLine '<' with
  | some pos =>
    some (substr angleLine (pos + 1) (((find angleLine '>').getD npos + 2 ^ 64 - pos - 1) % 2 ^ 64))
  | none => none

/-- A rule line of the form `S : R` (no weight) or `S : R W`: the symbol, the replacement and
the text of the weight when one is written. -/
structure RuleLine where
  sym : Char
  rep : List Char
  weight : Option (List Char)
deriving DecidableEq

/-- The text of a rule line: `S : R` or `S : R W`. -/
def RuleLine.text (r : RuleLine) : List Char :=
  r.sym :: ' ' :: ':' :: ' ' :: (r.rep ++
    (match r.weight with
      | none => []
      | some w => ' ' :: w))

/-- The parts of a rule line are proper: the symbol is neither whitespace nor `:`, the
replacement is not empty, and neither the replacement nor the weight text contains whitespace. -/
def RuleLine.WellFormed (r : RuleLine) : Prop :=
  isWhitespace r.sym = false ∧ r.sym ≠ ':' ∧ r.rep ≠ [] ∧
    (∀ c ∈ r.rep, isWhitespace c = false) ∧
    (∀ w, r.weight = some w → w ≠ [] ∧ ∀ c ∈ w, isWhitespace c = false)

/-- The weight a rule line stands for: 1 when none is written, otherwise what `std::stof` makes of
the written text (`none` when it throws). -/
def RuleLine.value (stof : List Char → Option K) (r : RuleLine) : Option K :=
  match r.weight with
  | none => some 1
  | some w => stof w

/-- Whether the `catch` block after the loop `while (strings.size() < inIters) iterate();` is
entered: some `iterate` call of the loop threw. Same rounds as `iterateLoop`. -/
def iterateLoopCaught (m : MathOps K) (inIters : Nat) : Nat → LSystem K → Bool
  | 0, _ => false
  | fuel + 1, st =>
    if st.strings.length < inIters then
      match iterate m st with
      | (.ok _, st1) => iterateLoopCaught m inIters fuel st1
      | (.error _, _) => true
    else false

/-- Whether the second half of `parse` ends in its `catch` block (the message `Too many
iterations: geometry exceeds maximum buffer size` is printed). -/
def parseCommitCaught (m : MathOps K) (st : LSystem K) (inAngle inJitter : K) (inIters : Nat)
    (inText : List Char) (inRules : Rules K) : Bool :=
  let st1 := { st with angle := inAngle, jitter := inJitter, strings := [inText],
                       rules := inRules, iterData := [] }
  let v := createGeometry m st1.angle st1.jitter inText st1.rng
  let st2 := addVerts { st1 with rng := v.2 } v.1
  iterateLoopCaught m inIters (inIters - 1) st2

/-- Each string after the first is `applyRules` of the one before it, for some state of the
generator. -/
def RewriteChain (rules : Rules K) (strings : List (List Char)) : Prop :=
  List.Chain' (fun s1 s2 => ∃ g : Rng K, s2 = (applyRules rules s1 g).1) strings

/-! ## Branch thickness of the fractal tree (`src/source/tree.cpp`, `GenerateNewTree`)

`powf` is the C library function, passed as a parameter; the theorems take the real power
function for it. -/

namespace Tree

/-- The local `trunkThickness = 0.5f * powf(1.3f, float(treeIterations))`. -/
def trunkThickness (powf : K → K → K) (treeIterations : Int) : K :=
  (1 / 2 : K) * powf (13 / 10) (treeIterations : K)

/-- The local `branchScalar = 0.4f`. -/
def branchScalar : K := 2 / 5

/-- The local `depthScalar = powf(0.75f, 1.0f / float(treeSubdivisions))`. -/
def depthScalar (powf : K → K → K) (treeSubdivisions : Int) : K :=
  powf (3 / 4) (1 / (treeSubdivisions : K))

/-- The lambda `getBranchThickness(branchDepth, nodeDepth)` of `GenerateNewTree`, with the
locals it captures computed from `treeIterations` and `treeSubdivisions`. -/
def getBranchThickness (powf : K → K → K) (treeIterations treeSubdivisions : Int)
    (branchDepth nodeDepth : Int) : K :=
  trunkThickness powf treeIterations * powf branchScalar (branchDepth : K)
    * powf (depthScalar powf treeSubdivisions) (nodeDepth : K)

end Tree

namespace Tree

/-- The conversion `int(x)` of a `float` or `double` value: truncation toward zero. -/
def truncToInt [FloorRing K] (x : K) : Int := if 0 ≤ x then Int.floor x else Int.ceil x

/-- The constant `trunkCylinderDivisions = 32`. -/
def trunkCylinderDivisions : Int := 32

/-- The lambda `getCylinderDivisions(branchDepth)` of `GenerateNewTree`; `pow` is the C library
function on `double`. -/
def getCylinderDivisions [FloorRing K] (pow : K → K → K) (branchDepth : Int) : Int :=
  let cylinderDivisions := truncToInt ((trunkCylinderDivisions : K) / pow 2 (branchDepth : K))
  if cylinderDivisions < 4 then 6 else cylinderDivisions

/-- The local `growthCurve = treeIterations / (1.0f + float(treeIterations))`. -/
def growthCurve (treeIterations : Int) : K := (treeIterations : K) / (1 + (treeIterations : K))

/-- The local `pruningChance = growthCurve * 2.0f - 1.0f`. -/
def pruningChance (treeIterations : Int) : K := growthCurve treeIterations * 2 - 1

/-- The local `leavesPerBranch`: `25 - int(20 * (growthCurve * 2.0f - 1.0f))`, then the guard
`(leavesPerBranch == 0) ? 1 : leavesPerBranch`. -/
def leavesPerBranch (K : Type) [LinearOrderedField K] [FloorRing K] (treeIterations : Int) :
    Int :=
  let leavesPerBranch := 25 - truncToInt ((20 : K) * (growthCurve treeIterations * 2 - 1))
  if leavesPerBranch = 0 then 1 else leavesPerBranch

/-- The local `stepSize = leafNode->length / leavesPerBranch` of the leaf scattering loop. -/
def stepSize [FloorRing K] (length : K) (treeIterations : Int) : K :=
  length / (leavesPerBranch K treeIterations : K)

/-- The function `glm::mix(x, y, a)` on scalars: `x * (1 - a) + y * a`. -/
def mix (x y a : K) : K := x * (1 - a) + y * a

/-- The local `blendAlpha = depth / float(treeSubdivisions)` of the root-blend region. -/
def blendAlpha (depth treeSubdivisions : Int) : K := (depth : K) / (treeSubdivisions : K)

/-- The ring thickness in the root-blend region:
`glm::mix(thickness / branchScalar, thickness, 0.4f + 0.6f * blendAlpha)`. -/
def blendThickness (thickness : K) (depth treeSubdivisions : Int) : K :=
  mix (thickness / branchScalar) thickness (2 / 5 + 3 / 5 * blendAlpha depth treeSubdivisions)

end Tree

/-! ## The viewer: `menu`, `display` and the start of `main` (`src/prev_tree/src/main.cpp`) -/

/-- The method `LSystem::parseFile`: `files` gives the text of the files that can be opened.
The text goes the way of `parseString`. -/
def parseFile (m : MathOps K) (stof : List Char → Option K)
    (files : List Char → Option (List Char)) (st : LSystem K) (filename : List Char) :
    Outcome Unit × LSystem K :=
  match files filename with
  | none => (.throws "failed to open", st)
  | some text => parseString m stof st text

/-- The method `LSystem::drawIter`, as far as the object is concerned: the record
`iterData.at(iter)` it draws; `at` throws when `iter` is out of range. -/
def drawIter (st : LSystem K) (iter : Nat) : Except String (IterData K) :=
  match st.iterData.get? iter with
  | some id => .ok id
  | none => .error "vector::at"

/-- The globals of `main.cpp` that `menu` and `display` read and write; `iter` is an
`unsigned int`. -/
structure Viewer (K : Type) [LinearOrderedField K] where
  lsystem : LSystem K
  iter : Nat
  lastFilename : List Char
  lastFilenameIdx : Int

/-- The menu identifier `MENU_OBJBASE`. -/
def MENU_OBJBASE : Int := 64

/-- The menu identifier `MENU_PREVITER`. -/
def MENU_PREVITER : Int := 2

/-- The menu identifier `MENU_NEXTITER`. -/
def MENU_NEXTITER : Int := 3

/-- The menu identifier `MENU_REPARSE`. -/
def MENU_REPARSE : Int := 4

/-- The menu identifier `MENU_EXIT`. -/
def MENU_EXIT : Int := 1

/-- The assignment `iter = lsystem->getNumIter() - 1` in `unsigned int` arithmetic. -/
def lastIter (st : LSystem K) : Nat := (getNumIter st + 2 ^ 32 - 1) % 2 ^ 32

/-- The part of `display` that draws the L-system: nothing when `getNumIter() == 0`, else
`drawIter(iter)`. -/
def display (v : Viewer K) : Except String (Option (IterData K)) :=
  if getNumIter v.lsystem > 0 then
    match drawIter v.lsystem v.iter with
    | .ok id => .ok (some id)
    | .error what => .error what
  else .ok none

/-- The callback `menu(cmd)`: the globals afterwards. Every exception is caught inside; the call
does not return when `parseFile` does not. An identifier past the end of `modelFilenames`
(undefined behaviour of `operator[]`; the menu has no such entry) is reported as `throws`. -/
def menu (m : MathOps K) (stof : List Char → Option K) (files : List Char → Option (List Char))
    (modelFilenames : List (List Char)) (v : Viewer K) (cmd : Int) : Outcome (Viewer K) :=
  if cmd = MENU_EXIT then .ok v
  else if cmd = MENU_PREVITER then
    if v.iter ≠ 0 then .ok { v with iter := v.iter - 1 } else .ok v
  else if cmd = MENU_NEXTITER then
    if getNumIter v.lsystem = 0 then .ok v
    else if (v.iter + 1) % 2 ^ 32 ≥ getNumIter v.lsystem then
      match iterate m v.lsystem with
      | (.ok _, st1) => .ok { v with lsystem := st1, iter := (v.iter + 1) % 2 ^ 32 }
      | (.error _, st1) => .ok { v with lsystem := st1 }
    else .ok { v with iter := (v.iter + 1) % 2 ^ 32 }
  else if cmd = MENU_REPARSE then
    if v.lastFilename ≠ [] then
      match parseFile m stof files v.lsystem v.lastFilename with
      | (.ok _, st1) => .ok { v with lsystem := st1, iter := lastIter st1 }
      | (.throws _, st1) => .ok { v with lsystem := st1 }
      | (.diverges, _) => .diverges
    else .ok v
  else if cmd ≥ MENU_OBJBASE then
    match modelFilenames.get? (cmd - MENU_OBJBASE).toNat with
    | none => .throws "modelFilenames: index out of range"
    | some filename =>
      match parseFile m stof files v.lsystem filename with
      | (.ok _, st1) =>
        .ok { lsystem := st1, iter := lastIter st1, lastFilename := filename,
              lastFilenameIdx := cmd - MENU_OBJBASE }
      | (.throws _, st1) => .ok { v with lsystem := st1 }
      | (.diverges, _) => .diverges
  else .ok v

/-- The globals when `main` enters `glutMainLoop`: a new `LSystem`, then `parseFile(configFile)`
if a name is given; a parse error is caught and reported. -/
def viewerStart (m : MathOps K) (stof : List Char → Option K)
    (files : List Char → Option (List Char)) (modelFilenames : List (List Char))
    (jitter : K) (g : Rng K) (configFile : List Char) : Outcome (Viewer K) :=
  let lsystem := LSystem.create jitter g
  if configFile ≠ [] then
    match parseFile m stof files lsystem configFile with
    | (.ok _, st1) =>
      .ok { lsystem := st1, iter := lastIter st1, lastFilename := configFile,
            lastFilenameIdx := (List.range modelFilenames.length).foldl
              (fun idx i => if modelFilenames.get? i = some configFile then (i : Int) else idx)
              (-1) }
    | (.throws _, st1) => .ok ⟨st1, 0, [], -1⟩
    | (.diverges, _) => .diverges
  else .ok ⟨lsystem, 0, [], -1⟩

/-- The states of the viewer: the start, then any sequence of menu commands that return; the
files may change between commands. -/
inductive ViewerReachable (m : MathOps K) (stof : List Char → Option K)
    (modelFilenames : List (List Char)) : Viewer K → Prop
  | start (files : List Char → Option (List Char)) (jitter : K) (g : Rng K)
      (configFile : List Char) (v : Viewer K) :
      viewerStart m stof files modelFilenames jitter g configFile = .ok v →
      ViewerReachable m stof modelFilenames v
  | menu (files : List Char → Option (List Char)) (v v1 : Viewer K) (cmd : Int) :
      ViewerReachable m stof modelFilenames v →
      menu m stof files modelFilenames v cmd = .ok v1 →
      ViewerReachable m stof modelFilenames v1

/-- The invariant of the viewer: the object is in a state it can reach, and the displayed index
is below `getNumIter()` whenever there is an iteration. -/
def ViewerInv (m : MathOps K) (v : Viewer K) : Prop :=
  Reachable m v.lsystem ∧ (0 < getNumIter v.lsystem → v.iter < getNumIter v.lsystem)

/-! ## Branch meshes of the fractal tree (`src/source/tree.cpp`, the callback in
`GenerateNewTree`)

The types `Bone`, `FractalBranch` and `GLTriangleMesh` are declared in headers that are not
among the sources; they are modelled from what the specification says about them and from the
members the callback uses. The calls on `skeletonLines` do not touch the branch mesh and are
left out. -/

namespace Tree

/-- Modelled from the spec: the local transform of a `Bone` (position and basis), with the
members `position`, `forward` and `up` that the callback reads. -/
structure Transform (K : Type) where
  position : Vec3 K
  forward : Vec3 K
  up : Vec3 K

/-- Modelled from the spec: a `Bone`, one segment of a branch skeleton, with its local
transform, `length`, `nodeDepth` and the weak link `parent` (here the transform of the parent
bone, `none` for a null pointer). -/
structure Bone (K : Type) where
  transform : Transform K
  length : K
  nodeDepth : Int
  parent : Option (Transform K)

/-- Modelled from the spec: the method `Bone::tipPosition`, `position + forward * length`. -/
def Bone.tipPosition (bone : Bone K) : Vec3 K :=
  bone.transform.position.add (bone.transform.forward.smul bone.length)

/-- Modelled from the spec: a branch (`FractalBranch`), its `depth` (0 for the trunk) and its
ordered bones `nodes`, root end first. -/
structure FractalBranch (K : Type) where
  depth : Int
  nodes : List (Bone K)

/-- Modelled from the spec: one entry of the vertex arrays of the mesh container: position,
normal, colour and texture coordinates. -/
structure Vertex (K : Type) where
  position : Vec3 K
  normal : Vec3 K
  color : Vec4 K
  texCoord : Vec4 K

/-- Modelled from the spec: `GLTriangleMesh`, the growable container of vertices and triangle
indices; `positions.size()` is the length of `vertices`. -/
structure GLTriangleMesh (K : Type) where
  vertices : List (Vertex K)
  triangles : List (Int × Int × Int)

/-- Modelled from the spec: the method `GLTriangleMesh::AddVertex`, which appends one vertex. -/
def GLTriangleMesh.AddVertex (mesh : GLTriangleMesh K) (position normal : Vec3 K)
    (color texCoord : Vec4 K) : GLTriangleMesh K :=
  { mesh with vertices := mesh.vertices ++ [⟨position, normal, color, texCoord⟩] }

/-- Modelled from the spec: the method `GLTriangleMesh::DefineNewTriangle`, which appends the
three indices of one triangle. -/
def GLTriangleMesh.DefineNewTriangle (mesh : GLTriangleMesh K) (a b c : Int) :
    GLTriangleMesh K :=
  { mesh with triangles := mesh.triangles ++ [(a, b, c)] }

/-- The library functions the callback calls: those of the turtle, `sqrt` (inside
`glm::length`), `glm::acos` and `powf`. -/
structure Lib (K : Type) where
  math : MathOps K
  sqrt : K → K
  acos : K → K
  powf : K → K → K

/-- The function `glm::mix(x, y, a)` on vectors. -/
def vmix (x y : Vec3 K) (a : K) : Vec3 K := (x.smul (1 - a)).add (y.smul a)

/-- The locals `position`, `thickness`, `localX`, `localY` with which a ring is generated. -/
structure RingFrame (K : Type) where
  position : Vec3 K
  thickness : K
  localX : Vec3 K
  localY : Vec3 K

/-- The locals of a ring after the root-blend `if`: `first` is `branchNodes[0]->parent`,
`depth` the index of the bone in the branch, `thickness` its nominal thickness. -/
def ringFrame (lib : Lib K) (treeSubdivisions : Int) (first : Option (Transform K))
    (depth : Nat) (bone : Bone K) (thickness : K) : RingFrame K :=
  match first with
  | some parent =>
    if (depth : Int) < treeSubdivisions - 1 then
      let blendAlpha : K := blendAlpha (depth : Int) treeSubdivisions
      let u := parent.forward
      let v0 := bone.transform.position.sub parent.position
      let length := lib.sqrt (v0.dot v0)
      let v := v0.sdiv length
      let projectionOnParent :=
        parent.position.add (((u.smul (u.dot v)).smul length).smul blendAlpha)
      let position := vmix projectionOnParent bone.transform.position (1 / 2 + 1 / 2 * blendAlpha)
      let localY := normalize lib.math (vmix parent.forward bone.transform.forward blendAlpha)
      let rotationVector := normalize lib.math (bone.transform.forward.cross localY)
      let angle := lib.acos (bone.transform.forward.dot localY)
      { position := position,
        thickness := blendThickness thickness (depth : Int) treeSubdivisions,
        localX := rotate lib.math bone.transform.up angle rotationVector,
        localY := localY }
    else ⟨bone.transform.position, thickness, bone.transform.up, bone.transform.forward⟩
  | none => ⟨bone.transform.position, thickness, bone.transform.up, bone.transform.forward⟩

/-- The loop `for (int i = 0; i < cylinderDivisions; i++)` that generates a cylinder ring,
followed by the extra vertex for the UV seam. -/
def addRingVertices (lib : Lib K) (cylinderDivisions : Int) (f : RingFrame K) (texU : K)
    (mesh : GLTriangleMesh K) : GLTriangleMesh K :=
  let angleStep : K := 360 / (cylinderDivisions : K)
  let ring := (List.range cylinderDivisions.toNat).foldl
    (fun (mesh : GLTriangleMesh K) (i : Nat) =>
      let angle := angleStep * (i : K)
      let normal := rotate lib.math f.localX (radians lib.math angle) f.localY
      mesh.AddVertex (f.position.add (normal.smul f.thickness)) normal ⟨1, 1, 1, 1⟩
        ⟨texU, (i : K) / (cylinderDivisions : K), 1, 1⟩)
    mesh
  ring.AddVertex (f.position.add (f.localX.smul f.thickness)) f.localX ⟨1, 1, 1, 1⟩
    ⟨texU, 1, 1, 1⟩

/-- One round of the loop over the bones of a branch: `state` is `(texU, newBranchMesh)`. -/
def addRing (lib : Lib K) (treeIterations treeSubdivisions : Int) (branch : FractalBranch K)
    (cylinderDivisions : Int) (state : K × GLTriangleMesh K) (depth : Nat) (bone : Bone K) :
    K × GLTriangleMesh K :=
  let thickness :=
    getBranchThickness lib.powf treeIterations treeSubdivisions branch.depth bone.nodeDepth
  let circumference := 2 * lib.math.pi * thickness
  let texU := state.1 + bone.length / circumference
  let f := ringFrame lib treeSubdivisions (branch.nodes.head?.bind (fun b => b.parent)) depth
    bone thickness
  (texU, addRingVertices lib cylinderDivisions f texU state.2)

/-- The loop `for (int depth = 0; depth < branchNodes.size(); depth++)`, from index `depth` on,
over the bones still to come. -/
def ringsLoop (lib : Lib K) (treeIterations treeSubdivisions : Int) (branch : FractalBranch K)
    (cylinderDivisions : Int) : Nat → List (Bone K) → K × GLTriangleMesh K →
    K × GLTriangleMesh K
  | _, [], state => state
  | depth, bone :: rest, state =>
    ringsLoop lib treeIterations treeSubdivisions branch cylinderDivisions (depth + 1) rest
      (addRing lib treeIterations treeSubdivisions branch cylinderDivisions state depth bone)

/-- The loops that generate the indices for the cylinders, for a branch of `nodeCount` bones. -/
def sideLoop (cylinderDivisions : Int) (nodeCount : Nat) (mesh : GLTriangleMesh K) :
    GLTriangleMesh K :=
  let ringStep := cylinderDivisions + 1
  (List.range (nodeCount - 1)).foldl
    (fun (mesh : GLTriangleMesh K) (k : Nat) =>
      let depth : Int := (k : Int) + 1
      let uStart := depth * ringStep
      let lStart := uStart - ringStep
      (List.range cylinderDivisions.toNat).foldl
        (fun (mesh : GLTriangleMesh K) (i : Nat) =>
          let u := uStart + (i : Int)
          let l := lStart + (i : Int)
          (mesh.DefineNewTriangle l (l + 1) (u + 1)).DefineNewTriangle (u + 1) u l)
        mesh)
    mesh

/-- The loop that generates the indices for the tip. -/
def tipLoop (cylinderDivisions : Int) (nodeCount : Nat) (mesh : GLTriangleMesh K) :
    GLTriangleMesh K :=
  let ringStep := cylinderDivisions + 1
  let tipIndex : Int := (mesh.vertices.length : Int) - 1
  let lastRing := ringStep * ((nodeCount : Int) - 1)
  (List.range (ringStep - 1).toNat).foldl
    (fun (mesh : GLTriangleMesh K) (j : Nat) =>
      let i : Int := (j : Int) + 1
      let ringId := lastRing + i
      mesh.DefineNewTriangle (ringId - 1) ringId tipIndex)
    mesh

/-- The mesh `newBranchMesh` that the callback builds for one branch, before it is appended to
`branchMeshes`; `none` for a branch without bones, where `branchNodes[0]` and
`branchNodes.back()` are undefined. -/
def newBranchMesh (lib : Lib K) (treeIterations treeSubdivisions : Int)
    (cylinderDivisions : Int) (branch : FractalBranch K) : Option (GLTriangleMesh K) :=
  match branch.nodes.getLast? with
  | none => none
  | some lastBone =>
    let state := ringsLoop lib treeIterations treeSubdivisions branch cylinderDivisions 0
      branch.nodes (0, ⟨[], []⟩)
    let withTip := state.2.AddVertex lastBone.tipPosition lastBone.transform.forward
      ⟨1, 1, 1, 1⟩ ⟨state.1 + lastBone.length, 1 / 2, 1, 1⟩
    some (tipLoop cylinderDivisions branch.nodes.length
      (sideLoop cylinderDivisions branch.nodes.length withTip))

/-- The branch mesh with `cylinderDivisions = getCylinderDivisions(branches[b].depth)`, as the
callback computes it. -/
def branchMeshOf [FloorRing K] (lib : Lib K) (pow : K → K → K)
    (treeIterations treeSubdivisions : Int) (branch : FractalBranch K) :
    Option (GLTriangleMesh K) :=
  newBranchMesh lib treeIterations treeSubdivisions (getCylinderDivisions pow branch.depth)
    branch

/-- The vertices of one ring, in the order the loop adds them: `d` ring vertices, then the seam
vertex. -/
def ringVerts (m : MathOps K) (d : Nat) (f : RingFrame K) (texU : K) : List (Vertex K) :=
  (List.range d).map (fun (i : Nat) =>
      (⟨f.position.add
          ((rotate m f.localX (radians m (360 / (d : K) * (i : K))) f.localY).smul f.thickness),
        rotate m f.localX (radians m (360 / (d : K) * (i : K))) f.localY,
        ⟨1, 1, 1, 1⟩, ⟨texU, (i : K) / (d : K), 1, 1⟩⟩ : Vertex K))
    ++ [⟨f.position.add (f.localX.smul f.thickness), f.localX, ⟨1, 1, 1, 1⟩, ⟨texU, 1, 1, 1⟩⟩]

/-- A block of vertices is the ring of some frame and some `texU`. -/
def IsRing (m : MathOps K) (d : Nat) (block : List (Vertex K)) : Prop :=
  ∃ (f : RingFrame K) (texU : K), block = ringVerts m d f texU

/-- The two triangles between ring `k - 1` and ring `k` at position `i`, for `k = j + 1`. -/
def sidePair (d : Nat) (j i : Nat) : List (Int × Int × Int) :=
  [(((j : Int) + 1) * ((d : Int) + 1) - ((d : Int) + 1) + (i : Int),
    ((j : Int) + 1) * ((d : Int) + 1) - ((d : Int) + 1) + (i : Int) + 1,
    ((j : Int) + 1) * ((d : Int) + 1) + (i : Int) + 1),
   (((j : Int) + 1) * ((d : Int) + 1) + (i : Int) + 1,
    ((j : Int) + 1) * ((d : Int) + 1) + (i : Int),
    ((j : Int) + 1) * ((d : Int) + 1) - ((d : Int) + 1) + (i : Int))]

/-- The side triangles of a branch of `n` bones, in the order the loops define them. -/
def sideTriangles (d n : Nat) : List (Int × Int × Int) :=
  (List.range (n - 1)).flatMap
    (fun (j : Nat) => (List.range d).flatMap (fun (i : Nat) => sidePair d j i))

/-- The tip triangles, in the order the loop defines them. -/
def tipTriangles (d n : Nat) (tipIndex : Int) : List (Int × Int × Int) :=
  (List.range d).map (fun (j : Nat) =>
    (((d : Int) + 1) * ((n : Int) - 1) + ((j : Int) + 1) - 1,
     ((d : Int) + 1) * ((n : Int) - 1) + ((j : Int) + 1), tipIndex))

end Tree

namespace Tree

/-- A rational stand-in for the library of the tree generator, for running the definitions. -/
def sampleLib : Lib ℚ := ⟨sampleOps, fun x => x, fun _ => 0, fun _ _ => 1⟩

/-- A trunk of one bone of length 1 along `+Y`, for running the definitions. -/
def sampleBranch : FractalBranch ℚ :=
  ⟨0, [⟨⟨⟨0, 0, 0⟩, ⟨0, 1, 0⟩, ⟨1, 0, 0⟩⟩, 1, 0, none⟩]⟩

end Tree

/-! ## Lemmas on rewriting -/

theorem applyRulesStep_acc (rules : Rules K) (acc : List Char) (g : Rng K) (c : Char) :
    applyRulesStep rules (acc, g) c =
      (acc ++ (applyRulesStep rules ([], g) c).1, (applyRulesStep rules ([], g) c).2) := by
  unfold applyRulesStep
  by_cases h : equalRange rules c = []
  · simp [h]
  · simp only [h, if_false]
    cases selectCandidate (uniformReal 0 (totalWeight (equalRange rules c)) g).1 0
        (equalRange rules c) <;> simp

theorem applyRules_foldl_acc (rules : Rules K) (s : List Char) :
    ∀ (acc : List Char) (g : Rng K),
      s.foldl (applyRulesStep rules) (acc, g) =
        (acc ++ (applyRules rules s g).1, (applyRules rules s g).2) := by
  induction s with
  | nil => intro acc g; simp [applyRules]
  | cons c cs ih =>
    intro acc g
    have h1 := applyRulesStep_acc rules acc g c
    simp only [applyRules, List.foldl_cons]
    rw [h1, ih]
    have h2 := ih (applyRulesStep rules ([], g) c).1 (applyRulesStep rules ([], g) c).2
    simp only [Prod.mk.eta] at h2
    rw [h2]
    simp [List.append_assoc]

theorem applyRules_nil (rules : Rules K) (g : Rng K) : applyRules rules [] g = ([], g) := rfl

theorem applyRules_cons (rules : Rules K) (c : Char) (cs : List Char) (g : Rng K) :
    applyRules rules (c :: cs) g =
      ((applyRulesStep rules ([], g) c).1 ++
          (applyRules rules cs (applyRulesStep rules ([], g) c).2).1,
        (applyRules rules cs (applyRulesStep rules ([], g) c).2).2) := by
  have h := applyRules_foldl_acc rules cs (applyRulesStep rules ([], g) c).1
    (applyRulesStep rules ([], g) c).2
  simp only [Prod.mk.eta] at h
  simp only [applyRules, List.foldl_cons]
  exact h

theorem find?_of_equalRange_nil (rules : Rules K) (c : Char) (h : equalRange rules c = []) :
    rules.find? (fun r => r.1 == c) = none := by
  induction rules with
  | nil => rfl
  | cons r rs ih =>
    unfold equalRange at h ih
    by_cases hr : (r.1 == c) = true
    · simp [List.filter_cons, hr] at h
    · simp only [List.filter_cons, hr] at h
      simp only [List.find?_cons, hr]
      exact ih h

theorem find?_of_equalRange_cons (rules : Rules K) (c : Char) (x : List Char × K)
    (xs : List (List Char × K)) (h : equalRange rules c = x :: xs) :
    ∃ r, rules.find? (fun r => r.1 == c) = some r ∧ r.2 = x := by
  induction rules with
  | nil => simp [equalRange] at h
  | cons r rs ih =>
    unfold equalRange at h ih
    by_cases hr : (r.1 == c) = true
    · simp only [List.filter_cons, hr, if_true, List.map_cons, List.cons.injEq] at h
      exact ⟨r, by simp [List.find?_cons, hr], h.1⟩
    · simp only [List.filter_cons, hr] at h
      simp only [List.find?_cons, hr]
      exact ih h

theorem applyRulesStep_single (rules : Rules K) (hdet : SingleCandidate rules) (c : Char)
    (g : Rng K) :
    (applyRulesStep rules ([], g) c).1 =
      (match rules.find? (fun r => r.1 == c) with
        | some r => r.2.1
        | none => [c]) := by
  rcases hdet c with h | ⟨rep, h⟩
  · rw [find?_of_equalRange_nil rules c h]
    simp [applyRulesStep, h]
  · obtain ⟨r, hr, hr2⟩ := find?_of_equalRange_cons rules c _ _ h
    rw [hr]
    have hu : (g 0).val ≤ 1 := (g 0).le_one
    simp [applyRulesStep, h, totalWeight, selectCandidate, uniformReal, Rng.next, hu, hr2]

theorem applyRules_single (rules : Rules K) (hdet : SingleCandidate rules) (s : List Char) :
    ∀ g : Rng K, (applyRules rules s g).1 = plainRewrite rules s := by
  induction s with
  | nil => intro g; rfl
  | cons c cs ih =>
    intro g
    rw [applyRules_cons]
    simp only [plainRewrite, List.flatMap_cons]
    rw [applyRulesStep_single rules hdet c g, ih]
    rfl

theorem iterate_ok_strings (m : MathOps K) (st st1 : LSystem K) (n : Nat) (back : List Char)
    (hb : st.strings.getLast? = some back) (h : iterate m st = (.ok n, st1)) :
    st1.strings = st.strings ++ [(applyRules st.rules back st.rng).1] ∧ st1.rules = st.rules ∧
      st1.angle = st.angle ∧ st1.jitter = st.jitter := by
  unfold iterate at h
  simp only [hb] at h
  split_ifs at h
  · simp at h
  · simp only [Prod.mk.injEq] at h
    rw [← h.2]
    simp [addVerts]

theorem iterateTimes_single (m : MathOps K) (rules : Rules K) (hdet : SingleCandidate rules) :
    ∀ (k : Nat) (st st1 : LSystem K) (start : List Char), st.rules = rules →
      st.strings.getLast? = some start → iterateTimes m k st = some st1 →
      st1.strings = st.strings ++ List.iterate (plainRewrite rules) (plainRewrite rules start) k := by
  intro k
  induction k with
  | zero =>
    intro st st1 start _ _ h
    simp only [iterateTimes, Option.some.injEq] at h
    simp [h, List.iterate]
  | succ k ih =>
    intro st st1 start hr hb h
    simp only [iterateTimes] at h
    rcases hres : iterate m st with ⟨res, st2⟩
    rw [hres] at h
    cases res with
    | error e => simp at h
    | ok n =>
      simp only at h
      obtain ⟨hs, hr2, _, _⟩ := iterate_ok_strings m st st2 n start hb hres
      rw [hr, applyRules_single rules hdet] at hs
      have hb2 : st2.strings.getLast? = some (plainRewrite rules start) := by
        rw [hs]; simp
      rw [ih st2 st1 _ (hr2.trans hr) hb2 h, hs]
      simp [List.iterate]

/-- **C1.** When every ruled symbol has exactly one candidate of weight 1, `applyRules` returns
the plain context-free substitution `h(s)` whatever the state of the random generator, and `k`
successful `iterate()` calls append `h(a), h(h(a)), ..., h^k(a)` to the strings, `a` being the
last string before the calls. -/
theorem applyRules_single_candidate_deterministic (m : MathOps K) (rules : Rules K)
    (hdet : SingleCandidate rules) :
    (∀ (s : List Char) (g : Rng K), (applyRules rules s g).1 = plainRewrite rules s) ∧
    (∀ (k : Nat) (st st1 : LSystem K) (start : List Char), st.rules = rules →
      st.strings.getLast? = some start → iterateTimes m k st = some st1 →
      st1.strings = st.strings ++ List.iterate (plainRewrite rules) (plainRewrite rules start) k ∧
      st1.strings.getLast? = some ((plainRewrite rules)^[k] start)) := by
  refine ⟨fun s g => applyRules_single rules hdet s g, ?_⟩
  intro k st st1 start hr hb h
  have h1 := iterateTimes_single m rules hdet k st st1 start hr hb h
  refine ⟨h1, ?_⟩
  rw [h1]
  cases k with
  | zero => simpa [List.iterate] using hb
  | succ k =>
    rw [List.iterate_add, ← List.append_assoc]
    simp only [List.iterate, List.getLast?_concat, Function.iterate_succ_apply]


/-- Witness for C1: the rule `F : FF` from the start string `F`, two calls of `iterate`. -/
theorem applyRules_single_candidate_deterministic_witness :
    ∃ st1 : LSystem ℚ,
      iterateTimes sampleOps 2
        (parseCommit sampleOps (LSystem.create 0 halfRng) 90 0 1 ['F'] [('F', ['F', 'F'], 1)])
        = some st1 ∧
      st1.strings = [['F'], ['F', 'F'], ['F', 'F', 'F', 'F']] := by
  have hdet : SingleCandidate ([('F', ['F', 'F'], 1)] : Rules ℚ) := by
    intro c
    by_cases hc : c = 'F'
    · right; exact ⟨['F', 'F'], by simp [equalRange, hc]⟩
    · left
      have : ¬ ('F' = c) := fun h => hc h.symm
      simp [equalRange, this]
  have hsome : (iterateTimes sampleOps 2
        (parseCommit sampleOps (LSystem.create 0 halfRng) 90 0 1 ['F']
          [('F', ['F', 'F'], 1)])).isSome = true := by
    have hhalf : (2⁻¹ : ℚ) ≤ 1 := by norm_num
    simp [iterateTimes, iterate, parseCommit, iterateLoop, addVerts, LSystem.create, hhalf,
      createGeometry, turtleRun, turtleStep, Turtle.initial, applyRules, applyRulesStep,
      equalRange, totalWeight, selectCandidate, uniformReal, Rng.next, halfRng, usedVerts,
      MAX_BUF, sizeofVec3]
  obtain ⟨st1, h1⟩ := Option.isSome_iff_exists.1 hsome
  refine ⟨st1, h1, ?_⟩
  have h := (applyRules_single_candidate_deterministic sampleOps _ hdet).2 2 _ st1 ['F']
    (by simp [parseCommit, iterateLoop, addVerts]) (by simp [parseCommit, iterateLoop, addVerts]) h1
  rw [h.1]
  simp [parseCommit, iterateLoop, addVerts, List.iterate, plainRewrite]

theorem foldl_add_weights (cands : List (List Char × K)) :
    ∀ a : K, cands.foldl (fun acc cand => acc + cand.2) a
      = a + (cands.map (fun cand => cand.2)).sum := by
  induction cands with
  | nil => intro a; simp
  | cons c cs ih => intro a; simp [ih, add_assoc]

theorem totalWeight_eq_sum (cands : List (List Char × K)) :
    totalWeight cands = (cands.map (fun cand => cand.2)).sum := by
  simp [totalWeight, foldl_add_weights]

theorem cumulativeWeight_cons_zero (c : List Char × K) (cs : List (List Char × K)) :
    cumulativeWeight (c :: cs) 0 = c.2 := by
  simp [cumulativeWeight]

theorem cumulativeWeight_cons_succ (c : List Char × K) (cs : List (List Char × K)) (i : Nat) :
    cumulativeWeight (c :: cs) (i + 1) = c.2 + cumulativeWeight cs i := by
  simp [cumulativeWeight]

theorem selectCandidate_eq_find (r : K) (cands : List (List Char × K)) :
    ∀ cum : K, selectCandidate r cum cands =
      (match (List.range cands.length).find? (fun i => r ≤ cum + cumulativeWeight cands i) with
        | some i => (cands.get? i).map (fun cand => cand.1)
        | none => none) := by
  induction cands with
  | nil => intro cum; simp [selectCandidate]
  | cons c cs ih =>
    intro cum
    rw [List.length_cons, List.range_succ_eq_map, List.find?_cons]
    simp only [selectCandidate, cumulativeWeight_cons_zero]
    by_cases h : r ≤ cum + c.2
    · simp [h]
    · simp only [h, if_false, decide_False, List.find?_map]
      rw [ih (cum + c.2)]
      have hfun : ((fun i => decide (r ≤ cum + cumulativeWeight (c :: cs) i)) ∘ Nat.succ)
          = (fun i => decide (r ≤ cum + c.2 + cumulativeWeight cs i)) := by
        funext i
        simp [cumulativeWeight_cons_succ, add_assoc]
      rw [hfun]
      cases List.find? (fun i => decide (r ≤ cum + c.2 + cumulativeWeight cs i))
        (List.range cs.length) <;> simp

theorem find?_range_some (p : Nat → Bool) :
    ∀ (n i : Nat), (List.range n).find? p = some i →
      i < n ∧ p i = true ∧ ∀ j, j < i → p j = false := by
  intro n
  induction n with
  | zero => intro i h; simp at h
  | succ n ih =>
    intro i h
    rw [List.range_succ, List.find?_append] at h
    cases hf : (List.range n).find? p with
    | some k =>
      rw [hf] at h
      simp only [Option.or_some, Option.some.injEq] at h
      subst h
      obtain ⟨h1, h2, h3⟩ := ih k hf
      exact ⟨Nat.lt_succ_of_lt h1, h2, h3⟩
    | none =>
      rw [hf] at h
      simp only [Option.none_or, List.find?_cons, List.find?_nil] at h
      by_cases hp : p n = true
      · simp only [hp, Option.some.injEq] at h
        subst h
        refine ⟨Nat.lt_succ_self _, hp, ?_⟩
        intro j hj
        have := List.find?_eq_none.1 hf j (List.mem_range.2 hj)
        simpa using this
      · simp [hp] at h

theorem find?_range_isSome (p : Nat → Bool) (n k : Nat) (hk : k < n) (hp : p k = true) :
    ∃ i, (List.range n).find? p = some i := by
  cases hf : (List.range n).find? p with
  | some i => exact ⟨i, rfl⟩
  | none =>
    have := List.find?_eq_none.1 hf k (List.mem_range.2 hk)
    exact absurd hp this

theorem equalRange_weights_nonneg (rules : Rules K) (hw : ∀ r ∈ rules, 0 ≤ r.2.2) (c : Char) :
    ∀ cand ∈ equalRange rules c, 0 ≤ cand.2 := by
  intro cand hc
  simp only [equalRange, List.mem_map, List.mem_filter] at hc
  obtain ⟨r, ⟨hr, _⟩, rfl⟩ := hc
  exact hw r hr

theorem sum_weights_nonneg (cands : List (List Char × K)) (hw : ∀ cand ∈ cands, 0 ≤ cand.2) :
    0 ≤ (cands.map (fun cand => cand.2)).sum := by
  apply List.sum_nonneg
  intro x hx
  simp only [List.mem_map] at hx
  obtain ⟨cand, hc, rfl⟩ := hx
  exact hw cand hc

theorem applyRulesStep_eq_chosen (rules : Rules K) (c : Char) (g : Rng K)
    (h : equalRange rules c ≠ []) :
    applyRulesStep rules ([], g) c = (chosenReplacement (equalRange rules c) (g 0), g.next.2) := by
  simp only [applyRulesStep, h, if_false, uniformReal, Rng.next, chosenReplacement, firstReaching,
    drawnValue, totalWeight_eq_sum, selectCandidate_eq_find, zero_add, sub_zero]
  cases List.find? (fun i => decide ((List.map (fun cand => cand.2) (equalRange rules c)).sum *
      (g 0).val ≤ cumulativeWeight (equalRange rules c) i))
      (List.range (equalRange rules c).length) with
  | none => simp
  | some i =>
    simp only [List.nil_append]
    cases (equalRange rules c).get? i <;> simp

theorem applyRules_eq_weightedRewrite (rules : Rules K) (s : List Char) :
    ∀ g : Rng K, (applyRules rules s g).1 = weightedRewrite rules s g := by
  induction s with
  | nil => intro g; rfl
  | cons c cs ih =>
    intro g
    rw [applyRules_cons]
    by_cases h : equalRange rules c = []
    · simp [weightedRewrite, h, applyRulesStep, ih]
    · rw [applyRulesStep_eq_chosen rules c g h]
      simp [weightedRewrite, h, ih]

theorem applyRules_unruled (rules : Rules K) (s : List Char) :
    (∀ c ∈ s, equalRange rules c = []) → ∀ g : Rng K, applyRules rules s g = (s, g) := by
  induction s with
  | nil => intro _ g; rfl
  | cons c cs ih =>
    intro h g
    have hc : equalRange rules c = [] := h c (List.mem_cons_self _ _)
    have hcs : ∀ x ∈ cs, equalRange rules x = [] := fun x hx => h x (List.mem_cons_of_mem _ hx)
    rw [applyRules_cons]
    simp [applyRulesStep, hc, ih hcs]

theorem chosen_candidate_exists (cands : List (List Char × K)) (hne : cands ≠ [])
    (hw : ∀ cand ∈ cands, 0 ≤ cand.2) (u : Canon K) :
    0 ≤ drawnValue cands u ∧ drawnValue cands u ≤ totalWeight cands ∧
    ∃ (i : Nat) (hi : i < cands.length),
      firstReaching cands (drawnValue cands u) = some i ∧
      chosenReplacement cands u = (cands.get ⟨i, hi⟩).1 ∧
      drawnValue cands u ≤ cumulativeWeight cands i ∧
      ∀ j, j < i → cumulativeWeight cands j < drawnValue cands u := by
  have htot := sum_weights_nonneg cands hw
  have h0 : 0 ≤ drawnValue cands u := mul_nonneg htot u.nonneg
  have h1 : drawnValue cands u ≤ (cands.map (fun cand => cand.2)).sum :=
    mul_le_of_le_one_right htot u.le_one
  have hlen : 0 < cands.length := List.length_pos.2 hne
  have hlast : cumulativeWeight cands (cands.length - 1) = (cands.map (fun cand => cand.2)).sum := by
    unfold cumulativeWeight
    rw [Nat.sub_add_cancel hlen, List.take_length]
  obtain ⟨i, hi⟩ := find?_range_isSome
    (fun i => decide (drawnValue cands u ≤ cumulativeWeight cands i)) cands.length
    (cands.length - 1) (Nat.sub_lt hlen Nat.one_pos) (by simpa [hlast] using h1)
  obtain ⟨hlt, hp, hmin⟩ := find?_range_some _ _ _ hi
  refine ⟨h0, by rw [totalWeight_eq_sum]; exact h1, i, hlt, hi, ?_, by simpa using hp, ?_⟩
  · unfold chosenReplacement firstReaching
    rw [hi]
    simp [List.getElem?_eq_getElem hlt]
  · intro j hj
    have := hmin j hj
    simpa using this

/-- **C2.** For a rule set with non-negative weights, `applyRules` returns the concatenation, in
order, of one piece per character: the character itself when it has no rule, otherwise the
replacement of exactly one candidate, the first in rule-definition order whose cumulative weight
reaches the drawn value `r`, where `0 ≤ r ≤ totalWeight`. A string without ruled characters is
returned unchanged (and draws nothing). -/
theorem applyRules_weighted_choice (rules : Rules K) (hw : ∀ r ∈ rules, 0 ≤ r.2.2) :
    (∀ (s : List Char) (g : Rng K), (applyRules rules s g).1 = weightedRewrite rules s g) ∧
    (∀ (c : Char) (g : Rng K), equalRange rules c ≠ [] →
      (uniformReal 0 (totalWeight (equalRange rules c)) g).1
          = drawnValue (equalRange rules c) (g 0) ∧
      0 ≤ drawnValue (equalRange rules c) (g 0) ∧
      drawnValue (equalRange rules c) (g 0) ≤ totalWeight (equalRange rules c) ∧
      ∃ (i : Nat) (hi : i < (equalRange rules c).length),
        firstReaching (equalRange rules c) (drawnValue (equalRange rules c) (g 0)) = some i ∧
        chosenReplacement (equalRange rules c) (g 0) = ((equalRange rules c).get ⟨i, hi⟩).1 ∧
        drawnValue (equalRange rules c) (g 0) ≤ cumulativeWeight (equalRange rules c) i ∧
        ∀ j, j < i →
          cumulativeWeight (equalRange rules c) j < drawnValue (equalRange rules c) (g 0)) ∧
    (∀ s : List Char, (∀ c ∈ s, equalRange rules c = []) →
      ∀ g : Rng K, applyRules rules s g = (s, g)) := by
  refine ⟨applyRules_eq_weightedRewrite rules, ?_, applyRules_unruled rules⟩
  intro c g hne
  obtain ⟨h0, h1, h2⟩ := chosen_candidate_exists (equalRange rules c) hne
    (equalRange_weights_nonneg rules hw c) (g 0)
  refine ⟨?_, h0, h1, h2⟩
  simp [uniformReal, Rng.next, drawnValue, totalWeight_eq_sum]

/-- Witness for C2: two candidates for `F` with weights 1 and 3; the draw `1/2` gives `r = 2`,
which the first cumulative weight `1` does not reach and the second, `4`, does. -/
theorem applyRules_weighted_choice_witness :
    (∀ r ∈ ([('F', ['A'], 1), ('F', ['B'], 3)] : Rules ℚ), 0 ≤ r.2.2) ∧
    (applyRules ([('F', ['A'], 1), ('F', ['B'], 3)] : Rules ℚ) ['F', 'X'] halfRng).1
      = ['B', 'X'] := by
  have hw : ∀ r ∈ ([('F', ['A'], 1), ('F', ['B'], 3)] : Rules ℚ), 0 ≤ r.2.2 := by
    intro r hr
    simp only [List.mem_cons, List.mem_singleton, List.not_mem_nil, or_false] at hr
    rcases hr with rfl | rfl <;> norm_num
  refine ⟨hw, ?_⟩
  rw [(applyRules_weighted_choice _ hw).1]
  simp [weightedRewrite, equalRange, chosenReplacement, firstReaching, drawnValue,
    cumulativeWeight, halfRng, List.range_succ, List.find?_cons]
  norm_num

/-! ## Lemmas on the turtle -/

theorem turtleRun_nil (m : MathOps K) (angle jitter : K) (t : Turtle K) :
    turtleRun m angle jitter t [] = t := rfl

theorem turtleRun_cons (m : MathOps K) (angle jitter : K) (t : Turtle K) (c : Char)
    (cs : List Char) :
    turtleRun m angle jitter t (c :: cs)
      = turtleRun m angle jitter (turtleStep m angle jitter t c) cs := rfl

theorem turtleRun_append (m : MathOps K) (angle jitter : K) (t : Turtle K) (a b : List Char) :
    turtleRun m angle jitter t (a ++ b)
      = turtleRun m angle jitter (turtleRun m angle jitter t a) b := by
  simp [turtleRun]

theorem turtleStep_push (m : MathOps K) (angle jitter : K) (t : Turtle K) :
    turtleStep m angle jitter t '[' = { t with stack := t.cur :: t.stack } := by
  simp [turtleStep]

theorem turtleStep_pop_cons (m : MathOps K) (angle jitter : K) (t : Turtle K) (top : Cursor K)
    (rest : List (Cursor K)) (h : t.stack = top :: rest) :
    turtleStep m angle jitter t ']' = { t with cur := top, stack := rest } := by
  simp [turtleStep, h]

theorem turtleStep_pop_nil (m : MathOps K) (angle jitter : K) (t : Turtle K) (h : t.stack = []) :
    turtleStep m angle jitter t ']' = t := by
  simp [turtleStep, h]

theorem turtleStep_stack_other (m : MathOps K) (angle jitter : K) (t : Turtle K) (c : Char)
    (h1 : c ≠ '[') (h2 : c ≠ ']') : (turtleStep m angle jitter t c).stack = t.stack := by
  simp only [turtleStep, h1, h2, if_false]
  split_ifs <;> simp only

theorem turtleRun_nested_stack (m : MathOps K) (angle jitter : K) (w : List Char) :
    ∀ (d : Nat) (t : Turtle K) (pre base : List (Cursor K)), t.stack = pre ++ base →
      pre.length = d → nestedFrom d w = true → (turtleRun m angle jitter t w).stack = base := by
  induction w with
  | nil =>
    intro d t pre base hs hl hn
    simp only [nestedFrom, beq_iff_eq] at hn
    rw [hn, List.length_eq_zero] at hl
    simpa [turtleRun_nil, hl] using hs
  | cons c cs ih =>
    intro d t pre base hs hl hn
    rw [turtleRun_cons]
    by_cases h1 : c = '['
    · subst h1
      simp only [nestedFrom, if_true] at hn
      refine ih (d + 1) _ (t.cur :: pre) base ?_ (by simp [hl]) hn
      simp [turtleStep_push, hs]
    · by_cases h2 : c = ']'
      · subst h2
        simp only [nestedFrom, h1, if_false, if_true] at hn
        cases d with
        | zero => simp at hn
        | succ d1 =>
          cases pre with
          | nil => simp at hl
          | cons top rest =>
            simp only at hn
            refine ih d1 _ rest base ?_ (by simpa using hl) hn
            rw [turtleStep_pop_cons m angle jitter t top (rest ++ base) (by simpa using hs)]
      · simp only [nestedFrom, h1, h2, if_false] at hn
        refine ih d _ pre base ?_ hl hn
        rw [turtleStep_stack_other m angle jitter t c h1 h2, hs]

/-- **C3.** Whatever the angle (and jitter, and the object's earlier state), parsing a description
with iteration count 1, first string `F` and no rules leaves `getNumIter() = 1` with `F` as the
only string, and `createGeometry("F")` is exactly the two vertices `(0,0,0)`, `(0,1,0)`: one
segment from the origin along `+Y`, recorded as vertices `0..1` of the buffer. -/
theorem parse_single_F (m : MathOps K) (angle jitter : K) (st : LSystem K) :
    getNumIter (parseCommit m st angle jitter 1 ['F'] []) = 1 ∧
    getString (parseCommit m st angle jitter 1 ['F'] []) 0 = some ['F'] ∧
    (parseCommit m st angle jitter 1 ['F'] []).angle = angle ∧
    (∀ g : Rng K, (createGeometry m angle jitter ['F'] g).1 = [⟨0, 0, 0⟩, ⟨0, 1, 0⟩]) ∧
    (parseCommit m st angle jitter 1 ['F'] []).iterData.map (fun d => (d.first, d.count))
      = [(0, 2)] := by
  have hg : ∀ g : Rng K, createGeometry m angle jitter ['F'] g = ([⟨0, 0, 0⟩, ⟨0, 1, 0⟩], g) := by
    intro g
    simp [createGeometry, turtleRun, turtleStep, Turtle.initial, Cursor.initial, Vec3.add]
  refine ⟨?_, ?_, ?_, fun g => by rw [hg], ?_⟩ <;>
    simp [parseCommit, iterateLoop, addVerts, getNumIter, getString, hg, usedVerts]

/-- **C4.** From every cursor and every stack, interpreting `[`, then a string `w` with properly
nested brackets, then `]` leaves position, direction, up, right and the stack of saved states
exactly as they were before the `[`. In `F[+F]F` the third segment is `(0,1,0) -> (0,2,0)`, for
every angle, jitter and generator state. -/
theorem bracket_restores_cursor (m : MathOps K) (angle jitter : K) :
    (∀ (t : Turtle K) (w : List Char), properlyNested w = true →
      (turtleRun m angle jitter t ('[' :: (w ++ [']']))).cur = t.cur ∧
      (turtleRun m angle jitter t ('[' :: (w ++ [']']))).stack = t.stack) ∧
    (∀ g : Rng K,
      (createGeometry m angle jitter ['F', '[', '+', 'F', ']', 'F'] g).1.drop 4
        = [⟨0, 1, 0⟩, ⟨0, 2, 0⟩]) := by
  constructor
  · intro t w hw
    rw [turtleRun_cons, turtleRun_append, turtleStep_push]
    have hs := turtleRun_nested_stack m angle jitter w 0
      { t with stack := t.cur :: t.stack } [] (t.cur :: t.stack) rfl rfl hw
    simp only [turtleRun_cons, turtleRun_nil]
    rw [turtleStep_pop_cons m angle jitter _ t.cur t.stack hs]
    exact ⟨rfl, rfl⟩
  · intro g
    simp [createGeometry, turtleRun, turtleStep, Turtle.initial, Cursor.initial, Vec3.add]
    norm_num

/-- Witness for C4: the nested string `+[F]F` between the brackets. -/
theorem bracket_restores_cursor_witness :
    properlyNested ['+', '[', 'F', ']', 'F'] = true ∧
    (turtleRun sampleOps 90 0 (Turtle.initial halfRng)
        ['[', '+', '[', 'F', ']', 'F', ']']).cur = Cursor.initial ∧
    (turtleRun sampleOps 90 0 (Turtle.initial halfRng)
        ['[', '+', '[', 'F', ']', 'F', ']']).stack = [] :=
  ⟨by decide,
   (bracket_restores_cursor sampleOps 90 0).1 (Turtle.initial halfRng)
     ['+', '[', 'F', ']', 'F'] (by decide)⟩

/-- **C6.** A `]` met while the stack of saved states is empty changes nothing: the interpreter
state after it is the state before it, and `createGeometry` of the string equals `createGeometry`
of the string with that `]` deleted (same vertices, same generator state); `createGeometry` is a
total function, no error is raised. -/
theorem unmatched_pop_ignored (m : MathOps K) (angle jitter : K) (before after : List Char)
    (g : Rng K) (h : (turtleRun m angle jitter (Turtle.initial g) before).stack = []) :
    turtleStep m angle jitter (turtleRun m angle jitter (Turtle.initial g) before) ']'
      = turtleRun m angle jitter (Turtle.initial g) before ∧
    createGeometry m angle jitter (before ++ ']' :: after) g
      = createGeometry m angle jitter (before ++ after) g := by
  have hp := turtleStep_pop_nil m angle jitter _ h
  refine ⟨hp, ?_⟩
  simp only [createGeometry, turtleRun_append, turtleRun_cons, hp]

/-- Witness for C6: the `]` of `F]F` meets an empty stack. -/
theorem unmatched_pop_ignored_witness :
    (turtleRun sampleOps 90 0 (Turtle.initial halfRng) ['F']).stack = [] ∧
    createGeometry sampleOps 90 0 ['F', ']', 'F'] halfRng
      = createGeometry sampleOps 90 0 ['F', 'F'] halfRng :=
  ⟨by simp [turtleRun, turtleStep, Turtle.initial],
   (unmatched_pop_ignored sampleOps 90 0 ['F'] ['F'] halfRng
     (by simp [turtleRun, turtleStep, Turtle.initial])).2⟩

/-! ## Lemmas on the per-iteration records -/

theorem ChainFrom_last (ds : List (IterData K)) :
    ∀ start : Nat, ChainFrom start ds →
      (match ds.getLast? with
        | none => start
        | some lastID => lastID.first + lastID.count) = start + storedVerts ds := by
  induction ds with
  | nil => intro start _; simp [storedVerts]
  | cons d ds ih =>
    intro start h
    obtain ⟨h1, h2⟩ := h
    have := ih _ h2
    cases ds with
    | nil => simp [storedVerts, h1]
    | cons e es =>
      have hne : (e :: es).getLast? = some ((e :: es).getLast (by simp)) :=
        List.getLast?_eq_getLast _ _
      rw [List.getLast?_cons_cons, hne]
      rw [hne] at this
      simp only at this ⊢
      rw [this]
      simp [storedVerts, h1, Nat.add_assoc]

theorem usedVerts_eq_storedVerts (ds : List (IterData K)) (h : ChainFrom 0 ds) :
    usedVerts ds = storedVerts ds := by
  have := ChainFrom_last ds 0 h
  simpa [usedVerts] using this

theorem ChainFrom_append (ds : List (IterData K)) (n : Nat) (b : Mat4 K) :
    ∀ start : Nat, ChainFrom start ds →
      ChainFrom start (ds ++ [⟨start + storedVerts ds, n, b⟩]) := by
  induction ds with
  | nil => intro start _; simp [ChainFrom, storedVerts]
  | cons d ds ih =>
    intro start h
    obtain ⟨h1, h2⟩ := h
    refine ⟨h1, ?_⟩
    have := ih _ h2
    simpa [storedVerts, h1, Nat.add_assoc] using this

theorem ChainFrom_le_first (ds : List (IterData K)) :
    ∀ (start j : Nat) (b : IterData K), ChainFrom start ds → ds[j]? = some b →
      start ≤ b.first := by
  induction ds with
  | nil => intro start j b _ h; simp at h
  | cons d ds ih =>
    intro start j b h hb
    obtain ⟨h1, h2⟩ := h
    cases j with
    | zero =>
      simp only [List.getElem?_cons_zero, Option.some.injEq] at hb
      rw [← hb, h1]
    | succ j =>
      simp only [List.getElem?_cons_succ] at hb
      have := ih _ j b h2 hb
      omega

theorem ChainFrom_succ (ds : List (IterData K)) :
    ∀ (start i : Nat) (a b : IterData K), ChainFrom start ds → ds[i]? = some a →
      ds[i + 1]? = some b → b.first = a.first + a.count := by
  induction ds with
  | nil => intro start i a b _ h; simp at h
  | cons d ds ih =>
    intro start i a b h ha hb
    obtain ⟨_, h2⟩ := h
    simp only [List.getElem?_cons_succ] at hb
    cases i with
    | zero =>
      simp only [List.getElem?_cons_zero, Option.some.injEq] at ha
      subst ha
      cases ds with
      | nil => simp at hb
      | cons e es =>
        simp only [List.getElem?_cons_zero, Option.some.injEq] at hb
        rw [← hb]
        exact h2.1
    | succ i =>
      simp only [List.getElem?_cons_succ] at ha
      exact ih _ i a b h2 ha hb

theorem ChainFrom_lt (ds : List (IterData K)) :
    ∀ (start i j : Nat) (a b : IterData K), ChainFrom start ds → i < j → ds[i]? = some a →
      ds[j]? = some b → a.first + a.count ≤ b.first := by
  induction ds with
  | nil => intro start i j a b _ _ h; simp at h
  | cons d ds ih =>
    intro start i j a b h hij ha hb
    obtain ⟨_, h2⟩ := h
    cases j with
    | zero => omega
    | succ j =>
      simp only [List.getElem?_cons_succ] at hb
      cases i with
      | zero =>
        simp only [List.getElem?_cons_zero, Option.some.injEq] at ha
        subst ha
        exact ChainFrom_le_first ds _ j b h2 hb
      | succ i =>
        simp only [List.getElem?_cons_succ] at ha
        exact ih _ i j a b h2 (Nat.lt_of_succ_lt_succ hij) ha hb

/-- The record appended by `addVerts` continues the chain. -/
theorem addVerts_chain (st : LSystem K) (verts : List (Vec3 K)) (h : ChainFrom 0 st.iterData) :
    ChainFrom 0 (addVerts st verts).iterData := by
  have := ChainFrom_append st.iterData verts.length (bbfixOf verts) 0 h
  simpa [addVerts, usedVerts_eq_storedVerts st.iterData h] using this

theorem iterate_eq_of_exceeds (m : MathOps K) (st : LSystem K) (back : List Char)
    (hb : st.strings.getLast? = some back)
    (h : (usedVerts st.iterData + (nextVerts m st back).length) * sizeofVec3 > MAX_BUF) :
    iterate m st = (.error "geometry exceeds maximum buffer size",
      { st with rng := (createGeometry m st.angle st.jitter (applyRules st.rules back st.rng).1
          (applyRules st.rules back st.rng).2).2 }) := by
  unfold nextVerts at h
  simp only [iterate, hb, h, if_true]

theorem iterate_eq_of_fits (m : MathOps K) (st : LSystem K) (back : List Char)
    (hb : st.strings.getLast? = some back)
    (h : ¬ (usedVerts st.iterData + (nextVerts m st back).length) * sizeofVec3 > MAX_BUF) :
    iterate m st = (.ok (st.strings.length + 1),
      addVerts { st with
          rng := (createGeometry m st.angle st.jitter (applyRules st.rules back st.rng).1
            (applyRules st.rules back st.rng).2).2,
          strings := st.strings ++ [nextString st back] } (nextVerts m st back)) := by
  unfold nextVerts at h
  simp only [iterate, hb, h, if_false]
  simp [getNumIter, addVerts, nextString, nextVerts]

theorem iterate_eq_of_empty (m : MathOps K) (st : LSystem K) (h : st.strings = []) :
    iterate m st = (.ok 0, st) := by
  simp [iterate, h]

/-- What `iterate` keeps: chained records, one record per string. -/
theorem iterate_invariant (m : MathOps K) (st : LSystem K)
    (h : ChainFrom 0 st.iterData ∧ st.iterData.length = st.strings.length) :
    ChainFrom 0 (iterate m st).2.iterData ∧
      (iterate m st).2.iterData.length = (iterate m st).2.strings.length := by
  cases hb : st.strings.getLast? with
  | none =>
    rw [iterate_eq_of_empty m st (List.getLast?_eq_none_iff.1 hb)]
    exact h
  | some back =>
    by_cases hc : (usedVerts st.iterData + (nextVerts m st back).length) * sizeofVec3 > MAX_BUF
    · rw [iterate_eq_of_exceeds m st back hb hc]
      exact h
    · rw [iterate_eq_of_fits m st back hb hc]
      refine ⟨addVerts_chain _ _ h.1, ?_⟩
      simp [addVerts, h.2]

theorem iterateLoop_invariant (m : MathOps K) (inIters : Nat) :
    ∀ (fuel : Nat) (st : LSystem K),
      ChainFrom 0 st.iterData ∧ st.iterData.length = st.strings.length →
      ChainFrom 0 (iterateLoop m inIters fuel st).iterData ∧
        (iterateLoop m inIters fuel st).iterData.length
          = (iterateLoop m inIters fuel st).strings.length := by
  intro fuel
  induction fuel with
  | zero => intro st h; exact h
  | succ fuel ih =>
    intro st h
    simp only [iterateLoop]
    split_ifs with hlt
    · have hi := iterate_invariant m st h
      rcases hres : iterate m st with ⟨res, st1⟩
      rw [hres] at hi
      cases res with
      | error e => exact hi
      | ok n => exact ih st1 hi
    · exact h

theorem parseCommit_invariant (m : MathOps K) (st : LSystem K) (inAngle inJitter : K)
    (inIters : Nat) (inText : List Char) (inRules : Rules K) :
    ChainFrom 0 (parseCommit m st inAngle inJitter inIters inText inRules).iterData ∧
      (parseCommit m st inAngle inJitter inIters inText inRules).iterData.length
        = (parseCommit m st inAngle inJitter inIters inText inRules).strings.length := by
  unfold parseCommit
  apply iterateLoop_invariant
  simp [addVerts, ChainFrom, usedVerts]

theorem reachable_invariant (m : MathOps K) (st : LSystem K) (h : Reachable m st) :
    ChainFrom 0 st.iterData ∧ st.iterData.length = st.strings.length := by
  induction h with
  | create jitter g => simp [LSystem.create, ChainFrom]
  | parse st inAngle inJitter inIters inText inRules _ _ => exact parseCommit_invariant ..
  | iterate st _ ih => exact iterate_invariant m st ih

/-- **C7.** In every state reachable by the constructor, `parse` and `iterate`, the records
satisfy `iterData[0].first = 0` and `iterData[i+1].first = iterData[i].first + iterData[i].count`,
hence for `i < j`: `iterData[i].first + iterData[i].count <= iterData[j].first`. -/
theorem iterData_ranges_contiguous (m : MathOps K) (st : LSystem K) (h : Reachable m st) :
    (∀ d, st.iterData[0]? = some d → d.first = 0) ∧
    (∀ (i : Nat) (a b : IterData K), st.iterData[i]? = some a → st.iterData[i + 1]? = some b →
      b.first = a.first + a.count) ∧
    (∀ (i j : Nat) (a b : IterData K), i < j → st.iterData[i]? = some a →
      st.iterData[j]? = some b → a.first + a.count ≤ b.first) := by
  have hc := (reachable_invariant m st h).1
  refine ⟨?_, fun i a b => ChainFrom_succ st.iterData 0 i a b hc,
    fun i j a b => ChainFrom_lt st.iterData 0 i j a b hc⟩
  intro d hd
  cases hds : st.iterData with
  | nil => simp [hds] at hd
  | cons e es =>
    rw [hds] at hc hd
    simp only [List.getElem?_cons_zero, Option.some.injEq] at hd
    rw [← hd]
    exact hc.1

/-- Witness for C7: three iterations of `F : FF` from `F` give the ranges `[0,2)`, `[2,6)`,
`[6,14)`. -/
theorem iterData_ranges_contiguous_witness :
    (parseCommit sampleOps (LSystem.create 0 halfRng) 90 0 3 ['F']
        [('F', ['F', 'F'], 1)]).iterData.map (fun d => (d.first, d.count))
      = [(0, 2), (2, 4), (6, 8)] ∧
    (∀ (i j : Nat) (a b : IterData ℚ), i < j →
      (parseCommit sampleOps (LSystem.create 0 halfRng) 90 0 3 ['F']
        [('F', ['F', 'F'], 1)]).iterData[i]? = some a →
      (parseCommit sampleOps (LSystem.create 0 halfRng) 90 0 3 ['F']
        [('F', ['F', 'F'], 1)]).iterData[j]? = some b →
      a.first + a.count ≤ b.first) := by
  refine ⟨?_, (iterData_ranges_contiguous sampleOps _
    (Reachable.parse _ 90 0 3 ['F'] [('F', ['F', 'F'], 1)]
      (Reachable.create 0 halfRng))).2.2⟩
  have hhalf : (2⁻¹ : ℚ) ≤ 1 := by norm_num
  simp [iterate, parseCommit, iterateLoop, addVerts, LSystem.create, hhalf,
    createGeometry, turtleRun, turtleStep, Turtle.initial, applyRules, applyRulesStep,
    equalRange, totalWeight, selectCandidate, uniformReal, Rng.next, halfRng, usedVerts,
    MAX_BUF, sizeofVec3, getNumIter]

theorem turtleStep_verts_other (m : MathOps K) (angle jitter : K) (t : Turtle K) (c : Char)
    (h : ¬ (c.toLower = 'f' ∨ c.toLower = 'g')) :
    (turtleStep m angle jitter t c).verts = t.verts := by
  by_cases hc : c = ']'
  · subst hc
    cases hs : t.stack with
    | nil => rw [turtleStep_pop_nil m angle jitter t hs]
    | cons top rest => rw [turtleStep_pop_cons m angle jitter t top rest hs]
  · simp only [turtleStep, h, hc, if_false]
    split_ifs <;> simp only

theorem turtleStep_verts_length (m : MathOps K) (angle jitter : K) (t : Turtle K) (c : Char) :
    (turtleStep m angle jitter t c).verts.length
      = t.verts.length + (if c.toLower = 'f' ∨ c.toLower = 'g' then 2 else 0) := by
  by_cases h : c.toLower = 'f' ∨ c.toLower = 'g'
  · rw [turtleStep, if_pos h, if_pos h]
    simp
  · rw [turtleStep_verts_other m angle jitter t c h, if_neg h]
    rfl

theorem turtleRun_verts_length (m : MathOps K) (angle jitter : K) (s : List Char) :
    ∀ t : Turtle K,
      (turtleRun m angle jitter t s).verts.length = t.verts.length + 2 * drawCount s := by
  induction s with
  | nil => intro t; simp [turtleRun_nil, drawCount]
  | cons c cs ih =>
    intro t
    rw [turtleRun_cons, ih, turtleStep_verts_length]
    by_cases h : c.toLower = 'f' ∨ c.toLower = 'g'
    · simp only [h, if_true, drawCount, List.countP_cons, decide_True]
      omega
    · simp only [h, if_false, drawCount, List.countP_cons, decide_False]
      simp

theorem createGeometry_length (m : MathOps K) (angle jitter : K) (s : List Char) (g : Rng K) :
    (createGeometry m angle jitter s g).1.length = 2 * drawCount s := by
  simp [createGeometry, turtleRun_verts_length, Turtle.initial]

theorem drawCount_replicate_F (n : Nat) : drawCount (List.replicate n 'F') = n := by
  induction n with
  | zero => rfl
  | succ n ih =>
    simp only [List.replicate_succ, drawCount, List.countP_cons] at ih ⊢
    rw [ih]
    simp


/-- **C8.** In every reachable state the vertices already stored are the sum of the records'
counts, and `iterate()` fails exactly when there is a last string and
`12 * (vertices already stored + vertices of the new string) > 2^26`; when it fails, the strings
and the records, hence `getNumIter()`, are as before the call. With no string at all `iterate()`
returns 0 and fails never. -/
theorem iterate_fails_iff_exceeds (m : MathOps K) (st : LSystem K) (h : Reachable m st) :
    usedVerts st.iterData = storedVerts st.iterData ∧
    (st.strings = [] → iterate m st = (.ok 0, st)) ∧
    (∀ back, st.strings.getLast? = some back →
      ((∃ e, (iterate m st).1 = .error e) ↔
        12 * (storedVerts st.iterData + (nextVerts m st back).length) > 2 ^ 26)) ∧
    ((∃ e, (iterate m st).1 = .error e) →
      (iterate m st).2.strings = st.strings ∧ (iterate m st).2.iterData = st.iterData ∧
        getNumIter (iterate m st).2 = getNumIter st) := by
  have hu := usedVerts_eq_storedVerts st.iterData (reachable_invariant m st h).1
  refine ⟨hu, iterate_eq_of_empty m st, ?_, ?_⟩
  · intro back hb
    by_cases hc : (usedVerts st.iterData + (nextVerts m st back).length) * sizeofVec3 > MAX_BUF
    · rw [iterate_eq_of_exceeds m st back hb hc]
      rw [hu] at hc
      simp only [sizeofVec3, MAX_BUF] at hc
      constructor
      · intro _; omega
      · intro _; exact ⟨_, rfl⟩
    · rw [iterate_eq_of_fits m st back hb hc]
      rw [hu] at hc
      simp only [sizeofVec3, MAX_BUF] at hc
      constructor
      · rintro ⟨e, he⟩; simp at he
      · intro hgt; omega
  · rintro ⟨e, he⟩
    cases hb : st.strings.getLast? with
    | none =>
      rw [iterate_eq_of_empty m st (List.getLast?_eq_none_iff.1 hb)] at he
      simp at he
    | some back =>
      by_cases hc : (usedVerts st.iterData + (nextVerts m st back).length) * sizeofVec3 > MAX_BUF
      · rw [iterate_eq_of_exceeds m st back hb hc]
        exact ⟨rfl, rfl, rfl⟩
      · rw [iterate_eq_of_fits m st back hb hc] at he
        simp at he

theorem parseCommit_once (m : MathOps K) (st : LSystem K) (inAngle inJitter : K)
    (inText : List Char) (inRules : Rules K) :
    (parseCommit m st inAngle inJitter 1 inText inRules).strings = [inText] ∧
    (parseCommit m st inAngle inJitter 1 inText inRules).rules = inRules ∧
    (parseCommit m st inAngle inJitter 1 inText inRules).iterData.map
        (fun d => (d.first, d.count)) = [(0, 2 * drawCount inText)] := by
  simp [parseCommit, iterateLoop, addVerts, usedVerts, createGeometry_length]

theorem storedVerts_eq_of_map (ds : List (IterData K)) (l : List (Nat × Nat))
    (h : ds.map (fun d => (d.first, d.count)) = l) :
    storedVerts ds = (l.map (fun p => p.2)).sum := by
  rw [← h]
  simp [storedVerts, Function.comp_def]

theorem nextVerts_length_no_rules (m : MathOps K) (st : LSystem K) (back : List Char)
    (h : st.rules = []) : (nextVerts m st back).length = 2 * drawCount back := by
  unfold nextVerts
  rw [createGeometry_length, h, applyRules_unruled [] back (fun c _ => rfl)]

/-- **C9 (what the code does).** `parse` stores the geometry of its first string without any
size check: for a first string of 2796203 characters `F` the object holds 5592406 vertices,
`12 * 5592406 = 67108872 > 2^26 = MAX_BUF` bytes, in a reachable state, and `parse` returns
normally. -/
theorem parse_stores_oversized_start (m : MathOps K) (st : LSystem K) (angle jitter : K)
    (h : Reachable m st) :
    Reachable m (parseCommit m st angle jitter 1 (List.replicate 2796203 'F') []) ∧
    (parseCommit m st angle jitter 1 (List.replicate 2796203 'F') []).iterData.map
        (fun d => (d.first, d.count)) = [(0, 5592406)] ∧
    sizeofVec3 * usedVerts (parseCommit m st angle jitter 1
        (List.replicate 2796203 'F') []).iterData = 67108872 ∧
    sizeofVec3 * usedVerts (parseCommit m st angle jitter 1
        (List.replicate 2796203 'F') []).iterData > MAX_BUF := by
  have hp := parseCommit_once m st angle jitter (List.replicate 2796203 'F') []
  rw [drawCount_replicate_F] at hp
  have hr : Reachable m (parseCommit m st angle jitter 1 (List.replicate 2796203 'F') []) :=
    Reachable.parse st angle jitter 1 _ [] h
  have hu := usedVerts_eq_storedVerts _ (reachable_invariant m _ hr).1
  have hs := storedVerts_eq_of_map _ _ hp.2.2
  rw [hu, hs]
  refine ⟨hr, hp.2.2, ?_, ?_⟩ <;> simp [sizeofVec3, MAX_BUF]

/-- Witness for C9's evaluation: the object built by the constructor. -/
theorem parse_stores_oversized_start_witness :
    sizeofVec3 * usedVerts (parseCommit sampleOps (LSystem.create 0 halfRng) 90 0 1
        (List.replicate 2796203 'F') []).iterData > MAX_BUF :=
  (parse_stores_oversized_start sampleOps (LSystem.create 0 halfRng) 90 0
    (Reachable.create 0 halfRng)).2.2.2

/-- Witness for C8: after parsing `2796203` characters `F` without rules (5592406 vertices), the
next `iterate()` would bring the buffer to `12 * (5592406 + 5592406)` bytes: it fails, and
`getNumIter()` stays 1. -/
theorem iterate_fails_iff_exceeds_witness :
    (∃ e, (iterate sampleOps (parseCommit sampleOps (LSystem.create 0 halfRng) 90 0 1
        (List.replicate 2796203 'F') [])).1 = .error e) ∧
    getNumIter (iterate sampleOps (parseCommit sampleOps (LSystem.create 0 halfRng) 90 0 1
        (List.replicate 2796203 'F') [])).2 = 1 := by
  have hr : Reachable sampleOps (parseCommit sampleOps (LSystem.create 0 halfRng) 90 0 1
      (List.replicate 2796203 'F') []) :=
    Reachable.parse _ 90 0 1 _ [] (Reachable.create 0 halfRng)
  have hp := parseCommit_once sampleOps (LSystem.create 0 halfRng) 90 0
    (List.replicate 2796203 'F') []
  rw [drawCount_replicate_F] at hp
  have hthm := iterate_fails_iff_exceeds sampleOps _ hr
  have hback : (parseCommit sampleOps (LSystem.create 0 halfRng) 90 0 1
      (List.replicate 2796203 'F') []).strings.getLast? = some (List.replicate 2796203 'F') := by
    rw [hp.1]; rfl
  have hfail : ∃ e, (iterate sampleOps (parseCommit sampleOps (LSystem.create 0 halfRng) 90 0 1
      (List.replicate 2796203 'F') [])).1 = .error e := by
    rw [hthm.2.2.1 _ hback, storedVerts_eq_of_map _ _ hp.2.2,
      nextVerts_length_no_rules sampleOps _ _ hp.2.1, drawCount_replicate_F]
    simp
  refine ⟨hfail, ?_⟩
  rw [(hthm.2.2.2 hfail).2.2, getNumIter, hp.1]
  rfl

/-- The guard of `iterate` at work: a call that appends a record leaves the buffer within
`MAX_BUF` bytes. -/
theorem iterate_ok_within_MAX_BUF (m : MathOps K) (st : LSystem K) (back : List Char)
    (hb : st.strings.getLast? = some back) (n : Nat) (hok : (iterate m st).1 = .ok n) :
    sizeofVec3 * usedVerts (iterate m st).2.iterData ≤ MAX_BUF := by
  by_cases hc : (usedVerts st.iterData + (nextVerts m st back).length) * sizeofVec3 > MAX_BUF
  · rw [iterate_eq_of_exceeds m st back hb hc] at hok
    simp at hok
  · rw [iterate_eq_of_fits m st back hb hc]
    simp only [addVerts, usedVerts, List.getLast?_concat]
    simp only [usedVerts] at hc
    rw [Nat.mul_comm]
    exact Nat.le_of_not_gt hc

/-! ## Lemmas on the bounding box -/

theorem min_affine (s t a b : K) (hs : 0 ≤ s) : min (a * s + t) (b * s + t) = min a b * s + t := by
  rw [min_add_add_right, min_mul_of_nonneg _ _ hs]

theorem max_affine (s t a b : K) (hs : 0 ≤ s) : max (a * s + t) (b * s + t) = max a b * s + t := by
  rw [max_add_add_right, max_mul_of_nonneg _ _ hs]

theorem bbfold_map_affine (s : K) (hs : 0 ≤ s) (t : Vec3 K) (l : List (Vec3 K)) :
    ∀ a b : Vec3 K,
      (l.map (fun v => (v.smul s).add t)).foldl (fun bb v => (bb.1.vmin v, bb.2.vmax v))
          ((a.smul s).add t, (b.smul s).add t)
        = (((l.foldl (fun bb v => (bb.1.vmin v, bb.2.vmax v)) (a, b)).1.smul s).add t,
           ((l.foldl (fun bb v => (bb.1.vmin v, bb.2.vmax v)) (a, b)).2.smul s).add t) := by
  induction l with
  | nil => intro a b; rfl
  | cons v vs ih =>
    intro a b
    simp only [List.map_cons, List.foldl_cons]
    have h1 : ((a.smul s).add t).vmin ((v.smul s).add t) = ((a.vmin v).smul s).add t := by
      ext <;> simp [Vec3.vmin, Vec3.smul, Vec3.add, min_affine, hs]
    have h2 : ((b.smul s).add t).vmax ((v.smul s).add t) = ((b.vmax v).smul s).add t := by
      ext <;> simp [Vec3.vmax, Vec3.smul, Vec3.add, max_affine, hs]
    rw [h1, h2, ih]

theorem bbfold_bounds (l : List (Vec3 K)) :
    ∀ a b : Vec3 K,
      ((l.foldl (fun bb v => (bb.1.vmin v, bb.2.vmax v)) (a, b)).1.x ≤ a.x ∧
       (l.foldl (fun bb v => (bb.1.vmin v, bb.2.vmax v)) (a, b)).1.y ≤ a.y ∧
       (l.foldl (fun bb v => (bb.1.vmin v, bb.2.vmax v)) (a, b)).1.z ≤ a.z) ∧
      (b.x ≤ (l.foldl (fun bb v => (bb.1.vmin v, bb.2.vmax v)) (a, b)).2.x ∧
       b.y ≤ (l.foldl (fun bb v => (bb.1.vmin v, bb.2.vmax v)) (a, b)).2.y ∧
       b.z ≤ (l.foldl (fun bb v => (bb.1.vmin v, bb.2.vmax v)) (a, b)).2.z) := by
  induction l with
  | nil => intro a b; simp
  | cons v vs ih =>
    intro a b
    simp only [List.foldl_cons]
    obtain ⟨⟨h1, h2, h3⟩, h4, h5, h6⟩ := ih (a.vmin v) (b.vmax v)
    simp only [Vec3.vmin, Vec3.vmax] at h1 h2 h3 h4 h5 h6
    exact ⟨⟨h1.trans (min_le_left _ _), h2.trans (min_le_left _ _), h3.trans (min_le_left _ _)⟩,
      (le_max_left _ _).trans h4, (le_max_left _ _).trans h5, (le_max_left _ _).trans h6⟩

theorem boundingBox_cons (v : Vec3 K) (vs : List (Vec3 K)) (hv : inFloatRange v) :
    boundingBox (v :: vs) = vs.foldl (fun bb v => (bb.1.vmin v, bb.2.vmax v)) (v, v) := by
  obtain ⟨⟨hx1, hx2⟩, ⟨hy1, hy2⟩, hz1, hz2⟩ := hv
  have h1 : (Vec3.splat (floatMax : K)).vmin v = v := by
    ext <;> simp [Vec3.vmin, Vec3.splat, hx2, hy2, hz2]
  have h2 : (Vec3.splat (-(floatMax : K))).vmax v = v := by
    ext <;> simp [Vec3.vmax, Vec3.splat, hx1, hy1, hz1]
  simp only [boundingBox, List.foldl_cons, h1, h2]

theorem floatMax_ge (x : K) (h : x ≤ 19 / 20) : x ≤ floatMax := by
  have : (19 / 20 : K) ≤ floatMax := by
    unfold floatMax
    norm_num
  exact h.trans this

theorem transformPoint_bbfixOf (verts : List (Vec3 K)) (hne : verts ≠ []) (v : Vec3 K) :
    (bbfixOf verts).transformPoint v
      = (v.smul ((19 / 10 : K) / maxExtent verts)).add
          (((((boundingBox verts).1.add (boundingBox verts).2).neg).smul
            ((19 / 10 : K) / maxExtent verts)).sdiv 2) := by
  have he : verts.isEmpty = false := by
    cases verts with
    | nil => exact absurd rfl hne
    | cons a as => rfl
  ext <;> simp [bbfixOf, he, Mat4.transformPoint, Mat4.mulVec, Vec3.smul, Vec3.add, Vec3.sdiv,
    Vec3.neg, mul_comm]

theorem affine_in_range (s e lo hi x : K) (hs : 0 ≤ s) (hse : s * e = 19 / 10)
    (h1 : lo ≤ x) (h2 : x ≤ hi) (h3 : hi - lo ≤ e) :
    -floatMax ≤ x * s + -(lo + hi) * s / 2 ∧ x * s + -(lo + hi) * s / 2 ≤ floatMax := by
  have ha : 0 ≤ s * (e - (2 * x - lo - hi)) := mul_nonneg hs (by linarith)
  have hb : 0 ≤ s * (e + (2 * x - lo - hi)) := mul_nonneg hs (by linarith)
  constructor
  · have : -(19 / 20 : K) ≤ x * s + -(lo + hi) * s / 2 := by linarith
    have h := floatMax_ge (-(x * s + -(lo + hi) * s / 2)) (by linarith)
    linarith
  · exact floatMax_ge _ (by linarith)

/-- **C10.** For a non-empty list of finite vertices whose bounding box has largest extent
`e > 0`, the transform `bbfix` stored by `addVerts` is `v -> scale * v + translation` with
`scale = 1.9 / e`, and the bounding box of the transformed list is centred at the origin
(`min' = -max'`) with largest extent exactly `1.9`. -/
theorem bbfix_centres_and_scales (verts : List (Vec3 K)) (hne : verts ≠ [])
    (hr : ∀ v ∈ verts, inFloatRange v) (he : 0 < maxExtent verts) :
    (∀ v : Vec3 K, (bbfixOf verts).transformPoint v
      = (v.smul ((19 / 10 : K) / maxExtent verts)).add
          (((((boundingBox verts).1.add (boundingBox verts).2).neg).smul
            ((19 / 10 : K) / maxExtent verts)).sdiv 2)) ∧
    (boundingBox (verts.map (bbfixOf verts).transformPoint)).1
      = (boundingBox (verts.map (bbfixOf verts).transformPoint)).2.neg ∧
    maxExtent (verts.map (bbfixOf verts).transformPoint) = 19 / 10 := by
  refine ⟨transformPoint_bbfixOf verts hne, ?_⟩
  have hfun : (bbfixOf verts).transformPoint
      = fun v => (v.smul ((19 / 10 : K) / maxExtent verts)).add
          (((((boundingBox verts).1.add (boundingBox verts).2).neg).smul
            ((19 / 10 : K) / maxExtent verts)).sdiv 2) := by
    funext v
    exact transformPoint_bbfixOf verts hne v
  have hmax : maxExtent verts
      = max (max ((boundingBox verts).2.x - (boundingBox verts).1.x)
          ((boundingBox verts).2.y - (boundingBox verts).1.y))
          ((boundingBox verts).2.z - (boundingBox verts).1.z) := rfl
  have hs : 0 ≤ (19 / 10 : K) / maxExtent verts := by positivity
  have hse : (19 / 10 : K) / maxExtent verts * maxExtent verts = 19 / 10 :=
    div_mul_cancel₀ _ (ne_of_gt he)
  rw [hfun]
  generalize hsdef : (19 / 10 : K) / maxExtent verts = s at hs hse ⊢
  cases verts with
  | nil => exact absurd rfl hne
  | cons v vs =>
    have hv := hr v (List.mem_cons_self _ _)
    have hbb := boundingBox_cons v vs hv
    obtain ⟨⟨b1, b2, b3⟩, b4, b5, b6⟩ := bbfold_bounds vs v v
    rw [← hbb] at b1 b2 b3 b4 b5 b6
    generalize boundingBox (v :: vs) = bb at hmax hbb b1 b2 b3 b4 b5 b6 ⊢
    have ex : bb.2.x - bb.1.x ≤ maxExtent (v :: vs) := by
      rw [hmax]; exact (le_max_left _ _).trans (le_max_left _ _)
    have ey : bb.2.y - bb.1.y ≤ maxExtent (v :: vs) := by
      rw [hmax]; exact (le_max_right _ _).trans (le_max_left _ _)
    have ez : bb.2.z - bb.1.z ≤ maxExtent (v :: vs) := by
      rw [hmax]; exact le_max_right _ _
    have hfv : inFloatRange ((v.smul s).add ((((bb.1.add bb.2).neg).smul s).sdiv 2)) := by
      simp only [inFloatRange, Vec3.smul, Vec3.add, Vec3.neg, Vec3.sdiv]
      exact ⟨affine_in_range s _ _ _ _ hs hse b1 b4 ex, affine_in_range s _ _ _ _ hs hse b2 b5 ey,
        affine_in_range s _ _ _ _ hs hse b3 b6 ez⟩
    have hbb2 : boundingBox ((v :: vs).map
        (fun v => (v.smul s).add ((((bb.1.add bb.2).neg).smul s).sdiv 2)))
        = ((bb.1.smul s).add ((((bb.1.add bb.2).neg).smul s).sdiv 2),
           (bb.2.smul s).add ((((bb.1.add bb.2).neg).smul s).sdiv 2)) := by
      rw [List.map_cons, boundingBox_cons _ _ hfv, bbfold_map_affine s hs, ← hbb]
    constructor
    · rw [hbb2]
      ext <;> simp [Vec3.smul, Vec3.add, Vec3.neg, Vec3.sdiv] <;> ring
    · unfold maxExtent
      rw [hbb2]
      simp only [Vec3.smul, Vec3.add, Vec3.neg, Vec3.sdiv, Vec3.sub]
      have e1 : ∀ a b t : K, a * s + t - (b * s + t) = (a - b) * s := by intro a b t; ring
      rw [e1, e1, e1, ← max_mul_of_nonneg _ _ hs, ← max_mul_of_nonneg _ _ hs, ← hmax,
        mul_comm]
      exact hse

/-- Witness for C10: the segment of `F`, from `(0,0,0)` to `(0,1,0)`; its largest extent is 1
and it is mapped to the segment from `(0,-0.95,0)` to `(0,0.95,0)`. -/
theorem bbfix_centres_and_scales_witness :
    maxExtent ([⟨0, 0, 0⟩, ⟨0, 1, 0⟩] : List (Vec3 ℚ)) = 1 ∧
    ([⟨0, 0, 0⟩, ⟨0, 1, 0⟩] : List (Vec3 ℚ)).map
        (bbfixOf ([⟨0, 0, 0⟩, ⟨0, 1, 0⟩] : List (Vec3 ℚ))).transformPoint
      = [⟨0, -(19 / 20), 0⟩, ⟨0, 19 / 20, 0⟩] ∧
    maxExtent (([⟨0, 0, 0⟩, ⟨0, 1, 0⟩] : List (Vec3 ℚ)).map
        (bbfixOf ([⟨0, 0, 0⟩, ⟨0, 1, 0⟩] : List (Vec3 ℚ))).transformPoint) = 19 / 10 := by
  have hbb : boundingBox ([⟨0, 0, 0⟩, ⟨0, 1, 0⟩] : List (Vec3 ℚ)) = (⟨0, 0, 0⟩, ⟨0, 1, 0⟩) := by
    simp [boundingBox, Vec3.vmin, Vec3.vmax, Vec3.splat, floatMax]
  have hmax : maxExtent ([⟨0, 0, 0⟩, ⟨0, 1, 0⟩] : List (Vec3 ℚ)) = 1 := by
    simp [maxExtent, hbb, Vec3.sub]
  have hrange : ∀ v ∈ ([⟨0, 0, 0⟩, ⟨0, 1, 0⟩] : List (Vec3 ℚ)), inFloatRange v := by
    intro v hv
    simp only [List.mem_cons, List.mem_singleton, List.not_mem_nil, or_false] at hv
    rcases hv with rfl | rfl <;> norm_num [inFloatRange, floatMax]
  refine ⟨hmax, ?_, (bbfix_centres_and_scales _ (by simp) hrange (by rw [hmax]; norm_num)).2.2⟩
  have hne : ([⟨0, 0, 0⟩, ⟨0, 1, 0⟩] : List (Vec3 ℚ)) ≠ [] := by simp
  simp [transformPoint_bbfixOf _ hne, hmax, hbb, Vec3.smul, Vec3.add, Vec3.neg, Vec3.sdiv]
  norm_num

/-! ## Lemmas on quarter turns -/

theorem Vec3.dot_comm (a b : Vec3 K) : a.dot b = b.dot a := by
  simp only [Vec3.dot]; ring

theorem Vec3.cross_dot_cross (n a b : Vec3 K) :
    (n.cross a).dot (n.cross b) = n.dot n * a.dot b - n.dot b * n.dot a := by
  simp only [Vec3.dot, Vec3.cross]; ring

theorem Vec3.dot_cross_self (n a : Vec3 K) : n.dot (n.cross a) = 0 := by
  simp only [Vec3.dot, Vec3.cross]; ring

theorem Vec3.cross_dot_right (n a : Vec3 K) : (n.cross a).dot a = 0 := by
  simp only [Vec3.dot, Vec3.cross]; ring

theorem Vec3.smul_dot_smul (a b : Vec3 K) (s : K) :
    (a.smul s).dot (b.smul s) = s * s * a.dot b := by
  simp only [Vec3.dot, Vec3.smul]; ring

theorem Vec3.dot_smul (a b : Vec3 K) (s : K) : a.dot (b.smul s) = s * a.dot b := by
  simp only [Vec3.dot, Vec3.smul]; ring

theorem Vec3.smul_dot (a b : Vec3 K) (s : K) : (a.smul s).dot b = s * a.dot b := by
  simp only [Vec3.dot, Vec3.smul]; ring

/-- A rotation by an angle with cosine 0 and sine `s`, about a unit axis `n`, of a vector
perpendicular to `n`: the result is `s * (n × v)`. -/
theorem rotate_quarter (m : MathOps K) (hinv : m.inversesqrt 1 = 1) (v n : Vec3 K) (a s : K)
    (hc : m.cos a = 0) (hsin : m.sin a = s) (hn : n.dot n = 1) (hnv : n.dot v = 0) :
    rotate m v a n = (n.cross v).smul s := by
  ext
  · simp only [rotate, normalize, hn, hinv, hc, hsin, Vec3.smul, Vec3.cross]
    simp only [Vec3.dot] at hnv
    linear_combination n.x * hnv
  · simp only [rotate, normalize, hn, hinv, hc, hsin, Vec3.smul, Vec3.cross]
    simp only [Vec3.dot] at hnv
    linear_combination n.y * hnv
  · simp only [rotate, normalize, hn, hinv, hc, hsin, Vec3.smul, Vec3.cross]
    simp only [Vec3.dot] at hnv
    linear_combination n.z * hnv

/-- Two unit vectors `a`, `b` perpendicular to each other and to the unit axis `n`, both turned
by a quarter about `n`, stay so. -/
theorem rotate_pair_orthonormal (m : MathOps K) (hinv : m.inversesqrt 1 = 1) (n a b : Vec3 K)
    (θ s : K) (hc : m.cos θ = 0) (hsin : m.sin θ = s) (hs : s * s = 1)
    (hnn : n.dot n = 1) (haa : a.dot a = 1) (hbb : b.dot b = 1)
    (hna : n.dot a = 0) (hnb : n.dot b = 0) (hab : a.dot b = 0) :
    (rotate m a θ n).dot (rotate m a θ n) = 1 ∧ (rotate m b θ n).dot (rotate m b θ n) = 1 ∧
    n.dot (rotate m a θ n) = 0 ∧ n.dot (rotate m b θ n) = 0 ∧
    (rotate m a θ n).dot (rotate m b θ n) = 0 := by
  rw [rotate_quarter m hinv a n θ s hc hsin hnn hna, rotate_quarter m hinv b n θ s hc hsin hnn hnb]
  refine ⟨?_, ?_, ?_, ?_, ?_⟩
  · rw [Vec3.smul_dot_smul, Vec3.cross_dot_cross, hs, hnn, haa, hna]; norm_num
  · rw [Vec3.smul_dot_smul, Vec3.cross_dot_cross, hs, hnn, hbb, hnb]; norm_num
  · rw [Vec3.dot_smul, Vec3.dot_cross_self]; norm_num
  · rw [Vec3.dot_smul, Vec3.dot_cross_self]; norm_num
  · rw [Vec3.smul_dot_smul, Vec3.cross_dot_cross, hs, hnn, hab, hna]; norm_num

theorem currAngle_zero (m : MathOps K) (base : K) (g : Rng K) :
    currAngle m 0 base g = (base, g) := by
  simp [currAngle]

theorem Cursor.orthonormal_initial : (Cursor.initial : Cursor K).Orthonormal := by
  simp [Cursor.Orthonormal, Cursor.initial, Vec3.dot]

theorem turtleStep_draw (m : MathOps K) (angle jitter : K) (t : Turtle K) (c : Char)
    (h : c.toLower = 'f' ∨ c.toLower = 'g') :
    turtleStep m angle jitter t c =
      { t with verts := t.verts ++ [t.cur.pos, t.cur.pos.add t.cur.dir],
               cur := { t.cur with pos := t.cur.pos.add t.cur.dir } } := by
  rw [turtleStep, if_pos h]

theorem turtleStep_move (m : MathOps K) (angle jitter : K) (t : Turtle K) (c : Char)
    (h1 : ¬ (c.toLower = 'f' ∨ c.toLower = 'g')) (h2 : c.toLower = 's') :
    turtleStep m angle jitter t c =
      { t with cur := { t.cur with pos := t.cur.pos.add t.cur.dir } } := by
  rw [turtleStep, if_neg h1, if_pos h2]

theorem turtleStep_yaw_left (m : MathOps K) (angle jitter : K) (t : Turtle K) :
    turtleStep m angle jitter t '+' =
      { t with
        cur := { t.cur with
          dir := rotate m t.cur.dir (currAngle m jitter (radians m angle) t.rng).1 t.cur.up,
          right := rotate m t.cur.right (currAngle m jitter (radians m angle) t.rng).1 t.cur.up },
        rng := (currAngle m jitter (radians m angle) t.rng).2 } := by
  simp [turtleStep]

theorem turtleStep_yaw_right (m : MathOps K) (angle jitter : K) (t : Turtle K) :
    turtleStep m angle jitter t '-' =
      { t with
        cur := { t.cur with
          dir := rotate m t.cur.dir (currAngle m jitter (radians m (-angle)) t.rng).1 t.cur.up,
          right := rotate m t.cur.right (currAngle m jitter (radians m (-angle)) t.rng).1 t.cur.up },
        rng := (currAngle m jitter (radians m (-angle)) t.rng).2 } := by
  simp [turtleStep]

theorem turtleStep_pitch_down (m : MathOps K) (angle jitter : K) (t : Turtle K) :
    turtleStep m angle jitter t '&' =
      { t with
        cur := { t.cur with
          dir := rotate m t.cur.dir (currAngle m jitter (radians m angle) t.rng).1 t.cur.right,
          up := rotate m t.cur.up (currAngle m jitter (radians m angle) t.rng).1 t.cur.right },
        rng := (currAngle m jitter (radians m angle) t.rng).2 } := by
  simp [turtleStep]

theorem turtleStep_pitch_up (m : MathOps K) (angle jitter : K) (t : Turtle K) :
    turtleStep m angle jitter t '^' =
      { t with
        cur := { t.cur with
          dir := rotate m t.cur.dir (currAngle m jitter (radians m (-angle)) t.rng).1 t.cur.right,
          up := rotate m t.cur.up (currAngle m jitter (radians m (-angle)) t.rng).1 t.cur.right },
        rng := (currAngle m jitter (radians m (-angle)) t.rng).2 } := by
  simp [turtleStep]

theorem turtleStep_roll_left (m : MathOps K) (angle jitter : K) (t : Turtle K) :
    turtleStep m angle jitter t '/' =
      { t with
        cur := { t.cur with
          right := rotate m t.cur.right (currAngle m jitter (radians m angle) t.rng).1 t.cur.dir,
          up := rotate m t.cur.up (currAngle m jitter (radians m angle) t.rng).1 t.cur.dir },
        rng := (currAngle m jitter (radians m angle) t.rng).2 } := by
  simp [turtleStep]

theorem turtleStep_roll_right (m : MathOps K) (angle jitter : K) (t : Turtle K) :
    turtleStep m angle jitter t '\\' =
      { t with
        cur := { t.cur with
          right := rotate m t.cur.right (currAngle m jitter (radians m (-angle)) t.rng).1 t.cur.dir,
          up := rotate m t.cur.up (currAngle m jitter (radians m (-angle)) t.rng).1 t.cur.dir },
        rng := (currAngle m jitter (radians m (-angle)) t.rng).2 } := by
  simp [turtleStep]

theorem turtleStep_turn_around (m : MathOps K) (angle jitter : K) (t : Turtle K) :
    turtleStep m angle jitter t '|' =
      { t with cur := { t.cur with dir := t.cur.dir.neg, right := t.cur.right.neg } } := by
  simp [turtleStep]

theorem turtleStep_ignored (m : MathOps K) (angle jitter : K) (t : Turtle K) (c : Char)
    (h1 : ¬ (c.toLower = 'f' ∨ c.toLower = 'g')) (h2 : ¬ c.toLower = 's') (h3 : c ≠ '+')
    (h4 : c ≠ '-') (h5 : c ≠ '&') (h6 : c ≠ '^') (h7 : c ≠ '/') (h8 : c ≠ '\\') (h9 : c ≠ '|')
    (h10 : c ≠ '[') (h11 : c ≠ ']') : turtleStep m angle jitter t c = t := by
  simp only [turtleStep, h1, h2, h3, h4, h5, h6, h7, h8, h9, h10, h11, if_false]

/-- With angle 90 and no jitter, every command keeps the frame of the cursor, and the frames
saved on the stack, orthonormal. -/
theorem turtleStep_orthonormal (m : MathOps K) (hq : QuarterExact m) (t : Turtle K) (c : Char)
    (h : t.cur.Orthonormal ∧ ∀ s ∈ t.stack, s.Orthonormal) :
    (turtleStep m 90 0 t c).cur.Orthonormal ∧
      ∀ s ∈ (turtleStep m 90 0 t c).stack, s.Orthonormal := by
  obtain ⟨⟨h1, h2, h3, h4, h5, h6⟩, hst⟩ := h
  obtain ⟨q1, q2, q3, q4, q5⟩ := hq
  have h4c := (Vec3.dot_comm t.cur.dir t.cur.up).trans h4
  have h5c := (Vec3.dot_comm t.cur.right t.cur.up).trans h5
  have h6c := (Vec3.dot_comm t.cur.right t.cur.dir).trans h6
  have one : (1 : K) * 1 = 1 := by norm_num
  have mone : (-1 : K) * -1 = 1 := by norm_num
  by_cases c1 : c.toLower = 'f' ∨ c.toLower = 'g'
  · rw [turtleStep_draw m 90 0 t c c1]
    exact ⟨⟨h1, h2, h3, h4, h5, h6⟩, hst⟩
  by_cases c2 : c.toLower = 's'
  · rw [turtleStep_move m 90 0 t c c1 c2]
    exact ⟨⟨h1, h2, h3, h4, h5, h6⟩, hst⟩
  by_cases c3 : c = '+'
  · subst c3
    rw [turtleStep_yaw_left, currAngle_zero]
    obtain ⟨r1, r2, r3, r4, r5⟩ := rotate_pair_orthonormal m q5 t.cur.up t.cur.dir t.cur.right
      (radians m 90) 1 q1 q2 one h2 h1 h3 h4 h5 h6
    exact ⟨⟨r1, h2, r2, r3, r4, r5⟩, hst⟩
  by_cases c4 : c = '-'
  · subst c4
    rw [turtleStep_yaw_right, currAngle_zero]
    obtain ⟨r1, r2, r3, r4, r5⟩ := rotate_pair_orthonormal m q5 t.cur.up t.cur.dir t.cur.right
      (radians m (-90)) (-1) q3 q4 mone h2 h1 h3 h4 h5 h6
    exact ⟨⟨r1, h2, r2, r3, r4, r5⟩, hst⟩
  by_cases c5 : c = '&'
  · subst c5
    rw [turtleStep_pitch_down, currAngle_zero]
    obtain ⟨r1, r2, r3, r4, r5⟩ := rotate_pair_orthonormal m q5 t.cur.right t.cur.dir t.cur.up
      (radians m 90) 1 q1 q2 one h3 h1 h2 h6c h5c h4c
    exact ⟨⟨r1, r2, h3, (Vec3.dot_comm _ _).trans r5, (Vec3.dot_comm _ _).trans r4,
      (Vec3.dot_comm _ _).trans r3⟩, hst⟩
  by_cases c6 : c = '^'
  · subst c6
    rw [turtleStep_pitch_up, currAngle_zero]
    obtain ⟨r1, r2, r3, r4, r5⟩ := rotate_pair_orthonormal m q5 t.cur.right t.cur.dir t.cur.up
      (radians m (-90)) (-1) q3 q4 mone h3 h1 h2 h6c h5c h4c
    exact ⟨⟨r1, r2, h3, (Vec3.dot_comm _ _).trans r5, (Vec3.dot_comm _ _).trans r4,
      (Vec3.dot_comm _ _).trans r3⟩, hst⟩
  by_cases c7 : c = '/'
  · subst c7
    rw [turtleStep_roll_left, currAngle_zero]
    obtain ⟨r1, r2, r3, r4, r5⟩ := rotate_pair_orthonormal m q5 t.cur.dir t.cur.right t.cur.up
      (radians m 90) 1 q1 q2 one h1 h3 h2 h6 h4c h5c
    exact ⟨⟨h1, r2, r1, (Vec3.dot_comm _ _).trans r4, (Vec3.dot_comm _ _).trans r5, r3⟩, hst⟩
  by_cases c8 : c = '\\'
  · subst c8
    rw [turtleStep_roll_right, currAngle_zero]
    obtain ⟨r1, r2, r3, r4, r5⟩ := rotate_pair_orthonormal m q5 t.cur.dir t.cur.right t.cur.up
      (radians m (-90)) (-1) q3 q4 mone h1 h3 h2 h6 h4c h5c
    exact ⟨⟨h1, r2, r1, (Vec3.dot_comm _ _).trans r4, (Vec3.dot_comm _ _).trans r5, r3⟩, hst⟩
  by_cases c9 : c = '|'
  · subst c9
    rw [turtleStep_turn_around]
    refine ⟨?_, hst⟩
    simp only [Cursor.Orthonormal, Vec3.dot, Vec3.neg] at h1 h2 h3 h4 h5 h6 ⊢
    refine ⟨?_, h2, ?_, ?_, ?_, ?_⟩
    · linear_combination h1
    · linear_combination h3
    · linear_combination -h4
    · linear_combination -h5
    · linear_combination h6
  by_cases c10 : c = '['
  · subst c10
    rw [turtleStep_push]
    refine ⟨⟨h1, h2, h3, h4, h5, h6⟩, ?_⟩
    intro s hs
    simp only [List.mem_cons] at hs
    rcases hs with rfl | hs
    · exact ⟨h1, h2, h3, h4, h5, h6⟩
    · exact hst s hs
  by_cases c11 : c = ']'
  · subst c11
    cases hs : t.stack with
    | nil =>
      rw [turtleStep_pop_nil m 90 0 t hs]
      exact ⟨⟨h1, h2, h3, h4, h5, h6⟩, hs ▸ hst⟩
    | cons top rest =>
      rw [turtleStep_pop_cons m 90 0 t top rest hs]
      rw [hs] at hst
      exact ⟨hst top (List.mem_cons_self _ _), fun s hs => hst s (List.mem_cons_of_mem _ hs)⟩
  rw [turtleStep_ignored m 90 0 t c c1 c2 c3 c4 c5 c6 c7 c8 c9 c10 c11]
  exact ⟨⟨h1, h2, h3, h4, h5, h6⟩, hst⟩

theorem turtleRun_orthonormal (m : MathOps K) (hq : QuarterExact m) (w : List Char) :
    ∀ t : Turtle K, (t.cur.Orthonormal ∧ ∀ s ∈ t.stack, s.Orthonormal) →
      (turtleRun m 90 0 t w).cur.Orthonormal ∧
        ∀ s ∈ (turtleRun m 90 0 t w).stack, s.Orthonormal := by
  induction w with
  | nil => intro t h; exact h
  | cons c cs ih =>
    intro t h
    rw [turtleRun_cons]
    exact ih _ (turtleStep_orthonormal m hq t c h)

/-- With angle 90 and no jitter, `+` on an orthonormal frame: the new direction is `up × dir`,
perpendicular to the old one and of unit length; position and up stay. -/
theorem turtleStep_yaw_quarter (m : MathOps K) (hq : QuarterExact m) (t : Turtle K)
    (h : t.cur.Orthonormal) :
    (turtleStep m 90 0 t '+').cur.dir.dot t.cur.dir = 0 ∧
    (turtleStep m 90 0 t '+').cur.dir.dot (turtleStep m 90 0 t '+').cur.dir = 1 ∧
    (turtleStep m 90 0 t '+').cur.pos = t.cur.pos ∧
    (turtleStep m 90 0 t '+').cur.up = t.cur.up := by
  obtain ⟨h1, h2, h3, h4, h5, h6⟩ := h
  obtain ⟨q1, q2, q3, q4, q5⟩ := hq
  rw [turtleStep_yaw_left, currAngle_zero]
  simp only
  rw [rotate_quarter m q5 t.cur.dir t.cur.up (radians m 90) 1 q1 q2 h2 h4]
  refine ⟨?_, ?_, trivial, trivial⟩
  · rw [Vec3.smul_dot, Vec3.cross_dot_right]; norm_num
  · rw [Vec3.smul_dot_smul, Vec3.cross_dot_cross, h2, h1, h4]; norm_num

theorem turtleStep_pop_mk {K : Type} [LinearOrderedField K] (m : MathOps K) (angle jitter : K)
    (verts : List (Vec3 K)) (cur top : Cursor K) (rest : List (Cursor K)) (g : Rng K) :
    turtleStep m angle jitter ⟨verts, cur, top :: rest, g⟩ ']' = ⟨verts, top, rest, g⟩ :=
  turtleStep_pop_cons m angle jitter _ top rest rfl

theorem quarterExact_real :
    QuarterExact (⟨Real.cos, Real.sin, fun x => (Real.sqrt x)⁻¹, Real.pi⟩ : MathOps ℝ) := by
  have e1 : (90 : ℝ) * (Real.pi / 180) = Real.pi / 2 := by ring
  have e2 : (-90 : ℝ) * (Real.pi / 180) = -(Real.pi / 2) := by ring
  refine ⟨?_, ?_, ?_, ?_, ?_⟩
  · show Real.cos (90 * (Real.pi / 180)) = 0
    rw [e1, Real.cos_pi_div_two]
  · show Real.sin (90 * (Real.pi / 180)) = 1
    rw [e1, Real.sin_pi_div_two]
  · show Real.cos (-90 * (Real.pi / 180)) = 0
    rw [e2, Real.cos_neg, Real.cos_pi_div_two]
  · show Real.sin (-90 * (Real.pi / 180)) = -1
    rw [e2, Real.sin_neg, Real.sin_pi_div_two]
  · show (Real.sqrt 1)⁻¹ = 1
    rw [Real.sqrt_one, inv_one]

/-- **C5.** In exact real arithmetic (`cos`, `sin`, `sqrt` and `pi` of the reals), with angle 90
degrees and zero jitter: after any string of commands, a yaw `+` turns the direction into one
perpendicular to the previous direction, of unit length, and leaves position and up unchanged.
For `F[+F]F` the geometry is `(0,0,0)-(0,1,0)`, `(0,1,0)-(-1,1,0)`, `(0,1,0)-(0,2,0)`: the second
segment's direction has dot product 0 with the first segment's direction and unit length. -/
theorem yaw_quarter_turn_perpendicular :
    let m : MathOps ℝ := ⟨Real.cos, Real.sin, fun x => (Real.sqrt x)⁻¹, Real.pi⟩
    (∀ (w : List Char) (g : Rng ℝ),
      (turtleStep m 90 0 (turtleRun m 90 0 (Turtle.initial g) w) '+').cur.dir.dot
          (turtleRun m 90 0 (Turtle.initial g) w).cur.dir = 0 ∧
      (turtleStep m 90 0 (turtleRun m 90 0 (Turtle.initial g) w) '+').cur.dir.dot
          (turtleStep m 90 0 (turtleRun m 90 0 (Turtle.initial g) w) '+').cur.dir = 1 ∧
      (turtleStep m 90 0 (turtleRun m 90 0 (Turtle.initial g) w) '+').cur.pos
          = (turtleRun m 90 0 (Turtle.initial g) w).cur.pos ∧
      (turtleStep m 90 0 (turtleRun m 90 0 (Turtle.initial g) w) '+').cur.up
          = (turtleRun m 90 0 (Turtle.initial g) w).cur.up) ∧
    (∀ g : Rng ℝ, ∃ a b c d e f : Vec3 ℝ,
      (createGeometry m 90 0 ['F', '[', '+', 'F', ']', 'F'] g).1 = [a, b, c, d, e, f] ∧
      [a, b, c, d, e, f] = [⟨0, 0, 0⟩, ⟨0, 1, 0⟩, ⟨0, 1, 0⟩, ⟨-1, 1, 0⟩, ⟨0, 1, 0⟩, ⟨0, 2, 0⟩] ∧
      (d.sub c).dot (b.sub a) = 0 ∧ (d.sub c).dot (d.sub c) = 1) := by
  intro m
  have hq : QuarterExact m := quarterExact_real
  constructor
  · intro w g
    have ho := turtleRun_orthonormal m hq w (Turtle.initial g)
      ⟨Cursor.orthonormal_initial, by simp [Turtle.initial]⟩
    exact turtleStep_yaw_quarter m hq _ ho.1
  · intro g
    have hrot : rotate m ⟨0, 1, 0⟩ (radians m 90) ⟨0, 0, 1⟩ = ⟨-1, 0, 0⟩ := by
      rw [rotate_quarter m hq.2.2.2.2 _ _ (radians m 90) 1 hq.1 hq.2.1
        (by simp [Vec3.dot]) (by simp [Vec3.dot])]
      simp [Vec3.cross, Vec3.smul]
    refine ⟨⟨0, 0, 0⟩, ⟨0, 1, 0⟩, ⟨0, 1, 0⟩, ⟨-1, 1, 0⟩, ⟨0, 1, 0⟩, ⟨0, 2, 0⟩, ?_, rfl, ?_, ?_⟩
    · simp only [createGeometry, turtleRun, List.foldl_cons, List.foldl_nil,
        turtleStep_draw m 90 0 _ 'F' (by decide), turtleStep_push, turtleStep_yaw_left,
        currAngle_zero, Turtle.initial, Cursor.initial, hrot, turtleStep_pop_mk]
      simp [Vec3.add]
      norm_num
    · simp [Vec3.dot, Vec3.sub]
    · simp [Vec3.dot, Vec3.sub]

/-- A call of `iterate` that returns normally on an object with strings adds one string. -/
theorem iterate_ok_length (m : MathOps K) (st st1 : LSystem K) (n : Nat)
    (hne : st.strings ≠ []) (h : iterate m st = (.ok n, st1)) :
    st1.strings.length = st.strings.length + 1 := by
  cases hb : st.strings.getLast? with
  | none => exact absurd (List.getLast?_eq_none_iff.1 hb) hne
  | some back =>
    obtain ⟨hs, _⟩ := iterate_ok_strings m st st1 n back hb h
    rw [hs]
    simp

/-- The fuel of `iterateLoop` is enough once it covers `inIters - strings.size()`: one more unit
of fuel gives the same result, so the loop ended by its own condition or by an exception. -/
theorem iterateLoop_fuel_enough (m : MathOps K) (inIters : Nat) :
    ∀ (fuel : Nat) (st : LSystem K), st.strings ≠ [] → inIters - st.strings.length ≤ fuel →
      iterateLoop m inIters (fuel + 1) st = iterateLoop m inIters fuel st := by
  intro fuel
  induction fuel with
  | zero =>
    intro st _ hf
    have : ¬ st.strings.length < inIters := by omega
    simp [iterateLoop, this]
  | succ fuel ih =>
    intro st hne hf
    rw [iterateLoop, iterateLoop]
    by_cases hlt : st.strings.length < inIters
    · simp only [hlt, if_true]
      rcases hres : iterate m st with ⟨res, st1⟩
      cases res with
      | error e => rfl
      | ok n =>
        simp only
        have hl := iterate_ok_length m st st1 n hne hres
        refine ih st1 ?_ (by omega)
        intro h0
        rw [h0] at hl
        simp at hl
    · simp only [hlt, if_false]

/-- The fuel `inIters - 1` that `parseCommit` gives to the loop is enough: any larger amount
gives the same object. -/
theorem parseCommit_fuel_enough (m : MathOps K) (st : LSystem K) (inAngle inJitter : K)
    (inIters : Nat) (inText : List Char) (inRules : Rules K) (extra : Nat) :
    iterateLoop m inIters (inIters - 1 + extra)
        (addVerts { st with angle := inAngle, jitter := inJitter, strings := [inText],
                            rules := inRules, iterData := [],
                            rng := (createGeometry m inAngle inJitter inText st.rng).2 }
          (createGeometry m inAngle inJitter inText st.rng).1)
      = parseCommit m st inAngle inJitter inIters inText inRules := by
  induction extra with
  | zero => rfl
  | succ extra ih =>
    rw [← ih, ← Nat.add_assoc]
    exact iterateLoop_fuel_enough m inIters _ _ (by simp [addVerts]) (by simp [addVerts])

/-! ## Lemmas on the text helpers -/

theorem find_take (s : List Char) (c : Char) :
    (match find s c with
      | some i => s.take i
      | none => s) = s.takeWhile (fun x => x != c) := by
  induction s with
  | nil => rfl
  | cons x xs ih =>
    by_cases h : x = c
    · simp [find, h]
    · have hne : (x != c) = true := by simpa using h
      simp only [find, h, if_false, List.takeWhile_cons, hne, if_true]
      cases hf : find xs c with
      | none => rw [hf] at ih; simpa using ih
      | some i => rw [hf] at ih; simpa using ih

theorem find_eq_none_iff (s : List Char) (c : Char) : find s c = none ↔ c ∉ s := by
  induction s with
  | nil => simp [find]
  | cons x xs ih =>
    by_cases h : x = c
    · simp [find, h]
    · have h2 : ¬ c = x := fun e => h e.symm
      simp [find, h, h2, ih]

theorem find_some_lt (s : List Char) (c : Char) (i : Nat) (h : find s c = some i) :
    i < s.length ∧ c ∉ s.take i ∧ s.drop i = c :: s.drop (i + 1) := by
  induction s generalizing i with
  | nil => simp [find] at h
  | cons x xs ih =>
    by_cases hx : x = c
    · simp only [find, hx, if_true, Option.some.injEq] at h
      subst h
      simp [hx]
    · simp only [find, hx, if_false, Option.map_eq_some'] at h
      obtain ⟨j, hj, rfl⟩ := h
      obtain ⟨h1, h2, h3⟩ := ih j hj
      have hx2 : ¬ c = x := fun e => hx e.symm
      refine ⟨by simpa using h1, ?_, ?_⟩
      · simp [List.take_succ_cons, hx2, h2]
      · simpa using h3

theorem cutComment_eq (l : List Char) : cutComment l = l.takeWhile (fun c => c != '#') := by
  have h := find_take l '#'
  unfold cutComment substr
  cases hf : find l '#' with
  | none => rw [hf] at h; simpa using h
  | some i => rw [hf] at h; simpa using h

theorem findFirstNotOf_spec (l : List Char) :
    match findFirstNotOf l whitespace with
    | none => l.dropWhile isWhitespace = []
    | some i => l.dropWhile isWhitespace = l.drop i ∧ l.drop i ≠ [] ∧
        (∀ c ∈ l.take i, isWhitespace c = true) ∧
        ∀ c, (l.drop i).head? = some c → isWhitespace c = false := by
  induction l with
  | nil => simp [findFirstNotOf]
  | cons x xs ih =>
    by_cases hx : isWhitespace x = true
    · have hx2 : whitespace.contains x = true := hx
      simp only [findFirstNotOf, hx2, if_true]
      cases hf : findFirstNotOf xs whitespace with
      | none => rw [hf] at ih; simpa [hx] using ih
      | some i =>
        rw [hf] at ih
        obtain ⟨h1, h2, h3, h4⟩ := ih
        simp only [Option.map_some', List.drop_succ_cons, List.take_succ_cons]
        refine ⟨by simpa [hx] using h1, h2, ?_, h4⟩
        intro c hc
        simp only [List.mem_cons] at hc
        rcases hc with rfl | hc
        · exact hx
        · exact h3 c hc
    · have hx2 : ¬ whitespace.contains x = true := hx
      have hx3 : isWhitespace x = false := by simpa using hx
      simp only [findFirstNotOf, hx2, if_false]
      simp [hx3]

theorem rdropWhile_cons (p : Char → Bool) (x : Char) (xs : List Char) :
    (x :: xs).rdropWhile p
      = if xs.rdropWhile p = [] then (if p x then [] else [x]) else x :: xs.rdropWhile p := by
  induction xs using List.reverseRecOn with
  | nil => simp [List.rdropWhile_singleton]
  | append_singleton ys y ih =>
    rw [← List.cons_append]
    by_cases hy : p y = true
    · rw [List.rdropWhile_concat_pos _ _ _ hy, List.rdropWhile_concat_pos _ _ _ hy]
      exact ih
    · rw [List.rdropWhile_concat_neg _ _ _ hy, List.rdropWhile_concat_neg _ _ _ hy]
      simp

theorem findLastNotOf_spec (l : List Char) :
    match findLastNotOf l whitespace with
    | none => l.rdropWhile isWhitespace = []
    | some j => l.rdropWhile isWhitespace = l.take (j + 1) ∧ j < l.length := by
  induction l with
  | nil => simp [findLastNotOf]
  | cons x xs ih =>
    rw [rdropWhile_cons]
    cases hf : findLastNotOf xs whitespace with
    | some j =>
      rw [hf] at ih
      obtain ⟨h1, h2⟩ := ih
      have hne : xs.rdropWhile isWhitespace ≠ [] := by
        rw [h1]
        cases xs with
        | nil => simp at h2
        | cons y ys => simp
      rw [if_neg hne, h1]
      simp only [findLastNotOf, hf, List.take_succ_cons, List.length_cons]
      exact ⟨trivial, by omega⟩
    | none =>
      rw [hf] at ih
      simp only at ih
      by_cases hx : isWhitespace x = true
      · have hx2 : whitespace.contains x = true := hx
        simp only [findLastNotOf, hf, hx2, if_true, ih, hx]
      · have hx2 : ¬ whitespace.contains x = true := hx
        simp only [findLastNotOf, hf, hx2, if_false, ih, hx, if_true]
        simp

theorem findLastNotOf_drop (l : List Char) :
    ∀ i : Nat, (∀ c ∈ l.take i, isWhitespace c = true) →
      findLastNotOf l whitespace
        = (findLastNotOf (l.drop i) whitespace).map (fun j => j + i) := by
  induction l with
  | nil => intro i _; simp [findLastNotOf]
  | cons x xs ih =>
    intro i h
    cases i with
    | zero => simp
    | succ i =>
      have hx : whitespace.contains x = true := h x (by simp)
      have hxs : ∀ c ∈ xs.take i, isWhitespace c = true := by
        intro c hc
        exact h c (by simp [hc])
      simp only [findLastNotOf, List.drop_succ_cons, ih i hxs, hx, if_true]
      cases findLastNotOf (xs.drop i) whitespace <;> simp [Nat.add_assoc]

theorem trim_eq (l : List Char) : trim l = stripWhitespace l := by
  have h1 := findFirstNotOf_spec l
  unfold trim stripWhitespace
  cases hf : findFirstNotOf l whitespace with
  | none =>
    rw [hf] at h1
    simp only at h1
    simp [h1]
  | some i =>
    rw [hf] at h1
    obtain ⟨hd, hne, hpre, hhead⟩ := h1
    have h2 := findLastNotOf_spec (l.drop i)
    rw [findLastNotOf_drop l i hpre, hd]
    cases hl : findLastNotOf (l.drop i) whitespace with
    | none =>
      rw [hl] at h2
      simp only at h2
      rw [List.rdropWhile_eq_nil_iff] at h2
      cases hdrop : l.drop i with
      | nil => exact absurd hdrop hne
      | cons y ys =>
        have := hhead y (by simp [hdrop])
        have h3 := h2 y (by simp [hdrop])
        simp [this] at h3
    | some j =>
      rw [hl] at h2
      simp only [Option.map_some', substr, Nat.add_sub_cancel]
      rw [h2.1]

theorem mem_stripWhitespace (l : List Char) (c : Char) (h : c ∈ stripWhitespace l) : c ∈ l := by
  unfold stripWhitespace at h
  have h1 := (List.rdropWhile_prefix isWhitespace (l := l.dropWhile isWhitespace)).subset h
  exact (List.dropWhile_suffix isWhitespace).subset h1

theorem not_mem_splitLines (text : List Char) : ∀ l ∈ splitLines text, '\n' ∉ l := by
  induction text with
  | nil => simp [splitLines]
  | cons c cs ih =>
    intro l hl
    by_cases hc : c = '\n'
    · simp only [splitLines, hc, if_true, List.mem_cons] at hl
      rcases hl with rfl | hl
      · simp
      · exact ih l hl
    · simp only [splitLines, hc, if_false] at hl
      cases hs : splitLines cs with
      | nil => rw [hs] at hl; simp at hl; subst hl; simpa using fun e => hc e.symm
      | cons l0 ls =>
        rw [hs] at hl ih
        simp only [List.mem_cons] at hl
        rcases hl with rfl | hl
        · have := ih l0 (by simp)
          simp only [List.mem_cons, not_or]
          exact ⟨fun e => hc e.symm, this⟩
        · exact ih l (by simp [hl])

theorem clean_cleanLine (l : List Char) (hn : '\n' ∉ l) (hne : cleanLine l ≠ []) :
    Clean (cleanLine l) := by
  refine ⟨hne, ?_, ?_, ?_, ?_⟩
  · intro h
    have h1 := mem_stripWhitespace _ _ h
    have h2 := List.mem_takeWhile_imp h1
    simp at h2
  · intro h
    have h1 := mem_stripWhitespace _ _ h
    exact hn ((List.takeWhile_prefix _).subset h1)
  · intro c hc
    unfold cleanLine stripWhitespace at hc hne
    obtain ⟨t, ht⟩ := List.rdropWhile_prefix isWhitespace
      (l := (l.takeWhile (fun c => c != '#')).dropWhile isWhitespace)
    cases hr : List.rdropWhile isWhitespace
        ((l.takeWhile (fun c => c != '#')).dropWhile isWhitespace) with
    | nil => exact absurd hr hne
    | cons y ys =>
      rw [hr] at hc ht
      simp only [List.head?_cons, Option.some.injEq] at hc
      subst hc
      have hh : ((l.takeWhile (fun c => c != '#')).dropWhile isWhitespace).head? = some y := by
        rw [← ht]; rfl
      have := List.head?_dropWhile_not isWhitespace (l.takeWhile (fun c => c != '#'))
      rw [hh] at this
      simpa using this
  · intro c hc
    unfold cleanLine stripWhitespace at hc hne
    have := List.rdropWhile_last_not isWhitespace _ hne
    rw [List.getLast?_eq_getLast _ hne] at hc
    simp only [Option.some.injEq] at hc
    rw [hc] at this
    simpa using this

theorem clean_of_mem_cleanLines (text : List Char) (l : List Char) (h : l ∈ cleanLines text) :
    Clean l := by
  simp only [cleanLines, List.mem_filter, List.mem_map] at h
  obtain ⟨⟨r, hr, rfl⟩, hne⟩ := h
  exact clean_cleanLine r (not_mem_splitLines text r hr) (by simpa using hne)

theorem stripWhitespace_of_clean (l : List Char) (h : Clean l) : stripWhitespace l = l := by
  obtain ⟨hne, _, _, hh, hl⟩ := h
  unfold stripWhitespace
  have h1 : l.dropWhile isWhitespace = l := by
    cases l with
    | nil => rfl
    | cons x xs =>
      have := hh x rfl
      simp [List.dropWhile_cons, this]
  rw [h1, List.rdropWhile_eq_self_iff]
  intro hl2
  have := hl _ (List.getLast?_eq_getLast _ hl2)
  simp [this]

theorem cleanLine_of_clean (l : List Char) (h : Clean l) : cleanLine l = l := by
  have h1 : l.takeWhile (fun c => c != '#') = l := by
    rw [List.takeWhile_eq_self_iff]
    intro x hx
    have : x ≠ '#' := fun e => h.2.1 (e ▸ hx)
    simpa using this
  rw [cleanLine, h1, stripWhitespace_of_clean l h]

theorem trim_cutComment (l : List Char) : trim (cutComment l) = cleanLine l := by
  rw [trim_eq, cutComment_eq, cleanLine]

/-! ## Lemmas on streams and `preprocessStream` -/

theorem lineBreak_spec (rest : List Char) :
    match lineBreak rest with
    | (l, some r) => rest = l ++ '\n' :: r ∧ '\n' ∉ l ∧ splitLines rest = l :: splitLines r
    | (l, none) => rest = l ∧ '\n' ∉ l ∧ splitLines rest = [l] := by
  induction rest with
  | nil => simp [lineBreak, splitLines]
  | cons c cs ih =>
    by_cases hc : c = '\n'
    · simp [lineBreak, splitLines, hc]
    · have hc2 : ¬ '\n' = c := fun e => hc e.symm
      simp only [lineBreak, hc, if_false, splitLines]
      rcases hb : lineBreak cs with ⟨l, _ | r⟩
      · rw [hb] at ih
        obtain ⟨h1, h2, h3⟩ := ih
        subst h1
        simp [h3, hc2, h2]
      · rw [hb] at ih
        obtain ⟨h1, h2, h3⟩ := ih
        simp only [h3]
        refine ⟨by rw [h1]; simp, by simp [hc2, h2], trivial⟩

theorem lineBreak_append (l r : List Char) (h : '\n' ∉ l) :
    lineBreak (l ++ '\n' :: r) = (l, some r) := by
  induction l with
  | nil => simp [lineBreak]
  | cons c cs ih =>
    simp only [List.mem_cons, not_or] at h
    have hc : ¬ c = '\n' := fun e => h.1 e.symm
    simp [lineBreak, hc, ih h.2]

theorem cleanLines_of_lineBreak_some (rest l r : List Char) (h : lineBreak rest = (l, some r)) :
    cleanLines rest = (if cleanLine l = [] then [] else [cleanLine l]) ++ cleanLines r := by
  have := lineBreak_spec rest
  rw [h] at this
  obtain ⟨_, _, h3⟩ := this
  unfold cleanLines
  rw [h3]
  by_cases hc : cleanLine l = []
  · simp [hc, List.filter_cons]
  · have : (cleanLine l).isEmpty = false := by
      cases hcl : cleanLine l with
      | nil => exact absurd hcl hc
      | cons _ _ => rfl
    simp [hc, List.filter_cons, this]

theorem cleanLines_of_lineBreak_none (rest l : List Char) (h : lineBreak rest = (l, none)) :
    cleanLines rest = (if cleanLine l = [] then [] else [cleanLine l]) := by
  have := lineBreak_spec rest
  rw [h] at this
  obtain ⟨_, _, h3⟩ := this
  unfold cleanLines
  rw [h3]
  by_cases hc : cleanLine l = []
  · simp [hc, List.filter_cons]
  · have : (cleanLine l).isEmpty = false := by
      cases hcl : cleanLine l with
      | nil => exact absurd hcl hc
      | cons _ _ => rfl
    simp [hc, List.filter_cons, this]

theorem lineBreak_length (rest l r : List Char) (h : lineBreak rest = (l, some r)) :
    r.length < rest.length := by
  have := lineBreak_spec rest
  rw [h] at this
  rw [this.1]
  simp
  omega

/-- What `getNextLine` does at the end of a stream with `exceptions` set: it throws, and
`eof()` holds. -/
theorem getNextLineLoop_at_eof (fuel : Nat) :
    getNextLineLoop (fuel + 1) ⟨[], true, false, true⟩
      = (.throws "basic_ios::clear", ⟨[], true, true, true⟩) := by
  simp [getNextLineLoop, getline]

/-- The next content line of a good stream with `exceptions` set: either there is none and
`getNextLine` throws at the end of the stream, or it is returned and the stream is left at the
start of the following line, or at its end. -/
theorem getNextLineLoop_throwing (n : Nat) :
    ∀ (r : List Char) (fuel : Nat), r.length ≤ n → r.length < fuel →
      (cleanLines r = [] ∧
        ∃ s, getNextLineLoop fuel ⟨r, false, false, true⟩ = (.throws "basic_ios::clear", s) ∧
          s.eof = true) ∨
      (∃ c cs, cleanLines r = c :: cs ∧
        ((∃ r1, getNextLineLoop fuel ⟨r, false, false, true⟩ = (.ok c, ⟨r1, false, false, true⟩) ∧
            cleanLines r1 = cs ∧ r1.length < r.length) ∨
         (getNextLineLoop fuel ⟨r, false, false, true⟩ = (.ok c, ⟨[], true, false, true⟩) ∧
            cs = []))) := by
  induction n with
  | zero =>
    intro r fuel hr hf
    have hr0 : r = [] := List.length_eq_zero.1 (Nat.le_zero.1 hr)
    subst hr0
    cases fuel with
    | zero => simp at hf
    | succ fuel =>
      left
      refine ⟨by decide, ⟨[], true, true, true⟩, by simp [getNextLineLoop, getline], rfl⟩
  | succ n ih =>
    intro r fuel hr hf
    cases fuel with
    | zero => simp at hf
    | succ fuel =>
      cases r with
      | nil =>
        left
        refine ⟨by decide, ⟨[], true, true, true⟩, by simp [getNextLineLoop, getline], rfl⟩
      | cons x xs =>
        rcases hb : lineBreak (x :: xs) with ⟨l, _ | r1⟩
        · have hcl := cleanLines_of_lineBreak_none _ _ hb
          have hg : getline ⟨x :: xs, false, false, true⟩ []
              = (l, ⟨[], true, false, true⟩) := by
            simp [getline, hb]
          by_cases hc : cleanLine l = []
          · left
            rw [hcl]
            refine ⟨by simp [hc], ⟨[], true, true, true⟩, ?_, rfl⟩
            rw [getNextLineLoop]
            simp only [hg, trim_cutComment, hc]
            cases fuel with
            | zero => simp at hf
            | succ fuel => simp [getNextLineLoop_at_eof]
          · right
            refine ⟨cleanLine l, [], by rw [hcl]; simp [hc], Or.inr ⟨?_, rfl⟩⟩
            rw [getNextLineLoop]
            simp [hg, trim_cutComment, hc]
        · have hcl := cleanLines_of_lineBreak_some _ _ _ hb
          have hlen := lineBreak_length _ _ _ hb
          have hg : getline ⟨x :: xs, false, false, true⟩ []
              = (l, ⟨r1, false, false, true⟩) := by
            simp [getline, hb]
          have hstep : getNextLineLoop (fuel + 1) ⟨x :: xs, false, false, true⟩
              = if cleanLine l = [] then getNextLineLoop fuel ⟨r1, false, false, true⟩
                else (.ok (cleanLine l), ⟨r1, false, false, true⟩) := by
            rw [getNextLineLoop]
            simp [hg, trim_cutComment]
          simp only [List.length_cons] at hr hf hlen
          by_cases hc : cleanLine l = []
          · rw [hstep, hcl]
            simp only [hc, if_true, List.nil_append]
            rcases ih r1 fuel (by omega) (by omega) with h | ⟨c, cs, h1, h2⟩
            · exact Or.inl h
            · right
              refine ⟨c, cs, h1, ?_⟩
              rcases h2 with ⟨r2, h3, h4, h5⟩ | h2
              · exact Or.inl ⟨r2, h3, h4, by simp only [List.length_cons]; omega⟩
              · exact Or.inr h2
          · right
            refine ⟨cleanLine l, cleanLines r1, by rw [hcl]; simp [hc], Or.inl ⟨r1, ?_, rfl, ?_⟩⟩
            · rw [hstep]; simp [hc]
            · simp only [List.length_cons]; omega

theorem preprocessLoop_throwing (n : Nat) :
    ∀ (r : List Char) (fuel : Nat) (ss : List Char), r.length ≤ n → r.length < fuel →
      preprocessLoop fuel ⟨r, false, false, true⟩ ss = .ok (ss ++ unlines (cleanLines r)) := by
  induction n using Nat.strong_induction_on with
  | _ n ih =>
    intro r fuel ss hr hf
    cases fuel with
    | zero => simp at hf
    | succ fuel =>
      rw [preprocessLoop]
      rcases getNextLineLoop_throwing r.length r (r.length + 1) (le_refl _) (by omega)
        with ⟨h1, s, h2, h3⟩ | ⟨c, cs, h1, ⟨r1, h2, h3, h4⟩ | ⟨h2, h3⟩⟩
      · simp only [getNextLine]
        rw [h2]
        simp [h3, h1, unlines]
      · simp only [getNextLine]
        rw [h2]
        simp only
        rw [ih r1.length (by omega) r1 fuel _ (le_refl _) (by omega), h1, h3]
        simp [unlines]
      · simp only [getNextLine]
        rw [h2]
        simp only
        have hpos : 0 < r.length := by
          cases r with
          | nil => simp [cleanLines, splitLines, cleanLine, stripWhitespace] at h1
          | cons _ _ => simp
        cases fuel with
        | zero => omega
        | succ fuel =>
          rw [preprocessLoop]
          simp only [getNextLine, List.length_nil, Nat.zero_add, getNextLineLoop_at_eof]
          simp [IStream.eof, h1, h3, unlines]

/-- The helper `preprocessStream` on a text: it returns, and its output is the content lines
of the text, each followed by a newline. -/
theorem preprocessStream_ofString (text : List Char) :
    preprocessStream (IStream.ofString text) = .ok (unlines (cleanLines text)) := by
  simp only [preprocessStream, IStream.ofString]
  have := preprocessLoop_throwing text.length text (text.length + 1) [] (le_refl _) (by omega)
  simpa using this

theorem splitLines_ne_nil (text : List Char) : splitLines text ≠ [] := by
  cases text with
  | nil => simp [splitLines]
  | cons c cs =>
    by_cases hc : c = '\n'
    · simp [splitLines, hc]
    · simp only [splitLines, hc, if_false]
      cases splitLines cs <;> simp

theorem intercalate_splitLines (text : List Char) :
    ['\n'].intercalate (splitLines text) = text := by
  induction text with
  | nil => rfl
  | cons c cs ih =>
    by_cases hc : c = '\n'
    · simp only [splitLines, hc, if_true]
      cases hs : splitLines cs with
      | nil => exact absurd hs (splitLines_ne_nil cs)
      | cons l ls =>
        rw [hs] at ih
        simp only [List.intercalate, List.intersperse_cons_cons, List.flatten_cons,
          List.nil_append] at ih ⊢
        rw [ih]
        rfl
    · simp only [splitLines, hc, if_false]
      cases hs : splitLines cs with
      | nil => exact absurd hs (splitLines_ne_nil cs)
      | cons l ls =>
        rw [hs] at ih
        cases ls with
        | nil => simp [List.intercalate] at ih ⊢; exact ih
        | cons l2 ls2 =>
          simp only [List.intercalate, List.intersperse_cons_cons, List.flatten_cons,
            List.cons_append] at ih ⊢
          rw [ih]

/-- **C19.** For every input text `preprocessStream` returns, and its output is, in input order
and each followed by a newline, exactly the lines obtained by cutting each input line at its
first `#`, trimming leading and trailing whitespace (space, tab, CR, LF) and discarding the
lines that become empty; no output line is empty, contains `#` or a newline, or starts or ends
with whitespace. The input lines are the pieces of the text between newlines. -/
theorem preprocessStream_content_lines (text : List Char) :
    preprocessStream (IStream.ofString text) = .ok (unlines (cleanLines text)) ∧
    cleanLines text
      = ((splitLines text).map
          (fun l => ((l.takeWhile (fun c => c != '#')).dropWhile isWhitespace).rdropWhile
            isWhitespace)).filter (fun l => !l.isEmpty) ∧
    ['\n'].intercalate (splitLines text) = text ∧
    (∀ l ∈ splitLines text, '\n' ∉ l) ∧
    (∀ l ∈ cleanLines text, l ≠ [] ∧ '#' ∉ l ∧ '\n' ∉ l ∧
      (∀ c, l.head? = some c → isWhitespace c = false) ∧
      (∀ c, l.getLast? = some c → isWhitespace c = false)) :=
  ⟨preprocessStream_ofString text, rfl, intercalate_splitLines text, not_mem_splitLines text,
    fun l hl => clean_of_mem_cleanLines text l hl⟩

/-! ## Lemmas on the first half of `parse` -/

theorem getline_line (l r line : List Char) (t : Bool) (h : '\n' ∉ l) :
    getline ⟨l ++ '\n' :: r, false, false, t⟩ line = (l, ⟨r, false, false, t⟩) := by
  have hb := lineBreak_append l r h
  cases hl : l ++ '\n' :: r with
  | nil => simp at hl
  | cons c cs =>
    rw [hl] at hb
    simp [getline, hb]

/-- On a stream that starts with a content line, `getNextLine` returns that line. -/
theorem getNextLineLoop_clean (l r : List Char) (t : Bool) (fuel : Nat) (h : Clean l) :
    getNextLineLoop (fuel + 1) ⟨l ++ '\n' :: r, false, false, t⟩
      = (.ok l, ⟨r, false, false, t⟩) := by
  rw [getNextLineLoop]
  simp only [getline_line l r [] t h.2.2.1, trim_cutComment, cleanLine_of_clean l h]
  simp [h.1]

theorem getNextLine_clean (l r : List Char) (t : Bool) (h : Clean l) :
    getNextLine ⟨l ++ '\n' :: r, false, false, t⟩ = (.ok l, ⟨r, false, false, t⟩) :=
  getNextLineLoop_clean l r t _ h

theorem unlines_cons (l : List Char) (ls : List (List Char)) :
    unlines (l :: ls) = l ++ '\n' :: unlines ls := by
  simp [unlines]

theorem length_le_unlines (ls : List (List Char)) : ls.length ≤ (unlines ls).length := by
  induction ls with
  | nil => simp
  | cons l ls ih =>
    rw [unlines_cons]
    simp
    omega

/-- The rule loop on a stream of content lines (without `exceptions`): the rules are read line by
line, and the exception of the first rejected line leaves `parse`. -/
theorem rulesLoop_lines (stof : List Char → Option K) (ls : List (List Char)) :
    (∀ l ∈ ls, Clean l) → ∀ (fuel : Nat) (line : List Char) (acc : Rules K), ls.length < fuel →
      rulesLoop stof fuel ⟨unlines ls, false, false, false⟩ line acc
        = (match readRules stof ls with
            | .ok rules => .ok (acc ++ rules)
            | .error what => .throws what) := by
  induction ls with
  | nil =>
    intro _ fuel line acc hf
    cases fuel with
    | zero => simp at hf
    | succ fuel => simp [rulesLoop, getline, unlines, readRules]
  | cons l ls ih =>
    intro hcl fuel line acc hf
    have hl : Clean l := hcl l (List.mem_cons_self _ _)
    have hls : ∀ x ∈ ls, Clean x := fun x hx => hcl x (List.mem_cons_of_mem _ hx)
    cases fuel with
    | zero => simp at hf
    | succ fuel =>
      rw [rulesLoop, unlines_cons]
      simp only [getline_line l _ line false hl.2.2.1, readRules]
      cases hp : parseRule stof l with
      | error what => simp [hl.1, IStream.eof]
      | ok rule =>
        simp only [hl.1, if_false]
        rw [ih hls fuel l (acc ++ [rule]) (by simpa using hf)]
        cases readRules stof ls <;> simp

/-- The first half of `parse` on a stream of at least three content lines: the conversions are
made in the order iteration count, rule lines, angle line; the first exception ends `parse`. -/
theorem parseFields_lines (stof : List Char → Option K) (a i x : List Char)
    (rs : List (List Char)) (h : ∀ l ∈ a :: i :: x :: rs, Clean l) :
    parseFields stof (IStream.ofString (unlines (a :: i :: x :: rs)))
      = (match stoi i with
          | .error what => .throws what
          | .ok n =>
            match readRules stof rs with
            | .error what => .throws what
            | .ok rules =>
              match parseAngle stof a with
              | .error what => .throws what
              | .ok p => .ok ⟨p.1, p.2, toUnsigned n, x, rules⟩) := by
  have ha : Clean a := h a (by simp)
  have hi : Clean i := h i (by simp)
  have hx : Clean x := h x (by simp)
  have hrs : ∀ l ∈ rs, Clean l := fun l hl => h l (by simp [hl])
  simp only [parseFields, IStream.ofString, unlines_cons, getNextLine_clean _ _ _ ha,
    getNextLine_clean _ _ _ hi, getNextLine_clean _ _ _ hx]
  cases stoi i with
  | error what => rfl
  | ok n =>
    simp only
    rw [rulesLoop_lines stof rs hrs _ x [] (Nat.lt_succ_of_le (length_le_unlines rs))]
    cases readRules stof rs with
    | error what => rfl
    | ok rules =>
      simp only [List.nil_append]

/-- The method `parseString` on a description with at least three content lines. -/
theorem parseString_lines (m : MathOps K) (stof : List Char → Option K) (st : LSystem K)
    (text a i x : List Char) (rs : List (List Char)) (h : cleanLines text = a :: i :: x :: rs) :
    parseString m stof st text
      = (match stoi i with
          | .error what => (.throws what, st)
          | .ok n =>
            match readRules stof rs with
            | .error what => (.throws what, st)
            | .ok rules =>
              match parseAngle stof a with
              | .error what => (.throws what, st)
              | .ok p => (.ok (), parseCommit m st p.1 p.2 (toUnsigned n) x rules)) := by
  have hc : ∀ l ∈ a :: i :: x :: rs, Clean l := by
    intro l hl
    rw [← h] at hl
    exact clean_of_mem_cleanLines text l hl
  simp only [parseString, preprocessStream_ofString, h, parse, parseFields_lines stof a i x rs hc]
  cases stoi i with
  | error what => rfl
  | ok n =>
    simp only
    cases readRules stof rs with
    | error what => rfl
    | ok rules =>
      simp only
      cases parseAngle stof a <;> rfl

theorem parseRule_no_colon (stof : List Char → Option K) (l : List Char) (h : ':' ∉ l) :
    parseRule stof l = .error "missing ':'" := by
  simp [parseRule, (find_eq_none_iff l ':').2 h]

theorem readRules_error_of_mem (stof : List Char → Option K) (rs : List (List Char)) :
    (∃ l ∈ rs, ∃ what, parseRule stof l = .error what) →
      ∃ what, readRules stof rs = .error what := by
  induction rs with
  | nil => rintro ⟨l, hl, _⟩; simp at hl
  | cons r rs ih =>
    rintro ⟨l, hl, what, hw⟩
    simp only [readRules]
    cases hp : parseRule stof r with
    | error e => exact ⟨e, rfl⟩
    | ok rule =>
      simp only [List.mem_cons] at hl
      rcases hl with rfl | hl
      · rw [hw] at hp; cases hp
      · obtain ⟨e, he⟩ := ih ⟨l, hl, what, hw⟩
        exact ⟨e, by simp [he]⟩

/-- Through `parseString` (and `parseFile`, which differs only in where the text comes from),
where every content line ends with a newline: for every description whose content lines after
the third (the first string) include a line without `:`, the call ends with an exception and
leaves the object as it was. -/
theorem missing_colon_rejected (m : MathOps K) (stof : List Char → Option K) (st : LSystem K)
    (text a i x : List Char) (rs : List (List Char)) (h : cleanLines text = a :: i :: x :: rs)
    (hbad : ∃ l ∈ rs, ':' ∉ l) :
    ∃ what, parseString m stof st text = (.throws what, st) := by
  rw [parseString_lines m stof st text a i x rs h]
  cases stoi i with
  | error what => exact ⟨what, rfl⟩
  | ok n =>
    obtain ⟨l, hl, hc⟩ := hbad
    obtain ⟨what, hw⟩ := readRules_error_of_mem stof rs
      ⟨l, hl, "missing ':'", parseRule_no_colon stof l hc⟩
    exact ⟨what, by simp [hw]⟩

/-- The rule line `F FF` after the first string, through `parseString`. -/
theorem missing_colon_rejected_witness :
    cleanLines "90\n1\nF\nF : FF\nF FF\n".toList
      = ["90".toList, "1".toList, "F".toList, "F : FF".toList, "F FF".toList] ∧
    ∃ what, parseString sampleOps stofDecimal (LSystem.create 0 halfRng)
      "90\n1\nF\nF : FF\nF FF\n".toList = (.throws what, LSystem.create 0 halfRng) :=
  ⟨by decide, missing_colon_rejected sampleOps stofDecimal (LSystem.create 0 halfRng)
    "90\n1\nF\nF : FF\nF FF\n".toList "90".toList "1".toList "F".toList
    ["F : FF".toList, "F FF".toList] (by decide) ⟨"F FF".toList, by decide, by decide⟩⟩

/-- **C18.** Whenever `parse` (or `parseString`) ends with an exception, the object is exactly
as before the call: angle, jitter, rules, strings and records are untouched. The exceptions all
come from the first half of `parse`, which works on local variables; once the fields are read,
the second half commits them and `parse` returns normally. -/
theorem parse_exception_keeps_object (m : MathOps K) (stof : List Char → Option K)
    (st : LSystem K) :
    (∀ (istr : IStream) (what : String), (parse m stof st istr).1 = .throws what →
      (parse m stof st istr).2 = st ∧ parseFields stof istr = .throws what) ∧
    (∀ (text : List Char) (what : String), (parseString m stof st text).1 = .throws what →
      (parseString m stof st text).2 = st) ∧
    (∀ (istr : IStream) (f : Fields K), parseFields stof istr = .ok f →
      parse m stof st istr
        = (.ok (), parseCommit m st f.inAngle f.inJitter f.inIters f.inText f.inRules)) := by
  refine ⟨?_, ?_, ?_⟩
  · intro istr what h
    unfold parse at h ⊢
    cases hf : parseFields stof istr with
    | ok f => rw [hf] at h; simp at h
    | throws w => rw [hf] at h; simp at h; simp [h]
    | diverges => rw [hf] at h; simp at h
  · intro text what h
    unfold parseString at h ⊢
    cases hp : preprocessStream (IStream.ofString text) with
    | ok ss =>
      rw [hp] at h
      simp only at h ⊢
      unfold parse at h ⊢
      cases hf : parseFields stof (IStream.ofString ss) with
      | ok f => rw [hf] at h; simp at h
      | throws w => rfl
      | diverges => rfl
    | throws w => rfl
    | diverges => rfl
  · intro istr f hf
    simp [parse, hf]

/-- Witness for C18: a description whose iteration line is not a number, parsed into an object
that already holds a system; the object keeps its strings. -/
theorem parse_exception_keeps_object_witness :
    (parseString sampleOps stofDecimal
        (parseCommit sampleOps (LSystem.create 0 halfRng) 90 0 1 ['F'] []) "90\nabc\nF\n".toList).1
      = .throws "stoi: invalid_argument" ∧
    (parseString sampleOps stofDecimal
        (parseCommit sampleOps (LSystem.create 0 halfRng) 90 0 1 ['F'] []) "90\nabc\nF\n".toList).2
      = parseCommit sampleOps (LSystem.create 0 halfRng) 90 0 1 ['F'] [] := by
  have h : (parseString sampleOps stofDecimal
        (parseCommit sampleOps (LSystem.create 0 halfRng) 90 0 1 ['F'] [])
        "90\nabc\nF\n".toList).1 = .throws "stoi: invalid_argument" := by
    rw [parseString_lines sampleOps stofDecimal _ "90\nabc\nF\n".toList "90".toList "abc".toList
      "F".toList [] (by decide)]
    rfl
  exact ⟨h, (parse_exception_keeps_object sampleOps stofDecimal _).2.1 _ _ h⟩

theorem parseAngle_eq (stof : List Char → Option K) (a : List Char) :
    parseAngle stof a
      = (match stof (angleField a) with
          | none => .error "stof"
          | some inAngle =>
            match jitterField a with
            | none => .ok (inAngle, 0)
            | some j =>
              match stof j with
              | none => .error "stof"
              | some inJitter => .ok (inAngle, inJitter)) := by
  unfold parseAngle angleField jitterField
  cases find a '<' with
  | none => simp only
  | some pos => simp only

theorem stoi_digits (ds tail : List Char) (hne : ds ≠ [])
    (hd : ∀ c ∈ ds, c.isDigit = true) (ht : ∀ c, tail.head? = some c → c.isDigit = false)
    (hv : digitsValue ds < 2 ^ 31) : stoi (ds ++ tail) = .ok (digitsValue ds) := by
  have hsp : ∀ c, c.isDigit = true → isSpace c = false := by
    intro c hc
    cases hs : isSpace c with
    | false => rfl
    | true =>
      simp only [isSpace, Bool.decide_or, Bool.or_eq_true, decide_eq_true_eq] at hs
      rcases hs with rfl | rfl | rfl | rfl | rfl | rfl <;> simp [Char.isDigit] at hc
  cases ds with
  | nil => exact absurd rfl hne
  | cons d ds1 =>
    have hd0 : d.isDigit = true := hd d (by simp)
    have hsign : d ≠ '-' ∧ d ≠ '+' := by
      constructor <;> (rintro rfl; simp [Char.isDigit] at hd0)
    have h1 : (d :: ds1 ++ tail).dropWhile isSpace = d :: ds1 ++ tail := by
      simp [List.dropWhile_cons, hsp d hd0]
    have h2 : (d :: ds1 ++ tail).takeWhile Char.isDigit = d :: ds1 := by
      rw [List.takeWhile_append_of_pos hd]
      cases tail with
      | nil => simp
      | cons t ts =>
        have := ht t rfl
        simp [List.takeWhile_cons, this]
    unfold stoi
    simp only [h1]
    have hm : (match d :: ds1 ++ tail with
        | '-' :: r => r
        | '+' :: r => r
        | _ => d :: ds1 ++ tail) = d :: ds1 ++ tail := by
      simp only [List.cons_append]
      split
      · rename_i heq; simp at heq; exact absurd heq.1 hsign.1
      · rename_i heq; simp at heq; exact absurd heq.1 hsign.2
      · rfl
    rw [hm, h2]
    have hneg : ¬ ((d :: ds1 ++ tail).head? = some '-') := by
      simp [hsign.1]
    simp only [hneg, if_false]
    have hv2 : ¬ ((digitsValue (d :: ds1) : Int) < -(2 ^ 31) ∨
        2 ^ 31 - 1 < (digitsValue (d :: ds1) : Int)) := by
      have : (digitsValue (d :: ds1) : Int) < 2 ^ 31 := by exact_mod_cast hv
      omega
    rw [if_neg hv2]
    simp

theorem stoi_no_number (c : Char) (cs : List Char) (h1 : c.isDigit = false)
    (h2 : isSpace c = false) (h3 : c ≠ '+') (h4 : c ≠ '-') :
    stoi (c :: cs) = .error "stoi: invalid_argument" := by
  unfold stoi
  have hd : (c :: cs).dropWhile isSpace = c :: cs := by simp [List.dropWhile_cons, h2]
  simp only [hd]
  have hm : (match c :: cs with
      | '-' :: r => r
      | '+' :: r => r
      | _ => c :: cs) = c :: cs := by
    split
    · rename_i heq; simp at heq; exact absurd heq.1 h4
    · rename_i heq; simp at heq; exact absurd heq.1 h3
    · rfl
  rw [hm]
  simp [List.takeWhile_cons, h1]

/-- Counterexample to C17 as stated: the description with angle line `45deg` and iteration line
`3abc` is accepted; the angle is 45 and three iterations are computed. -/
theorem non_numeric_fields_accepted :
    (parseString sampleOps stofDecimal (LSystem.create 0 halfRng) "45deg\n3abc\nF\n".toList).1
      = .ok () ∧
    (parseString sampleOps stofDecimal (LSystem.create 0 halfRng) "45deg\n3abc\nF\n".toList).2.angle
      = 45 ∧
    getNumIter
      (parseString sampleOps stofDecimal (LSystem.create 0 halfRng) "45deg\n3abc\nF\n".toList).2
      = 3 := by
  have hi : stoi "3abc".toList = .ok 3 := rfl
  have ha : parseAngle stofDecimal "45deg".toList = .ok (45, 0) := by
    have hf : find "45deg".toList '<' = none := by decide
    simp only [parseAngle, hf]
    have hs : stofDecimal "45deg".toList = some 45 := by
      simp [stofDecimal, isSpace, digitsValue, digitVal, floatMax]
      norm_num
    rw [hs]
  rw [parseString_lines sampleOps stofDecimal _ "45deg\n3abc\nF\n".toList "45deg".toList
    "3abc".toList "F".toList [] (by decide)]
  simp only [hi, ha, readRules]
  have h3 : toUnsigned 3 = 3 := by decide
  rw [h3]
  refine ⟨trivial, ?_, ?_⟩ <;>
    simp [iterate, parseCommit, iterateLoop, addVerts, LSystem.create,
      createGeometry, turtleRun, turtleStep, Turtle.initial, applyRules, applyRulesStep,
      equalRange, usedVerts, MAX_BUF, sizeofVec3, getNumIter]

/-- **C17 (amended).** `parse` throws, leaving the object as it was, at the conversion the
library rejects: when `std::stoi` rejects the second content line read (the iteration count),
and when, the first string and the rule lines having been read without error, `std::stof`
rejects the angle field or the jitter field. Through `parseString` (and `parseFile`) this covers
every description with at least three content lines: the call fails with an error if `std::stoi`
rejects the iteration-count line or `std::stof` rejects the angle field or the jitter field.
`std::stoi` rejects a line that does not start with an integer and accepts one that does,
ignoring what follows the digits; the decimal reader takes `45deg` as 45. -/
theorem non_numeric_fields_rejected (m : MathOps K) (stof : List Char → Option K)
    (st : LSystem K) :
    (∀ (istr s1 s2 : IStream) (a i : List Char) (what : String),
      getNextLine istr = (.ok a, s1) → getNextLine s1 = (.ok i, s2) → stoi i = .error what →
      parse m stof st istr = (.throws what, st)) ∧
    (∀ (istr s1 s2 s3 : IStream) (a i x : List Char) (n : Int) (rules : Rules K),
      getNextLine istr = (.ok a, s1) → getNextLine s1 = (.ok i, s2) → stoi i = .ok n →
      getNextLine s2 = (.ok x, s3) → rulesLoop stof (s3.rest.length + 1) s3 x [] = .ok rules →
      (stof (angleField a) = none ∨ ∃ j, jitterField a = some j ∧ stof j = none) →
      parse m stof st istr = (.throws "stof", st)) ∧
    (∀ (text a i x : List Char) (rs : List (List Char)), cleanLines text = a :: i :: x :: rs →
      ((∃ what, stoi i = .error what) ∨ stof (angleField a) = none ∨
        ∃ j, jitterField a = some j ∧ stof j = none) →
      ∃ what, parseString m stof st text = (.throws what, st)) ∧
    (∀ (c : Char) (cs : List Char), c.isDigit = false → isSpace c = false → c ≠ '+' → c ≠ '-' →
      stoi (c :: cs) = .error "stoi: invalid_argument") ∧
    (∀ ds tail : List Char, ds ≠ [] → (∀ c ∈ ds, c.isDigit = true) →
      (∀ c, tail.head? = some c → c.isDigit = false) → digitsValue ds < 2 ^ 31 →
      stoi (ds ++ tail) = .ok (digitsValue ds)) ∧
    stofDecimal "45deg".toList = some 45 := by
  refine ⟨?_, ?_, ?_, stoi_no_number, stoi_digits, ?_⟩
  · intro istr s1 s2 a i what h1 h2 h3
    simp only [parse, parseFields, h1, h2, h3]
  · intro istr s1 s2 s3 a i x n rules h1 h2 h3 h4 h5 hrej
    simp only [parse, parseFields, h1, h2, h3, h4, h5, parseAngle_eq]
    rcases hrej with hs | ⟨j, hj, hs⟩
    · simp only [hs]
    · cases stof (angleField a) with
      | none => rfl
      | some v => simp only [hj, hs]
  · intro text a i x rs h hrej
    have hp := parseString_lines m stof st text a i x rs h
    rcases hrej with ⟨what, hw⟩ | hs | ⟨j, hj, hs⟩
    · rw [hp, hw]
      exact ⟨what, rfl⟩
    · rw [hp, parseAngle_eq, hs]
      cases stoi i with
      | error what => exact ⟨what, rfl⟩
      | ok n =>
        simp only
        cases readRules stof rs with
        | error what => exact ⟨what, rfl⟩
        | ok rules => exact ⟨"stof", rfl⟩
    · rw [hp, parseAngle_eq, hj]
      cases stoi i with
      | error what => exact ⟨what, rfl⟩
      | ok n =>
        simp only
        cases readRules stof rs with
        | error what => exact ⟨what, rfl⟩
        | ok rules =>
          simp only
          cases stof (angleField a) with
          | none => exact ⟨"stof", rfl⟩
          | some v => simp only [hs]; exact ⟨"stof", rfl⟩
  · simp [stofDecimal, isSpace, digitsValue, digitVal, floatMax]
    norm_num

/-- Witness for C17 (amended): the iteration line `x3` does not start with an integer. -/
theorem non_numeric_fields_rejected_witness :
    cleanLines "45\nx3\nF\n".toList = ["45".toList, "x3".toList, "F".toList] ∧
    stoi "x3".toList = .error "stoi: invalid_argument" ∧
    ∃ what, parseString sampleOps stofDecimal (LSystem.create 0 halfRng) "45\nx3\nF\n".toList
      = (.throws what, LSystem.create 0 halfRng) :=
  ⟨by decide, rfl,
    (non_numeric_fields_rejected sampleOps stofDecimal (LSystem.create 0 halfRng)).2.2.1
      "45\nx3\nF\n".toList "45".toList "x3".toList "F".toList [] (by decide)
      (Or.inl ⟨_, rfl⟩)⟩

/-! ## Lemmas on rule lines -/

theorem find_append_not_mem (l r : List Char) (c : Char) (h : c ∉ l) :
    find (l ++ c :: r) c = some l.length := by
  induction l with
  | nil => simp [find]
  | cons x xs ih =>
    simp only [List.mem_cons, not_or] at h
    have hx : ¬ x = c := fun e => h.1 e.symm
    simp [find, hx, ih h.2]

theorem stripWhitespace_space_cons (l : List Char) (hne : l ≠ [])
    (hh : ∀ c, l.head? = some c → isWhitespace c = false)
    (hl : ∀ c, l.getLast? = some c → isWhitespace c = false) :
    stripWhitespace (' ' :: l) = l := by
  unfold stripWhitespace
  have h0 : isWhitespace ' ' = true := by decide
  have h1 : l.dropWhile isWhitespace = l := by
    cases l with
    | nil => rfl
    | cons x xs =>
      have := hh x rfl
      simp [List.dropWhile_cons, this]
  rw [List.dropWhile_cons_of_pos h0, h1, List.rdropWhile_eq_self_iff]
  intro hl2
  have := hl _ (List.getLast?_eq_getLast _ hl2)
  simp [this]

theorem not_space_of_not_whitespace (c : Char) (h : isWhitespace c = false) : c ≠ ' ' := by
  rintro rfl
  simp [isWhitespace, whitespace] at h

/-- A well-formed rule line is read as the entry `(S, (R, weight))`. -/
theorem parseRule_ruleLine (stof : List Char → Option K) (r : RuleLine) (h : r.WellFormed) :
    parseRule stof r.text
      = (match r.value stof with
          | some w => .ok (r.sym, r.rep, w)
          | none => .error "stof") := by
  obtain ⟨hs, hc, hne, hrep, hw⟩ := h
  have hsc : ¬ r.sym = ':' := hc
  have hfind : find r.text ':' = some 2 := by
    simp [RuleLine.text, find, hsc]
  have hkey : trim (substr r.text 0 2) = [r.sym] := by
    rw [trim_eq]
    have hsp : isWhitespace ' ' = true := by decide
    have hsn : ¬ isWhitespace r.sym = true := by simp [hs]
    show stripWhitespace [r.sym, ' '] = [r.sym]
    unfold stripWhitespace
    rw [List.dropWhile_cons_of_neg hsn]
    show List.rdropWhile isWhitespace ([r.sym] ++ [' ']) = [r.sym]
    rw [List.rdropWhile_concat_pos _ _ _ hsp, List.rdropWhile_singleton]
    simp [hs]
  have hrepsp : ' ' ∉ r.rep := fun hm => not_space_of_not_whitespace _ (hrep _ hm) rfl
  have hhead : ∀ c, (r.rep ++ (match r.weight with
      | none => []
      | some w => ' ' :: w)).head? = some c → isWhitespace c = false := by
    intro c hcm
    cases hr : r.rep with
    | nil => exact absurd hr hne
    | cons y ys =>
      rw [hr] at hcm
      simp only [List.cons_append, List.head?_cons, Option.some.injEq] at hcm
      exact hcm ▸ hrep y (by simp [hr])
  cases hwt : r.weight with
  | none =>
    have hval : trim (substrFrom r.text 3) = r.rep := by
      rw [trim_eq]
      simp only [RuleLine.text, hwt, substrFrom, List.drop_succ_cons, List.drop_zero,
        List.append_nil]
      refine stripWhitespace_space_cons r.rep hne ?_ ?_
      · simpa [hwt] using hhead
      · intro c hcl
        exact hrep c (List.mem_of_getLast?_eq_some hcl)
    simp only [parseRule, hfind, hkey, hval, (find_eq_none_iff r.rep ' ').2 hrepsp,
      RuleLine.value, hwt, List.headD_cons]
  | some w =>
    obtain ⟨hwne, hwc⟩ := hw w hwt
    have hval : trim (substrFrom r.text 3) = r.rep ++ ' ' :: w := by
      rw [trim_eq]
      simp only [RuleLine.text, hwt, substrFrom, List.drop_succ_cons, List.drop_zero]
      refine stripWhitespace_space_cons _ (by simp) ?_ ?_
      · simpa [hwt] using hhead
      · intro c hcl
        have hl2 : (r.rep ++ ' ' :: w).getLast? = w.getLast? := by
          rw [show r.rep ++ ' ' :: w = (r.rep ++ [' ']) ++ w by simp]
          exact List.getLast?_append_of_ne_nil _ hwne
        rw [hl2] at hcl
        exact hwc c (List.mem_of_getLast?_eq_some hcl)
    simp only [parseRule, hfind, hkey, hval, find_append_not_mem r.rep w ' ' hrepsp,
      RuleLine.value, hwt, List.headD_cons]
    simp only [substrFrom, substr, List.drop_zero]
    have e1 : List.drop (r.rep.length + 1) (r.rep ++ ' ' :: w) = w := by
      rw [List.drop_append_eq_append_drop]
      simp
    have e2 : List.take r.rep.length (r.rep ++ ' ' :: w) = r.rep := by
      simp
    rw [e1, e2]
    cases stof w <;> rfl

theorem iterate_rules (m : MathOps K) (st : LSystem K) :
    (iterate m st).2.rules = st.rules ∧ (iterate m st).2.angle = st.angle ∧
      (iterate m st).2.jitter = st.jitter := by
  cases hb : st.strings.getLast? with
  | none => rw [iterate_eq_of_empty m st (List.getLast?_eq_none_iff.1 hb)]; exact ⟨rfl, rfl, rfl⟩
  | some back =>
    by_cases hc : (usedVerts st.iterData + (nextVerts m st back).length) * sizeofVec3 > MAX_BUF
    · rw [iterate_eq_of_exceeds m st back hb hc]; exact ⟨rfl, rfl, rfl⟩
    · rw [iterate_eq_of_fits m st back hb hc]; exact ⟨rfl, rfl, rfl⟩

theorem iterateLoop_rules (m : MathOps K) (inIters : Nat) :
    ∀ (fuel : Nat) (st : LSystem K),
      (iterateLoop m inIters fuel st).rules = st.rules ∧
      (iterateLoop m inIters fuel st).angle = st.angle ∧
      (iterateLoop m inIters fuel st).jitter = st.jitter := by
  intro fuel
  induction fuel with
  | zero => intro st; exact ⟨rfl, rfl, rfl⟩
  | succ fuel ih =>
    intro st
    simp only [iterateLoop]
    split_ifs with hlt
    · have hi := iterate_rules m st
      rcases hres : iterate m st with ⟨res, st1⟩
      rw [hres] at hi
      cases res with
      | error e => exact hi
      | ok n =>
        obtain ⟨h1, h2, h3⟩ := ih st1
        exact ⟨h1.trans hi.1, h2.trans hi.2.1, h3.trans hi.2.2⟩
    · exact ⟨rfl, rfl, rfl⟩

/-- The second half of `parse` stores the angle, the jitter and the rules as they were read. -/
theorem parseCommit_fields (m : MathOps K) (st : LSystem K) (inAngle inJitter : K)
    (inIters : Nat) (inText : List Char) (inRules : Rules K) :
    (parseCommit m st inAngle inJitter inIters inText inRules).rules = inRules ∧
    (parseCommit m st inAngle inJitter inIters inText inRules).angle = inAngle ∧
    (parseCommit m st inAngle inJitter inIters inText inRules).jitter = inJitter := by
  unfold parseCommit
  obtain ⟨h1, h2, h3⟩ := iterateLoop_rules m inIters (inIters - 1)
    (addVerts { st with angle := inAngle, jitter := inJitter, strings := [inText],
                        rules := inRules, iterData := [],
                        rng := (createGeometry m inAngle inJitter inText st.rng).2 }
      (createGeometry m inAngle inJitter inText st.rng).1)
  exact ⟨h1, h2, h3⟩

/-- What a successful `parseString` has read, on a description with at least three content
lines: the three conversions succeeded and the object is the committed one. -/
theorem parseString_ok (m : MathOps K) (stof : List Char → Option K) (st : LSystem K)
    (text a i x : List Char) (rs : List (List Char)) (h : cleanLines text = a :: i :: x :: rs)
    (hok : (parseString m stof st text).1 = .ok ()) :
    ∃ n rules p, stoi i = .ok n ∧ readRules stof rs = .ok rules ∧ parseAngle stof a = .ok p ∧
      parseString m stof st text = (.ok (), parseCommit m st p.1 p.2 (toUnsigned n) x rules) := by
  have hp := parseString_lines m stof st text a i x rs h
  rw [hp] at hok ⊢
  cases hi : stoi i with
  | error what => rw [hi] at hok; simp at hok
  | ok n =>
    rw [hi] at hok
    simp only at hok ⊢
    cases hr : readRules stof rs with
    | error what => rw [hr] at hok; simp at hok
    | ok rules =>
      rw [hr] at hok
      simp only at hok ⊢
      cases ha : parseAngle stof a with
      | error what => rw [ha] at hok; simp at hok
      | ok p => exact ⟨n, rules, p, rfl, rfl, rfl, rfl⟩

theorem readRules_ruleLines (stof : List Char → Option K) (rules : List RuleLine) :
    (∀ r ∈ rules, r.WellFormed) → ∀ out : Rules K,
      readRules stof (rules.map RuleLine.text) = .ok out →
      out.map (fun e => (e.1, e.2.1, some e.2.2))
        = rules.map (fun r => (r.sym, r.rep, r.value stof)) := by
  induction rules with
  | nil =>
    intro _ out h
    simp only [List.map_nil, readRules, Except.ok.injEq] at h
    subst h
    rfl
  | cons r rs ih =>
    intro hwf out h
    have hr := parseRule_ruleLine stof r (hwf r (List.mem_cons_self _ _))
    simp only [List.map_cons, readRules, hr] at h
    cases hv : r.value stof with
    | none => rw [hv] at h; simp at h
    | some w =>
      rw [hv] at h
      simp only at h
      cases hrest : readRules stof (rs.map RuleLine.text) with
      | error what => rw [hrest] at h; simp at h
      | ok out1 =>
        rw [hrest] at h
        simp only [Except.ok.injEq] at h
        subst h
        have := ih (fun x hx => hwf x (List.mem_cons_of_mem _ hx)) out1 hrest
        simp [this, hv]

theorem equalRange_of_map (stof : List Char → Option K) (out : Rules K) :
    ∀ rules : List RuleLine,
      out.map (fun e => (e.1, e.2.1, some e.2.2))
        = rules.map (fun r => (r.sym, r.rep, r.value stof)) →
      ∀ c : Char, (equalRange out c).map (fun e => (e.1, some e.2))
        = (rules.filter (fun r => r.sym == c)).map (fun r => (r.rep, r.value stof)) := by
  induction out with
  | nil =>
    intro rules h c
    cases rules with
    | nil => rfl
    | cons r rs => simp at h
  | cons e es ih =>
    intro rules h c
    cases rules with
    | nil => simp at h
    | cons r rs =>
      simp only [List.map_cons, List.cons.injEq, Prod.mk.injEq] at h
      obtain ⟨⟨h1, h2, h3⟩, h4⟩ := h
      have := ih rs h4 c
      unfold equalRange at this ⊢
      by_cases hc : (e.1 == c) = true
      · have hc2 : (r.sym == c) = true := by rw [← h1]; exact hc
        simp only [List.filter_cons, hc, hc2, if_true, List.map_cons, this, h2, h3]
      · have hc2 : ¬ (r.sym == c) = true := by rw [← h1]; exact hc
        simp only [List.filter_cons, hc, hc2, Bool.false_eq_true, if_false, this]

/-- **C14.** For a description whose rule lines have the form `S : R` or `S : R W`, a successful
`parse` stores exactly one candidate `(S, R, weight)` per rule line, in line order, with weight
1 when `W` is omitted and the value `std::stof` gives to `W` otherwise; the candidates of one
symbol are all the lines with that symbol, in line order (a later line does not overwrite an
earlier one). -/
theorem rule_lines_stored (m : MathOps K) (stof : List Char → Option K) (st : LSystem K)
    (text a i x : List Char) (rules : List RuleLine) (hwf : ∀ r ∈ rules, r.WellFormed)
    (hlines : cleanLines text = a :: i :: x :: rules.map RuleLine.text)
    (hok : (parseString m stof st text).1 = .ok ()) :
    (parseString m stof st text).2.rules.map (fun e => (e.1, e.2.1, some e.2.2))
      = rules.map (fun r => (r.sym, r.rep, r.value stof)) ∧
    (parseString m stof st text).2.rules.length = rules.length ∧
    (∀ c : Char,
      (equalRange (parseString m stof st text).2.rules c).map (fun e => (e.1, some e.2))
        = (rules.filter (fun r => r.sym == c)).map (fun r => (r.rep, r.value stof))) := by
  obtain ⟨n, out, p, _, hr, _, hp⟩ := parseString_ok m stof st text a i x _ hlines hok
  rw [hp]
  simp only [(parseCommit_fields m st p.1 p.2 (toUnsigned n) x out).1]
  have h1 := readRules_ruleLines stof rules hwf out hr
  refine ⟨h1, ?_, equalRange_of_map stof out rules h1⟩
  have := congrArg List.length h1
  simpa using this

/-- The converse reading of `parseString_lines`: when the three conversions succeed, `parseString`
returns normally with the committed object. -/
theorem parseString_of_fields (m : MathOps K) (stof : List Char → Option K) (st : LSystem K)
    (text a i x : List Char) (rs : List (List Char)) (h : cleanLines text = a :: i :: x :: rs)
    (n : Int) (rules : Rules K) (p : K × K) (hi : stoi i = .ok n)
    (hr : readRules stof rs = .ok rules) (ha : parseAngle stof a = .ok p) :
    parseString m stof st text = (.ok (), parseCommit m st p.1 p.2 (toUnsigned n) x rules) := by
  rw [parseString_lines m stof st text a i x rs h]
  simp only [hi, hr, ha]

theorem stofDecimal_two : stofDecimal "2".toList = some 2 := by
  simp [stofDecimal, isSpace, digitsValue, digitVal, floatMax]
  norm_num

theorem stofDecimal_minus_one : stofDecimal "-1".toList = some (-1) := by
  simp [stofDecimal, isSpace, digitsValue, digitVal, floatMax]

theorem parseAngle_ninety : parseAngle stofDecimal "90".toList = .ok (90, 0) := by
  have hf : find "90".toList '<' = none := by decide
  simp only [parseAngle, hf]
  have hs : stofDecimal "90".toList = some 90 := by
    simp [stofDecimal, isSpace, digitsValue, digitVal, floatMax]
    norm_num
  rw [hs]

theorem wellFormed_plain (s : Char) (rep : List Char) (h1 : isWhitespace s = false)
    (h2 : s ≠ ':') (h3 : rep ≠ []) (h4 : ∀ c ∈ rep, isWhitespace c = false) :
    RuleLine.WellFormed ⟨s, rep, none⟩ :=
  ⟨h1, h2, h3, h4, fun w hw => by simp at hw⟩

theorem wellFormed_weighted (s : Char) (rep w : List Char) (h1 : isWhitespace s = false)
    (h2 : s ≠ ':') (h3 : rep ≠ []) (h4 : ∀ c ∈ rep, isWhitespace c = false)
    (h5 : w ≠ []) (h6 : ∀ c ∈ w, isWhitespace c = false) :
    RuleLine.WellFormed ⟨s, rep, some w⟩ :=
  ⟨h1, h2, h3, h4, fun w1 hw => by
    simp only [Option.some.injEq] at hw
    subst hw
    exact ⟨h5, h6⟩⟩

theorem readRules_two_lines :
    readRules stofDecimal ["F : FF".toList, "F : G 2".toList]
      = .ok [('F', "FF".toList, 1), ('F', "G".toList, 2)] := by
  have w1 : RuleLine.WellFormed ⟨'F', "FF".toList, none⟩ :=
    wellFormed_plain _ _ (by decide) (by decide) (by decide) (by decide)
  have w2 : RuleLine.WellFormed ⟨'F', "G".toList, some "2".toList⟩ :=
    wellFormed_weighted _ _ _ (by decide) (by decide) (by decide) (by decide) (by decide)
      (by decide)
  have e1 := parseRule_ruleLine stofDecimal _ w1
  have e2 := parseRule_ruleLine stofDecimal _ w2
  simp only [RuleLine.value, stofDecimal_two] at e1 e2
  have t1 : RuleLine.text ⟨'F', "FF".toList, none⟩ = "F : FF".toList := by decide
  have t2 : RuleLine.text ⟨'F', "G".toList, some "2".toList⟩ = "F : G 2".toList := by decide
  rw [t1] at e1
  rw [t2] at e2
  simp only [readRules, e1, e2]

theorem rule_lines_stored_witness :
    (parseString sampleOps stofDecimal (LSystem.create 0 halfRng)
        "90\n1\nF\nF : FF\nF : G 2\n".toList).2.rules.map (fun e => (e.1, e.2.1, some e.2.2))
      = [('F', "FF".toList, some 1), ('F', "G".toList, some 2)] ∧
    (parseString sampleOps stofDecimal (LSystem.create 0 halfRng)
        "90\n1\nF\nF : FF\nF : G 2\n".toList).2.rules.length = 2 := by
  have hl : cleanLines "90\n1\nF\nF : FF\nF : G 2\n".toList
      = "90".toList :: "1".toList :: "F".toList ::
          [(⟨'F', "FF".toList, none⟩ : RuleLine),
            ⟨'F', "G".toList, some "2".toList⟩].map RuleLine.text := by decide
  have hl2 : cleanLines "90\n1\nF\nF : FF\nF : G 2\n".toList
      = ["90".toList, "1".toList, "F".toList, "F : FF".toList, "F : G 2".toList] := by decide
  have hwf : ∀ r ∈ [(⟨'F', "FF".toList, none⟩ : RuleLine), ⟨'F', "G".toList, some "2".toList⟩],
      r.WellFormed := by
    intro r hr
    simp only [List.mem_cons, List.mem_singleton, List.not_mem_nil, or_false] at hr
    rcases hr with rfl | rfl
    · exact wellFormed_plain _ _ (by decide) (by decide) (by decide) (by decide)
    · exact wellFormed_weighted _ _ _ (by decide) (by decide) (by decide) (by decide)
        (by decide) (by decide)
  have hok : (parseString sampleOps stofDecimal (LSystem.create 0 halfRng)
      "90\n1\nF\nF : FF\nF : G 2\n".toList).1 = .ok () := by
    rw [parseString_of_fields sampleOps stofDecimal _ _ _ _ _ _ hl2 1 _ _ rfl
      readRules_two_lines parseAngle_ninety]
  have h := rule_lines_stored sampleOps stofDecimal (LSystem.create 0 halfRng)
    "90\n1\nF\nF : FF\nF : G 2\n".toList "90".toList "1".toList "F".toList _ hwf hl hok
  have h2 : stofDecimal ['2'] = some 2 := stofDecimal_two
  refine ⟨h.1.trans ?_, h.2.1⟩
  simp [RuleLine.value, h2]

/-- Counterexample to C15 as stated: the rule line `F : FF -1` is accepted and the candidate is
stored with weight -1. -/
theorem negative_weight_stored :
    (parseString sampleOps stofDecimal (LSystem.create 0 halfRng)
        "90\n1\nF\nF : FF -1\n".toList).1 = .ok () ∧
    (parseString sampleOps stofDecimal (LSystem.create 0 halfRng)
        "90\n1\nF\nF : FF -1\n".toList).2.rules = [('F', "FF".toList, -1)] := by
  have hl : cleanLines "90\n1\nF\nF : FF -1\n".toList
      = ["90".toList, "1".toList, "F".toList, "F : FF -1".toList] := by decide
  have w1 : RuleLine.WellFormed ⟨'F', "FF".toList, some "-1".toList⟩ :=
    wellFormed_weighted _ _ _ (by decide) (by decide) (by decide) (by decide) (by decide)
      (by decide)
  have e1 := parseRule_ruleLine stofDecimal _ w1
  simp only [RuleLine.value, stofDecimal_minus_one] at e1
  have t1 : RuleLine.text ⟨'F', "FF".toList, some "-1".toList⟩ = "F : FF -1".toList := by decide
  rw [t1] at e1
  have hr : readRules stofDecimal ["F : FF -1".toList] = .ok [('F', "FF".toList, -1)] := by
    simp only [readRules, e1]
  rw [parseString_of_fields sampleOps stofDecimal _ _ _ _ _ _ hl 1 _ _ rfl hr parseAngle_ninety]
  exact ⟨rfl, (parseCommit_fields _ _ _ _ _ _ _).1⟩

/-- **C15 (amended).** After a successful `parse`, the weight stored for a rule line `S : R W` is
the value `std::stof` gives to `W`, whatever its sign, and 1 for a line `S : R`; there is no sign
check. So the stored weights are all non-negative exactly when no written weight is read as a
negative number. -/
theorem stored_weights_as_written (m : MathOps K) (stof : List Char → Option K) (st : LSystem K)
    (text a i x : List Char) (rules : List RuleLine) (hwf : ∀ r ∈ rules, r.WellFormed)
    (hlines : cleanLines text = a :: i :: x :: rules.map RuleLine.text)
    (hok : (parseString m stof st text).1 = .ok ()) :
    (parseString m stof st text).2.rules.map (fun e => some e.2.2)
      = rules.map (fun r => match r.weight with | none => some 1 | some w => stof w) ∧
    ((∀ e ∈ (parseString m stof st text).2.rules, 0 ≤ e.2.2) ↔
      (∀ r ∈ rules, ∀ w v, r.weight = some w → stof w = some v → 0 ≤ v)) := by
  obtain ⟨n, out, p, _, hr, _, hp⟩ := parseString_ok m stof st text a i x _ hlines hok
  rw [hp]
  simp only [(parseCommit_fields m st p.1 p.2 (toUnsigned n) x out).1]
  have h1 := readRules_ruleLines stof rules hwf out hr
  have h2 : out.map (fun e => some e.2.2) = rules.map (fun r => r.value stof) := by
    have := congrArg (List.map (fun t : Char × List Char × Option K => t.2.2)) h1
    simpa [List.map_map, Function.comp] using this
  refine ⟨h2, ?_, ?_⟩
  · intro h r hr w v hw hv
    have hmem : r.value stof ∈ out.map (fun e => some e.2.2) := by
      rw [h2]; exact List.mem_map_of_mem _ hr
    obtain ⟨e, he, hev⟩ := List.mem_map.1 hmem
    have hval : r.value stof = some v := by simp only [RuleLine.value, hw, hv]
    rw [hval] at hev
    simp only [Option.some.injEq] at hev
    rw [← hev]
    exact h e he
  · intro h e he
    have hmem : some e.2.2 ∈ rules.map (fun r => r.value stof) := by
      rw [← h2]; exact List.mem_map_of_mem (fun e : Char × List Char × K => some e.2.2) he
    obtain ⟨r, hr, hrv⟩ := List.mem_map.1 hmem
    cases hw : r.weight with
    | none =>
      simp only [RuleLine.value, hw, Option.some.injEq] at hrv
      rw [← hrv]
      exact zero_le_one
    | some w =>
      simp only [RuleLine.value, hw] at hrv
      exact h r hr w e.2.2 hw hrv

theorem stored_weights_as_written_witness :
    (parseString sampleOps stofDecimal (LSystem.create 0 halfRng)
        "90\n1\nF\nF : FF\nF : G 2\n".toList).2.rules.map (fun e => some e.2.2)
      = [some 1, some 2] := by
  have hl : cleanLines "90\n1\nF\nF : FF\nF : G 2\n".toList
      = "90".toList :: "1".toList :: "F".toList ::
          [(⟨'F', "FF".toList, none⟩ : RuleLine),
            ⟨'F', "G".toList, some "2".toList⟩].map RuleLine.text := by decide
  have hl2 : cleanLines "90\n1\nF\nF : FF\nF : G 2\n".toList
      = ["90".toList, "1".toList, "F".toList, "F : FF".toList, "F : G 2".toList] := by decide
  have hwf : ∀ r ∈ [(⟨'F', "FF".toList, none⟩ : RuleLine), ⟨'F', "G".toList, some "2".toList⟩],
      r.WellFormed := by
    intro r hr
    simp only [List.mem_cons, List.mem_singleton, List.not_mem_nil, or_false] at hr
    rcases hr with rfl | rfl
    · exact wellFormed_plain _ _ (by decide) (by decide) (by decide) (by decide)
    · exact wellFormed_weighted _ _ _ (by decide) (by decide) (by decide) (by decide)
        (by decide) (by decide)
  have hok : (parseString sampleOps stofDecimal (LSystem.create 0 halfRng)
      "90\n1\nF\nF : FF\nF : G 2\n".toList).1 = .ok () := by
    rw [parseString_of_fields sampleOps stofDecimal _ _ _ _ _ _ hl2 1 _ _ rfl
      readRules_two_lines parseAngle_ninety]
  have h := stored_weights_as_written sampleOps stofDecimal (LSystem.create 0 halfRng)
    "90\n1\nF\nF : FF\nF : G 2\n".toList "90".toList "1".toList "F".toList _ hwf hl hok
  have h2 : stofDecimal ['2'] = some 2 := stofDecimal_two
  refine h.1.trans ?_
  simp [h2]

theorem iterateLoop_spec (m : MathOps K) (inIters : Nat) :
    ∀ (fuel : Nat) (st : LSystem K), st.strings ≠ [] → inIters - st.strings.length ≤ fuel →
      (iterateLoop m inIters fuel st).rules = st.rules ∧
      (∃ ext, (iterateLoop m inIters fuel st).strings = st.strings ++ ext) ∧
      (RewriteChain st.rules st.strings →
        RewriteChain st.rules (iterateLoop m inIters fuel st).strings) ∧
      (iterateLoopCaught m inIters fuel st = false →
        (iterateLoop m inIters fuel st).strings.length = max st.strings.length inIters) ∧
      (iterateLoopCaught m inIters fuel st = true →
        (iterateLoop m inIters fuel st).strings.length < inIters ∧
        ∃ stX : LSystem K, iterate m stX
          = (.error "geometry exceeds maximum buffer size", iterateLoop m inIters fuel st)) := by
  intro fuel
  induction fuel with
  | zero =>
    intro st _ hf
    have hle : inIters ≤ st.strings.length := by omega
    simp only [iterateLoop, iterateLoopCaught]
    refine ⟨trivial, ⟨[], by simp⟩, fun h => h, fun _ => (max_eq_left hle).symm, fun h => ?_⟩
    simp at h
  | succ fuel ih =>
    intro st hne hf
    by_cases hlt : st.strings.length < inIters
    · cases hb : st.strings.getLast? with
      | none => exact absurd (List.getLast?_eq_none_iff.1 hb) hne
      | some back =>
        by_cases hc :
            (usedVerts st.iterData + (nextVerts m st back).length) * sizeofVec3 > MAX_BUF
        · have hit := iterate_eq_of_exceeds m st back hb hc
          simp only [iterateLoop, iterateLoopCaught, hlt, if_true, hit]
          refine ⟨trivial, ⟨[], by simp⟩, fun h => h, fun h => by simp at h, fun _ => ⟨trivial, st, hit⟩⟩
        · have hit := iterate_eq_of_fits m st back hb hc
          simp only [iterateLoop, iterateLoopCaught, hlt, if_true, hit]
          have hs1 : (addVerts { st with
              rng := (createGeometry m st.angle st.jitter (applyRules st.rules back st.rng).1
                (applyRules st.rules back st.rng).2).2,
              strings := st.strings ++ [nextString st back] } (nextVerts m st back)).strings
              = st.strings ++ [nextString st back] := by simp [addVerts]
          have hr1 : (addVerts { st with
              rng := (createGeometry m st.angle st.jitter (applyRules st.rules back st.rng).1
                (applyRules st.rules back st.rng).2).2,
              strings := st.strings ++ [nextString st back] } (nextVerts m st back)).rules
              = st.rules := by simp [addVerts]
          obtain ⟨i1, ⟨ext, i2⟩, i3, i4, i5⟩ := ih _
            (by rw [hs1]; simp) (by rw [hs1]; simp only [List.length_append,
              List.length_singleton]; omega)
          rw [hs1] at i2 i3 i4
          rw [hr1] at i1 i3
          refine ⟨i1, ⟨nextString st back :: ext, by rw [i2]; simp⟩, ?_, ?_, i5⟩
          · intro hch
            apply i3
            unfold RewriteChain at hch ⊢
            rw [List.chain'_append]
            refine ⟨hch, List.chain'_singleton _, ?_⟩
            intro s1 h1 s2 h2
            rw [hb] at h1
            simp only [Option.mem_def, Option.some.injEq, List.head?_cons] at h1 h2
            subst h1 h2
            exact ⟨st.rng, rfl⟩
          · intro hcaught
            rw [i4 hcaught]
            simp only [List.length_append, List.length_singleton]
            omega
    · simp only [iterateLoop, iterateLoopCaught, hlt, if_false]
      have hle : inIters ≤ st.strings.length := by omega
      refine ⟨trivial, ⟨[], by simp⟩, fun h => h, fun _ => (max_eq_left hle).symm, fun h => ?_⟩
      simp at h

theorem stoi_range (s : List Char) (n : Int) (h : stoi s = .ok n) :
    -(2 ^ 31) ≤ n ∧ n ≤ 2 ^ 31 - 1 := by
  unfold stoi at h
  simp only at h
  split_ifs at h <;> simp only [Except.ok.injEq] at h <;> subst h <;> constructor <;> omega

theorem toUnsigned_of_nonneg (n : Int) (h0 : 0 ≤ n) (h1 : n ≤ 2 ^ 31 - 1) :
    toUnsigned n = n.toNat := by
  unfold toUnsigned
  rw [Int.emod_eq_of_lt h0 (by omega)]

theorem rewriteChain_get (rules : Rules K) (l : List (List Char)) (h : RewriteChain rules l)
    (k : Nat) (s1 s2 : List Char) (h1 : l.get? k = some s1) (h2 : l.get? (k + 1) = some s2) :
    ∃ g : Rng K, s2 = (applyRules rules s1 g).1 := by
  obtain ⟨hk1, e1⟩ := List.get?_eq_some.1 h1
  obtain ⟨hk2, e2⟩ := List.get?_eq_some.1 h2
  have := (List.chain'_iff_get.1 h) k (by omega)
  rw [← e1, ← e2]
  exact this

/-- **C13.** A description whose fields are read (iteration count `n >= 0`) makes `parse` return
normally; afterwards `getString(0)` is the first string of the description and each
`getString(k+1)` is `applyRules` of `getString(k)`. If no `iterate` call of the loop throws (the
geometry never exceeds the buffer limit), `getNumIter() = max(1, n)`; if one does (the limit is
hit), the exception is caught inside `parse` and `1 <= getNumIter() < n`. -/
theorem parse_iteration_count (m : MathOps K) (stof : List Char → Option K) (st : LSystem K)
    (text a i x : List Char) (rs : List (List Char)) (n : Int) (rules : Rules K) (p : K × K)
    (hlines : cleanLines text = a :: i :: x :: rs) (hi : stoi i = .ok n) (hn : 0 ≤ n)
    (hr : readRules stof rs = .ok rules) (ha : parseAngle stof a = .ok p) :
    (parseString m stof st text).1 = .ok () ∧
    getString (parseString m stof st text).2 0 = some x ∧
    (∀ k s1 s2, getString (parseString m stof st text).2 k = some s1 →
      getString (parseString m stof st text).2 (k + 1) = some s2 →
      ∃ g : Rng K, s2 = (applyRules (parseString m stof st text).2.rules s1 g).1) ∧
    (parseCommitCaught m st p.1 p.2 (toUnsigned n) x rules = false →
      getNumIter (parseString m stof st text).2 = max 1 n.toNat) ∧
    (parseCommitCaught m st p.1 p.2 (toUnsigned n) x rules = true →
      1 ≤ getNumIter (parseString m stof st text).2 ∧
      getNumIter (parseString m stof st text).2 < n.toNat ∧
      ∃ stX : LSystem K, iterate m stX
        = (.error "geometry exceeds maximum buffer size", (parseString m stof st text).2)) := by
  rw [parseString_of_fields m stof st text a i x rs hlines n rules p hi hr ha]
  rw [toUnsigned_of_nonneg n hn (stoi_range i n hi).2]
  have hf := (parseCommit_fields m st p.1 p.2 n.toNat x rules).1
  unfold parseCommit at hf ⊢
  unfold parseCommitCaught
  have hs2 : (addVerts { st with
        angle := p.1, jitter := p.2, strings := [x], rules := rules, iterData := [],
        rng := (createGeometry m p.1 p.2 x st.rng).2 }
      (createGeometry m p.1 p.2 x st.rng).1).strings = [x] := by simp [addVerts]
  have hr2 : (addVerts { st with
        angle := p.1, jitter := p.2, strings := [x], rules := rules, iterData := [],
        rng := (createGeometry m p.1 p.2 x st.rng).2 }
      (createGeometry m p.1 p.2 x st.rng).1).rules = rules := by simp [addVerts]
  obtain ⟨i1, ⟨ext, i2⟩, i3, i4, i5⟩ := iterateLoop_spec m n.toNat (n.toNat - 1)
    (addVerts { st with
        angle := p.1, jitter := p.2, strings := [x], rules := rules, iterData := [],
        rng := (createGeometry m p.1 p.2 x st.rng).2 }
      (createGeometry m p.1 p.2 x st.rng).1) (by rw [hs2]; simp) (by rw [hs2]; simp)
  rw [hs2] at i2 i3 i4
  rw [hr2] at i1 i3
  simp only at hf i1 i2 i3 i4 i5 ⊢
  refine ⟨trivial, ?_, ?_, ?_, ?_⟩
  · simp [getString, i2]
  · intro k s1 s2 h1 h2
    rw [hf]
    exact rewriteChain_get rules _ (i3 (List.chain'_singleton _)) k s1 s2 h1 h2
  · intro hc
    simp only [getNumIter]
    rw [i4 hc]
    simp
  · intro hc
    obtain ⟨j1, j2⟩ := i5 hc
    refine ⟨?_, j1, j2⟩
    simp only [getNumIter]
    rw [i2]
    simp

theorem parse_iteration_count_witness :
    (parseString sampleOps stofDecimal (LSystem.create 0 halfRng) "90\n3\nF\n".toList).1
      = .ok () ∧
    getString (parseString sampleOps stofDecimal (LSystem.create 0 halfRng)
      "90\n3\nF\n".toList).2 0 = some "F".toList ∧
    getNumIter (parseString sampleOps stofDecimal (LSystem.create 0 halfRng)
      "90\n3\nF\n".toList).2 = max 1 (3 : Int).toNat := by
  have h := parse_iteration_count sampleOps stofDecimal (LSystem.create 0 halfRng)
    "90\n3\nF\n".toList "90".toList "3".toList "F".toList [] 3 [] (90, 0)
    (by decide) rfl (by decide) rfl parseAngle_ninety
  refine ⟨h.1, h.2.1, h.2.2.2.1 ?_⟩
  have h3 : toUnsigned 3 = 3 := by decide
  rw [h3]
  simp [parseCommitCaught, iterateLoopCaught, iterate, addVerts, LSystem.create,
    createGeometry, turtleRun, turtleStep, Turtle.initial, applyRules, applyRulesStep,
    equalRange, usedVerts, MAX_BUF, sizeofVec3, getNumIter]

theorem createGeometry_snoc (m : MathOps K) (angle jitter : K) (pre : List Char) (c : Char)
    (g : Rng K) :
    (createGeometry m angle jitter (pre ++ [c]) g).1
      = (turtleStep m angle jitter (turtleRun m angle jitter (Turtle.initial g) pre) c).verts := by
  simp only [createGeometry, turtleRun_append, turtleRun_cons, turtleRun_nil]

/-- **C20.** For every string, `createGeometry` returns exactly `2k` vertices, `k` the number of
characters `f`, `F`, `g`, `G`. Read character by character: after any prefix, such a character
appends the pair (position, position + direction) and moves the position to position +
direction; `s` / `S` moves the position the same way and appends nothing; no other character
appends a vertex. The string `FsF` gives the segments (0,0,0)-(0,1,0) and (0,2,0)-(0,3,0). -/
theorem createGeometry_segments (m : MathOps K) (angle jitter : K) (g : Rng K) :
    (∀ s : List Char, (createGeometry m angle jitter s g).1.length = 2 * drawCount s) ∧
    (∀ (pre : List Char) (c : Char), c.toLower = 'f' ∨ c.toLower = 'g' →
      (createGeometry m angle jitter (pre ++ [c]) g).1
        = (createGeometry m angle jitter pre g).1
            ++ [(turtleRun m angle jitter (Turtle.initial g) pre).cur.pos,
                (turtleRun m angle jitter (Turtle.initial g) pre).cur.pos.add
                  (turtleRun m angle jitter (Turtle.initial g) pre).cur.dir] ∧
      (turtleRun m angle jitter (Turtle.initial g) (pre ++ [c])).cur.pos
        = (turtleRun m angle jitter (Turtle.initial g) pre).cur.pos.add
            (turtleRun m angle jitter (Turtle.initial g) pre).cur.dir) ∧
    (∀ (pre : List Char) (c : Char), c.toLower = 's' →
      (createGeometry m angle jitter (pre ++ [c]) g).1 = (createGeometry m angle jitter pre g).1 ∧
      (turtleRun m angle jitter (Turtle.initial g) (pre ++ [c])).cur.pos
        = (turtleRun m angle jitter (Turtle.initial g) pre).cur.pos.add
            (turtleRun m angle jitter (Turtle.initial g) pre).cur.dir) ∧
    (∀ (pre : List Char) (c : Char), ¬ (c.toLower = 'f' ∨ c.toLower = 'g') →
      (createGeometry m angle jitter (pre ++ [c]) g).1
        = (createGeometry m angle jitter pre g).1) ∧
    (createGeometry m angle jitter "FsF".toList g).1
      = [⟨0, 0, 0⟩, ⟨0, 1, 0⟩, ⟨0, 2, 0⟩, ⟨0, 3, 0⟩] := by
  refine ⟨fun s => createGeometry_length m angle jitter s g, ?_, ?_, ?_, ?_⟩
  · intro pre c h
    rw [createGeometry_snoc, turtleRun_append, turtleRun_cons, turtleRun_nil,
      turtleStep_draw m angle jitter _ c h]
    exact ⟨rfl, rfl⟩
  · intro pre c h
    have h1 : ¬ (c.toLower = 'f' ∨ c.toLower = 'g') := by rw [h]; decide
    rw [createGeometry_snoc, turtleRun_append, turtleRun_cons, turtleRun_nil,
      turtleStep_move m angle jitter _ c h1 h]
    exact ⟨rfl, rfl⟩
  · intro pre c h
    rw [createGeometry_snoc, turtleStep_verts_other m angle jitter _ c h]
    rfl
  · have hF : ('F' : Char).toLower = 'f' ∨ ('F' : Char).toLower = 'g' := by decide
    have hs1 : ¬ (('s' : Char).toLower = 'f' ∨ ('s' : Char).toLower = 'g') := by decide
    have hs2 : ('s' : Char).toLower = 's' := by decide
    have e : "FsF".toList = ['F', 's', 'F'] := rfl
    rw [e]
    simp only [createGeometry, turtleRun_cons, turtleRun_nil, turtleStep_draw _ _ _ _ 'F' hF,
      turtleStep_move _ _ _ _ 's' hs1 hs2, Turtle.initial, Cursor.initial, Vec3.add,
      List.nil_append, List.cons_append]
    norm_num

theorem createGeometry_segments_witness :
    (createGeometry sampleOps 90 0 ("F".toList ++ ['s']) halfRng).1
        = (createGeometry sampleOps 90 0 "F".toList halfRng).1 ∧
    (createGeometry sampleOps 90 0 ("Fs".toList ++ ['G']) halfRng).1.length = 4 :=
  ⟨((createGeometry_segments sampleOps 90 0 halfRng).2.2.1 "F".toList 's' (by decide)).1,
   by
    rw [((createGeometry_segments sampleOps 90 0 halfRng).2.1 "Fs".toList 'G' (by decide)).1,
      List.length_append, (createGeometry_segments sampleOps 90 0 halfRng).1]
    decide⟩

theorem bbfold_mem_bounds (l : List (Vec3 K)) :
    ∀ (a b : Vec3 K), ∀ w ∈ l,
      ((l.foldl (fun bb v => (bb.1.vmin v, bb.2.vmax v)) (a, b)).1.x ≤ w.x ∧
       (l.foldl (fun bb v => (bb.1.vmin v, bb.2.vmax v)) (a, b)).1.y ≤ w.y ∧
       (l.foldl (fun bb v => (bb.1.vmin v, bb.2.vmax v)) (a, b)).1.z ≤ w.z) ∧
      (w.x ≤ (l.foldl (fun bb v => (bb.1.vmin v, bb.2.vmax v)) (a, b)).2.x ∧
       w.y ≤ (l.foldl (fun bb v => (bb.1.vmin v, bb.2.vmax v)) (a, b)).2.y ∧
       w.z ≤ (l.foldl (fun bb v => (bb.1.vmin v, bb.2.vmax v)) (a, b)).2.z) := by
  induction l with
  | nil => intro a b w hw; simp at hw
  | cons v vs ih =>
    intro a b w hw
    simp only [List.foldl_cons]
    rcases List.mem_cons.1 hw with rfl | hw
    · obtain ⟨⟨h1, h2, h3⟩, h4, h5, h6⟩ := bbfold_bounds vs (a.vmin w) (b.vmax w)
      simp only [Vec3.vmin, Vec3.vmax] at h1 h2 h3 h4 h5 h6
      exact ⟨⟨h1.trans (min_le_right _ _), h2.trans (min_le_right _ _),
        h3.trans (min_le_right _ _)⟩,
        (le_max_right _ _).trans h4, (le_max_right _ _).trans h5, (le_max_right _ _).trans h6⟩
    · exact ih _ _ w hw

theorem bbfold_const (v : Vec3 K) (l : List (Vec3 K)) (h : ∀ w ∈ l, w = v) :
    l.foldl (fun bb v => (bb.1.vmin v, bb.2.vmax v)) (v, v) = (v, v) := by
  induction l with
  | nil => rfl
  | cons w ws ih =>
    have hw : w = v := h w (List.mem_cons_self _ _)
    subst hw
    have h1 : w.vmin w = w := by ext <;> simp [Vec3.vmin]
    have h2 : w.vmax w = w := by ext <;> simp [Vec3.vmax]
    simp only [List.foldl_cons, h1, h2]
    exact ih (fun x hx => h x (List.mem_cons_of_mem _ hx))

/-- The largest extent of a non-empty list of finite vertices is never negative, and it is zero
exactly when all the vertices are one point. -/
theorem maxExtent_cons (v : Vec3 K) (vs : List (Vec3 K)) (hr : ∀ w ∈ v :: vs, inFloatRange w) :
    0 ≤ maxExtent (v :: vs) ∧ (maxExtent (v :: vs) = 0 ↔ ∀ w ∈ vs, w = v) := by
  have hbb := boundingBox_cons v vs (hr v (List.mem_cons_self _ _))
  have hb := bbfold_bounds vs v v
  have hm := bbfold_mem_bounds vs v v
  have hmax : maxExtent (v :: vs)
      = max (max ((boundingBox (v :: vs)).2.x - (boundingBox (v :: vs)).1.x)
          ((boundingBox (v :: vs)).2.y - (boundingBox (v :: vs)).1.y))
          ((boundingBox (v :: vs)).2.z - (boundingBox (v :: vs)).1.z) := rfl
  rw [hmax, hbb]
  generalize hfold : vs.foldl (fun bb v => (bb.1.vmin v, bb.2.vmax v)) (v, v) = bb at hb hm
  obtain ⟨⟨b1, b2, b3⟩, b4, b5, b6⟩ := hb
  have dx : 0 ≤ bb.2.x - bb.1.x := by linarith
  have dy : 0 ≤ bb.2.y - bb.1.y := by linarith
  have dz : 0 ≤ bb.2.z - bb.1.z := by linarith
  refine ⟨le_max_of_le_right dz, ?_, ?_⟩
  · intro h0 w hw
    have ex : bb.2.x - bb.1.x ≤ 0 := by
      rw [← h0]; exact (le_max_left _ _).trans (le_max_left _ _)
    have ey : bb.2.y - bb.1.y ≤ 0 := by
      rw [← h0]; exact (le_max_right _ _).trans (le_max_left _ _)
    have ez : bb.2.z - bb.1.z ≤ 0 := by
      rw [← h0]; exact le_max_right _ _
    obtain ⟨⟨m1, m2, m3⟩, m4, m5, m6⟩ := hm w hw
    ext <;> linarith
  · intro hall
    have hc := bbfold_const v vs hall
    rw [hfold] at hc
    subst hc
    simp only [sub_self, max_self]

/-- Counterexample to C11 as stated: for the list holding the single vertex `(0,0,0)` the divisor
of `scale = 1.9f / max(max(diag.x, diag.y), diag.z)` is zero; `addVerts` applies no floor to
it. -/
theorem single_point_zero_divisor :
    maxExtent ([⟨0, 0, 0⟩] : List (Vec3 ℚ)) = 0 ∧
    (addVerts (LSystem.create 0 halfRng) [⟨0, 0, 0⟩]).iterData.map (fun d => d.bbfix.c0.x)
      = [(19 / 10 : ℚ) / maxExtent ([⟨0, 0, 0⟩] : List (Vec3 ℚ))] := by
  have hr : ∀ w ∈ ([⟨0, 0, 0⟩] : List (Vec3 ℚ)), inFloatRange w := by
    intro w hw
    simp only [List.mem_singleton] at hw
    subst hw
    norm_num [inFloatRange, floatMax]
  refine ⟨(maxExtent_cons _ [] hr).2.2 (fun w hw => by simp at hw), ?_⟩
  simp [addVerts, LSystem.create, bbfixOf]

/-- **C11 (amended).** For every non-empty list of finite vertices given to `addVerts`, the scale
of the fit transform is computed as `1.9 / e`, `e >= 0` the largest extent of the bounding box,
with no minimum-extent floor: `e` is zero, and the division is by zero, exactly when all the
vertices are one point. -/
theorem scale_divisor_zero_iff (verts : List (Vec3 K)) (hne : verts ≠ [])
    (hr : ∀ v ∈ verts, inFloatRange v) :
    (∀ st : LSystem K, (addVerts st verts).iterData.getLast?.map (fun d => d.bbfix.c0.x)
      = some ((19 / 10 : K) / maxExtent verts)) ∧
    0 ≤ maxExtent verts ∧
    (maxExtent verts = 0 ↔ ∀ v ∈ verts, ∀ w ∈ verts, v = w) := by
  cases verts with
  | nil => exact absurd rfl hne
  | cons v vs =>
    refine ⟨fun st => by simp [addVerts, bbfixOf], (maxExtent_cons v vs hr).1, ?_⟩
    rw [(maxExtent_cons v vs hr).2]
    constructor
    · intro h
      have hv : ∀ a ∈ v :: vs, a = v := by
        intro a ha
        rcases List.mem_cons.1 ha with rfl | ha
        · rfl
        · exact h a ha
      intro a ha b hb
      rw [hv a ha, hv b hb]
    · intro h w hw
      exact h w (List.mem_cons_of_mem _ hw) v (List.mem_cons_self _ _)

/-- Witness for C11 (amended): the two end points of the segment of `F` differ, so the divisor
is not zero. -/
theorem scale_divisor_zero_iff_witness :
    maxExtent ([⟨0, 0, 0⟩, ⟨0, 1, 0⟩] : List (Vec3 ℚ)) ≠ 0 := by
  have hr : ∀ v ∈ ([⟨0, 0, 0⟩, ⟨0, 1, 0⟩] : List (Vec3 ℚ)), inFloatRange v := by
    intro v hv
    simp only [List.mem_cons, List.mem_singleton, List.not_mem_nil, or_false] at hv
    rcases hv with rfl | rfl <;> norm_num [inFloatRange, floatMax]
  intro h
  have := ((scale_divisor_zero_iff _ (by simp) hr).2.2.1 h) ⟨0, 0, 0⟩ (by simp) ⟨0, 1, 0⟩
    (by simp)
  simp at this

namespace Tree

/-- **C12.** With the real power function for `powf` and `treeSubdivisions >= 1`:
`trunkThickness = 0.5 * 1.3^iterations > 0`, `0 < branchScalar < 1`, `0 < depthScalar < 1`,
`getBranchThickness(b, n) = trunkThickness * branchScalar^b * depthScalar^n`, and the thickness
does not increase along a root-to-tip path: for `b1 <= b2` and `n1 <= n2`,
`getBranchThickness(b2, n2) <= getBranchThickness(b1, n1)`. -/
theorem thickness_non_increasing (treeIterations treeSubdivisions : Int)
    (hsub : 1 ≤ treeSubdivisions) (b1 b2 n1 n2 : Int) (hb1 : 0 ≤ b1) (hb : b1 ≤ b2)
    (hn1 : 0 ≤ n1) (hn : n1 ≤ n2) :
    trunkThickness (fun x y : ℝ => x ^ y) treeIterations
      = (1 / 2) * (13 / 10 : ℝ) ^ treeIterations ∧
    0 < trunkThickness (fun x y : ℝ => x ^ y) treeIterations ∧
    (0 < (branchScalar : ℝ) ∧ (branchScalar : ℝ) < 1) ∧
    (0 < depthScalar (fun x y : ℝ => x ^ y) treeSubdivisions ∧
      depthScalar (fun x y : ℝ => x ^ y) treeSubdivisions < 1) ∧
    getBranchThickness (fun x y : ℝ => x ^ y) treeIterations treeSubdivisions b2 n2
      = trunkThickness (fun x y : ℝ => x ^ y) treeIterations * (branchScalar : ℝ) ^ b2.toNat
          * depthScalar (fun x y : ℝ => x ^ y) treeSubdivisions ^ n2.toNat ∧
    getBranchThickness (fun x y : ℝ => x ^ y) treeIterations treeSubdivisions b2 n2
      ≤ getBranchThickness (fun x y : ℝ => x ^ y) treeIterations treeSubdivisions b1 n1 := by
  have hT : 0 < trunkThickness (fun x y : ℝ => x ^ y) treeIterations := by
    simp only [trunkThickness]
    have : (0 : ℝ) < (13 / 10 : ℝ) ^ ((treeIterations : ℝ)) :=
      Real.rpow_pos_of_pos (by norm_num) _
    positivity
  have hbs : 0 < (branchScalar : ℝ) ∧ (branchScalar : ℝ) < 1 := by
    simp only [branchScalar]
    constructor <;> norm_num
  have hsr : (0 : ℝ) < 1 / (treeSubdivisions : ℝ) := by
    have : (1 : ℝ) ≤ (treeSubdivisions : ℝ) := by exact_mod_cast hsub
    positivity
  have hds : 0 < depthScalar (fun x y : ℝ => x ^ y) treeSubdivisions ∧
      depthScalar (fun x y : ℝ => x ^ y) treeSubdivisions < 1 := by
    simp only [depthScalar]
    exact ⟨Real.rpow_pos_of_pos (by norm_num) _,
      Real.rpow_lt_one (by norm_num) (by norm_num) hsr⟩
  refine ⟨?_, hT, hbs, hds, ?_, ?_⟩
  · simp only [trunkThickness]
    rw [Real.rpow_intCast]
  · simp only [getBranchThickness]
    have e1 : ((b2 : Int) : ℝ) = ((b2.toNat : Nat) : ℝ) := by
      have : (b2.toNat : Int) = b2 := Int.toNat_of_nonneg (hb1.trans hb)
      exact_mod_cast this.symm
    have e2 : ((n2 : Int) : ℝ) = ((n2.toNat : Nat) : ℝ) := by
      have : (n2.toNat : Int) = n2 := Int.toNat_of_nonneg (hn1.trans hn)
      exact_mod_cast this.symm
    rw [e1, e2, Real.rpow_natCast, Real.rpow_natCast]
  · simp only [getBranchThickness]
    have hb2 : (branchScalar : ℝ) ^ ((b2 : ℝ)) ≤ (branchScalar : ℝ) ^ ((b1 : ℝ)) :=
      Real.rpow_le_rpow_of_exponent_ge hbs.1 hbs.2.le (by exact_mod_cast hb)
    have hn2 : depthScalar (fun x y : ℝ => x ^ y) treeSubdivisions ^ ((n2 : ℝ))
        ≤ depthScalar (fun x y : ℝ => x ^ y) treeSubdivisions ^ ((n1 : ℝ)) :=
      Real.rpow_le_rpow_of_exponent_ge hds.1 hds.2.le (by exact_mod_cast hn)
    have p1 : 0 ≤ depthScalar (fun x y : ℝ => x ^ y) treeSubdivisions ^ ((n2 : ℝ)) :=
      (Real.rpow_pos_of_pos hds.1 _).le
    have p2 : 0 ≤ (branchScalar : ℝ) ^ ((b1 : ℝ)) := (Real.rpow_pos_of_pos hbs.1 _).le
    exact mul_le_mul (mul_le_mul_of_nonneg_left hb2 hT.le) hn2 p1
      (mul_nonneg hT.le p2)

theorem thickness_non_increasing_witness :
    getBranchThickness (fun x y : ℝ => x ^ y) 5 3 1 2
      ≤ getBranchThickness (fun x y : ℝ => x ^ y) 5 3 0 1 :=
  (thickness_non_increasing 5 3 (by decide) 0 1 1 2 (by decide) (by decide) (by decide)
    (by decide)).2.2.2.2.2

end Tree

/-- With `jitter = 0` a round of `createGeometry` neither reads nor writes the generator. -/
theorem turtleStep_rng_irrelevant (m : MathOps K) (angle : K) (t : Turtle K) (g : Rng K)
    (c : Char) :
    turtleStep m angle 0 { t with rng := g } c = { turtleStep m angle 0 t c with rng := g } := by
  by_cases c1 : c.toLower = 'f' ∨ c.toLower = 'g'
  · rw [turtleStep_draw m angle 0 t c c1, turtleStep_draw m angle 0 _ c c1]
  by_cases c2 : c.toLower = 's'
  · rw [turtleStep_move m angle 0 t c c1 c2, turtleStep_move m angle 0 _ c c1 c2]
  by_cases c3 : c = '+'
  · subst c3
    simp only [turtleStep_yaw_left, currAngle_zero]
  by_cases c4 : c = '-'
  · subst c4
    simp only [turtleStep_yaw_right, currAngle_zero]
  by_cases c5 : c = '&'
  · subst c5
    simp only [turtleStep_pitch_down, currAngle_zero]
  by_cases c6 : c = '^'
  · subst c6
    simp only [turtleStep_pitch_up, currAngle_zero]
  by_cases c7 : c = '/'
  · subst c7
    simp only [turtleStep_roll_left, currAngle_zero]
  by_cases c8 : c = '\\'
  · subst c8
    simp only [turtleStep_roll_right, currAngle_zero]
  by_cases c9 : c = '|'
  · subst c9
    simp only [turtleStep_turn_around]
  by_cases c10 : c = '['
  · subst c10
    simp only [turtleStep_push]
  by_cases c11 : c = ']'
  · subst c11
    obtain ⟨verts, cur, stack, rng⟩ := t
    cases stack with
    | nil =>
      rw [turtleStep_pop_nil m angle 0 ⟨verts, cur, [], rng⟩ rfl,
        turtleStep_pop_nil m angle 0 ⟨verts, cur, [], g⟩ rfl]
    | cons top rest =>
      rw [turtleStep_pop_cons m angle 0 ⟨verts, cur, top :: rest, rng⟩ top rest rfl,
        turtleStep_pop_cons m angle 0 ⟨verts, cur, top :: rest, g⟩ top rest rfl]
  · rw [turtleStep_ignored m angle 0 t c c1 c2 c3 c4 c5 c6 c7 c8 c9 c10 c11,
      turtleStep_ignored m angle 0 _ c c1 c2 c3 c4 c5 c6 c7 c8 c9 c10 c11]

theorem turtleRun_rng_irrelevant (m : MathOps K) (angle : K) (s : List Char) :
    ∀ (t : Turtle K) (g : Rng K),
      turtleRun m angle 0 { t with rng := g } s = { turtleRun m angle 0 t s with rng := g } := by
  induction s with
  | nil => intro t g; rfl
  | cons c cs ih =>
    intro t g
    rw [turtleRun_cons, turtleRun_cons, turtleStep_rng_irrelevant, ih]

/-- **C29.** When `jitter = 0`, `createGeometry` draws no random number: the generator state
after the call is the state before it, and the vertex list is the same whatever the state of
the generator, for every string and angle. -/
theorem createGeometry_no_jitter_no_draw (m : MathOps K) (angle : K) (s : List Char) :
    (∀ g : Rng K, (createGeometry m angle 0 s g).2 = g) ∧
    (∀ g g2 : Rng K, (createGeometry m angle 0 s g).1 = (createGeometry m angle 0 s g2).1) := by
  have key : ∀ g g2 : Rng K, turtleRun m angle 0 (Turtle.initial g) s
      = { turtleRun m angle 0 (Turtle.initial g2) s with rng := g } := by
    intro g g2
    exact turtleRun_rng_irrelevant m angle s (Turtle.initial g2) g
  constructor
  · intro g
    simp only [createGeometry]
    rw [key g g]
  · intro g g2
    simp only [createGeometry]
    rw [key g g2]

/-- Counterexample to C21 as stated: on the object left by the constructor (no string yet)
`iterate()` returns normally, with value 0, and `getNumIter()` stays 0 instead of growing
by 1. -/
theorem iterate_on_fresh_object :
    iterate sampleOps (LSystem.create 0 halfRng) = (.ok 0, LSystem.create 0 halfRng) ∧
    getNumIter (iterate sampleOps (LSystem.create 0 halfRng)).2
      = getNumIter (LSystem.create 0 halfRng) := by
  have h := iterate_eq_of_empty sampleOps (LSystem.create 0 halfRng) rfl
  exact ⟨h, by rw [h]⟩

/-- **C21 (amended).** On an object that holds at least one string, a successful `iterate()`
only appends: every string and every record already there is unchanged, `getNumIter()` grows by
exactly 1, the returned value is the new `getNumIter()`, one record is added, the new string is
`applyRules` of the last one and the new record's `count` is the number of vertices of the new
string, its `first` the end of the last record. On an object without a string `iterate()`
returns 0 and changes nothing. -/
theorem iterate_appends (m : MathOps K) (st : LSystem K) :
    (st.strings = [] → iterate m st = (.ok 0, st)) ∧
    (∀ (n : Nat) (st1 : LSystem K), st.strings ≠ [] → iterate m st = (.ok n, st1) →
      (∀ i, i < getNumIter st → getString st1 i = getString st i) ∧
      (∀ i, i < st.iterData.length → st1.iterData.get? i = st.iterData.get? i) ∧
      getNumIter st1 = getNumIter st + 1 ∧
      n = getNumIter st1 ∧
      st1.iterData.length = st.iterData.length + 1 ∧
      (∃ back, st.strings.getLast? = some back ∧
        getString st1 (getNumIter st) = some (applyRules st.rules back st.rng).1 ∧
        st1.iterData.getLast?.map (fun d => (d.first, d.count))
          = some (usedVerts st.iterData,
              (createGeometry m st.angle st.jitter (applyRules st.rules back st.rng).1
                (applyRules st.rules back st.rng).2).1.length))) := by
  refine ⟨iterate_eq_of_empty m st, ?_⟩
  intro n st1 hne h
  cases hb : st.strings.getLast? with
  | none => exact absurd (List.getLast?_eq_none_iff.1 hb) hne
  | some back =>
    by_cases hc : (usedVerts st.iterData + (nextVerts m st back).length) * sizeofVec3 > MAX_BUF
    · rw [iterate_eq_of_exceeds m st back hb hc] at h
      simp at h
    · rw [iterate_eq_of_fits m st back hb hc] at h
      simp only [Prod.mk.injEq, Except.ok.injEq] at h
      obtain ⟨hn, hst⟩ := h
      subst hst
      subst hn
      simp only [addVerts, getNumIter, getString, List.length_append, List.length_singleton]
      refine ⟨?_, ?_, trivial, trivial, trivial, back, rfl, ?_, ?_⟩
      · intro i hi
        rw [List.get?_eq_getElem?, List.get?_eq_getElem?]
        exact List.getElem?_append_left hi
      · intro i hi
        rw [List.get?_eq_getElem?, List.get?_eq_getElem?]
        exact List.getElem?_append_left hi
      · simp [nextString]
      · simp [nextVerts]

theorem iterate_appends_witness :
    getNumIter (iterate sampleOps
        (parseCommit sampleOps (LSystem.create 0 halfRng) 90 0 1 "F".toList [])).2
      = getNumIter (parseCommit sampleOps (LSystem.create 0 halfRng) 90 0 1 "F".toList []) + 1 := by
  have hp := parseCommit_once sampleOps (LSystem.create 0 halfRng) 90 0 "F".toList []
  have hne : (parseCommit sampleOps (LSystem.create 0 halfRng) 90 0 1 "F".toList []).strings
      ≠ [] := by rw [hp.1]; simp
  have h1 : (iterate sampleOps
      (parseCommit sampleOps (LSystem.create 0 halfRng) 90 0 1 "F".toList [])).1 = .ok 2 := by
    simp [iterate, parseCommit, iterateLoop, addVerts, LSystem.create,
      createGeometry, turtleRun, turtleStep, Turtle.initial, applyRules, applyRulesStep,
      equalRange, usedVerts, MAX_BUF, sizeofVec3, getNumIter]
  exact ((iterate_appends sampleOps _).2 2 _ hne (Prod.ext h1 rfl)).2.2.1

theorem getNextLine_exhausted :
    getNextLine ⟨[], false, false, false⟩ = (.diverges, ⟨[], true, true, false⟩) := by
  simp [getNextLine, getNextLineLoop, getline]

/-- A round of the loop of `getNextLine` on a failed stream without `exceptions` ends where it
started: `line` is still empty and the stream is the same, so the loop goes on for ever. -/
theorem getNextLine_round_fixed (istr : IStream) (hf : istr.failbit = true) :
    getline istr [] = ([], istr) ∧ trim (cutComment (getline istr []).1) = [] := by
  have h : getline istr [] = ([], istr) := by
    obtain ⟨rest, eofbit, failbit, throwing⟩ := istr
    simp only at hf
    subst hf
    simp [getline]
  rw [h]
  refine ⟨rfl, ?_⟩
  show trim (cutComment []) = []
  decide

theorem parseFields_short (stof : List Char → Option K) (ls : List (List Char))
    (hc : ∀ l ∈ ls, Clean l) (hlen : ls.length < 3) :
    parseFields stof (IStream.ofString (unlines ls))
      = (match ls with
          | [_, i] =>
            (match stoi i with
              | .error what => .throws what
              | .ok _ => .diverges)
          | _ => .diverges) := by
  match ls, hc, hlen with
  | [], _, _ =>
    simp only [parseFields, IStream.ofString, unlines, List.flatMap_nil, getNextLine_exhausted]
  | [a], hc, _ =>
    have ha : Clean a := hc a (by simp)
    have e : unlines [a] = a ++ '\n' :: [] := by simp [unlines]
    simp only [parseFields, IStream.ofString, e, getNextLine_clean a [] false ha,
      getNextLine_exhausted]
  | [a, i], hc, _ =>
    have ha : Clean a := hc a (by simp)
    have hi : Clean i := hc i (by simp)
    have e : unlines [a, i] = a ++ '\n' :: (i ++ '\n' :: []) := by simp [unlines]
    simp only [parseFields, IStream.ofString, e, getNextLine_clean a _ false ha,
      getNextLine_clean i [] false hi, getNextLine_exhausted]
  | _ :: _ :: _ :: _, _, hlen => simp at hlen; omega

theorem parseString_short (m : MathOps K) (stof : List Char → Option K) (st : LSystem K)
    (text : List Char) (hlen : (cleanLines text).length < 3) :
    parseString m stof st text
      = (match cleanLines text with
          | [_, i] =>
            (match stoi i with
              | .error what => (.throws what, st)
              | .ok _ => (.diverges, st))
          | _ => (.diverges, st)) := by
  have hc : ∀ l ∈ cleanLines text, Clean l := fun l hl => clean_of_mem_cleanLines text l hl
  simp only [parseString, preprocessStream_ofString, parse]
  generalize cleanLines text = ls at hc hlen
  rw [parseFields_short stof ls hc hlen]
  match ls, hlen with
  | [], _ => rfl
  | [a], _ => rfl
  | [a, i], _ => simp only; cases stoi i <;> rfl
  | _ :: _ :: _ :: _, hlen => simp at hlen; omega

/-- With three content lines or more `parseString` ends: it returns or throws. -/
theorem parseString_ends_of_three_lines (m : MathOps K) (stof : List Char → Option K)
    (st : LSystem K) (text a i x : List Char) (rs : List (List Char))
    (h : cleanLines text = a :: i :: x :: rs) :
    (parseString m stof st text).1 ≠ .diverges := by
  rw [parseString_lines m stof st text a i x rs h]
  cases stoi i with
  | error what => simp
  | ok n =>
    cases readRules stof rs with
    | error what => simp
    | ok rules =>
      cases parseAngle stof a with
      | error what => simp
      | ok p => simp

/-- **C28 (the code's behaviour).** On a description with fewer than three content lines
`parseString` never returns, unless there are exactly two and `std::stoi` rejects the second:
`parse` calls `getNextLine` on its `std::stringstream`, for which `exceptions` is not set, so
at the end of the text `std::getline` fails without throwing and the loop `while (line == "")`
goes round in the same state for ever. -/
theorem parseString_hangs_on_short_description (m : MathOps K) (stof : List Char → Option K)
    (st : LSystem K) (text : List Char) (hlen : (cleanLines text).length < 3)
    (hstoi : ∀ a i, cleanLines text = [a, i] → ∃ n, stoi i = .ok n) :
    parseString m stof st text = (.diverges, st) ∧
    (∀ istr : IStream, istr.failbit = true →
      getline istr [] = ([], istr) ∧ trim (cutComment (getline istr []).1) = []) := by
  refine ⟨?_, getNextLine_round_fixed⟩
  rw [parseString_short m stof st text hlen]
  match h : cleanLines text with
  | [] => rfl
  | [a] => rfl
  | [a, i] =>
    obtain ⟨n, hn⟩ := hstoi a i h
    simp only [hn]
  | _ :: _ :: _ :: _ => rfl

theorem parseString_hangs_on_short_description_witness :
    parseString sampleOps stofDecimal (LSystem.create 0 halfRng) []
      = (.diverges, LSystem.create 0 halfRng) :=
  (parseString_hangs_on_short_description sampleOps stofDecimal (LSystem.create 0 halfRng) []
    (by decide) (fun a i h => by
      have e : cleanLines ([] : List Char) = [] := by decide
      rw [e] at h
      simp at h)).1

namespace Tree

theorem truncToInt_of_nonneg [FloorRing K] (x : K) (h : 0 ≤ x) : truncToInt x = Int.floor x := by
  simp [truncToInt, h]

theorem floor_thirtytwo_div (n : Nat) :
    Int.floor ((32 : ℝ) / 2 ^ n) = ((32 / 2 ^ n : Nat) : Int) := by
  have h := Nat.floor_div_eq_div (α := ℝ) 32 (2 ^ n)
  have h0 : (0 : ℝ) ≤ (32 : ℝ) / 2 ^ n := by positivity
  rw [← Int.natCast_floor_eq_floor h0]
  push_cast at h
  rw [h]

theorem getCylinderDivisions_nat (n : Nat) :
    getCylinderDivisions (fun x y : ℝ => x ^ y) (n : Int)
      = if ((32 / 2 ^ n : Nat) : Int) < 4 then 6 else ((32 / 2 ^ n : Nat) : Int) := by
  have h0 : (0 : ℝ) ≤ (32 : ℝ) / 2 ^ n := by positivity
  simp only [getCylinderDivisions, trunkCylinderDivisions]
  have e : ((32 : Int) : ℝ) / (2 : ℝ) ^ (((n : Int) : ℝ)) = (32 : ℝ) / 2 ^ n := by
    rw [Int.cast_natCast, Real.rpow_natCast]
    norm_num
  rw [e, truncToInt_of_nonneg _ h0, floor_thirtytwo_div]

/-- Counterexample to C22 as stated: at branch depth 3 the code returns 4 ring divisions,
while `max(6, floor(32 / 2^3))` is 6. -/
theorem getCylinderDivisions_depth_three :
    getCylinderDivisions (fun x y : ℝ => x ^ y) 3 = 4 ∧
    max 6 (Int.floor ((32 : ℝ) / 2 ^ 3)) = 6 := by
  constructor
  · have h := getCylinderDivisions_nat 3
    norm_num at h
    exact h
  · rw [floor_thirtytwo_div 3]
    norm_num

/-- **C22 (amended).** For every branch depth `d >= 0`, `getCylinderDivisions(d)` is
`floor(32 / 2^d)` when that is at least 4, and 6 otherwise: 32, 16, 8, 4 for `d = 0, 1, 2, 3`
and 6 for every `d >= 4`. -/
theorem getCylinderDivisions_values (d : Int) (hd : 0 ≤ d) :
    getCylinderDivisions (fun x y : ℝ => x ^ y) d
      = (if Int.floor ((32 : ℝ) / 2 ^ d.toNat) < 4 then 6
          else Int.floor ((32 : ℝ) / 2 ^ d.toNat)) ∧
    (d = 0 → getCylinderDivisions (fun x y : ℝ => x ^ y) d = 32) ∧
    (d = 1 → getCylinderDivisions (fun x y : ℝ => x ^ y) d = 16) ∧
    (d = 2 → getCylinderDivisions (fun x y : ℝ => x ^ y) d = 8) ∧
    (d = 3 → getCylinderDivisions (fun x y : ℝ => x ^ y) d = 4) ∧
    (4 ≤ d → getCylinderDivisions (fun x y : ℝ => x ^ y) d = 6) := by
  obtain ⟨n, rfl⟩ := Int.eq_ofNat_of_zero_le hd
  rw [getCylinderDivisions_nat n, Int.toNat_natCast, floor_thirtytwo_div]
  refine ⟨rfl, ?_, ?_, ?_, ?_, ?_⟩
  · intro h
    have : n = 0 := by exact_mod_cast h
    subst this
    norm_num
  · intro h
    have : n = 1 := by exact_mod_cast h
    subst this
    norm_num
  · intro h
    have : n = 2 := by exact_mod_cast h
    subst this
    norm_num
  · intro h
    have : n = 3 := by exact_mod_cast h
    subst this
    norm_num
  · intro h
    have h4 : 4 ≤ n := by exact_mod_cast h
    have hp : 2 ^ 4 ≤ 2 ^ n := Nat.pow_le_pow_right (by norm_num) h4
    have hq : 32 / 2 ^ n ≤ 32 / 2 ^ 4 := Nat.div_le_div_left hp (by norm_num)
    have hq2 : 32 / 2 ^ n ≤ 2 := by simpa using hq
    have : ((32 / 2 ^ n : Nat) : Int) < 4 := by exact_mod_cast (by omega : 32 / 2 ^ n < 4)
    rw [if_pos this]

theorem getCylinderDivisions_values_witness :
    getCylinderDivisions (fun x y : ℝ => x ^ y) 5 = 6 :=
  (getCylinderDivisions_values 5 (by decide)).2.2.2.2.2 (by decide)

end Tree

namespace Tree

theorem blendThickness_eq (t : K) (depth sub : Int) :
    blendThickness t depth sub = t * (19 / 10 - 9 / 10 * blendAlpha depth sub) := by
  simp only [blendThickness, mix, branchScalar]
  field_simp
  ring

theorem blendAlpha_range (depth sub : Int) (hd : 0 ≤ depth) (hlt : depth < sub - 1) :
    0 ≤ (blendAlpha depth sub : K) ∧ (blendAlpha depth sub : K) < 1 := by
  have hs : (0 : K) < (sub : K) := by
    have : (0 : Int) < sub := by omega
    exact_mod_cast this
  have hd2 : (0 : K) ≤ (depth : K) := by exact_mod_cast hd
  have hlt2 : (depth : K) < (sub : K) := by
    have : depth < sub := by omega
    exact_mod_cast this
  simp only [blendAlpha]
  exact ⟨div_nonneg hd2 hs.le, (div_lt_one hs).2 hlt2⟩

/-- **C23.** In the root-blend region (node index `0 <= depth < treeSubdivisions - 1`,
`blendAlpha = depth / treeSubdivisions`, `branchScalar = 0.4`) the ring thickness
`mix(t / branchScalar, t, 0.4 + 0.6 * blendAlpha)` equals `t * (1.9 - 0.9 * blendAlpha)` for
nominal thickness `t > 0`; it lies strictly between `t` and `t / branchScalar`, and it does not
increase when `blendAlpha` (the node index) grows. -/
theorem blendThickness_between (t : K) (ht : 0 < t) (depth sub : Int) (hd : 0 ≤ depth)
    (hlt : depth < sub - 1) :
    blendThickness t depth sub
      = mix (t / branchScalar) t (2 / 5 + 3 / 5 * blendAlpha depth sub) ∧
    blendThickness t depth sub = t * (19 / 10 - 9 / 10 * blendAlpha depth sub) ∧
    t < blendThickness t depth sub ∧
    blendThickness t depth sub < t / branchScalar ∧
    (∀ a b : K, a ≤ b →
      mix (t / branchScalar) t (2 / 5 + 3 / 5 * b)
        ≤ mix (t / branchScalar) t (2 / 5 + 3 / 5 * a)) ∧
    (∀ depth2 : Int, depth ≤ depth2 →
      blendThickness t depth2 sub ≤ blendThickness t depth sub) := by
  obtain ⟨h0, h1⟩ := blendAlpha_range (K := K) depth sub hd hlt
  have hs : (0 : K) < (sub : K) := by
    have : (0 : Int) < sub := by omega
    exact_mod_cast this
  refine ⟨rfl, blendThickness_eq t depth sub, ?_, ?_, ?_, ?_⟩
  · rw [blendThickness_eq]
    nlinarith
  · rw [blendThickness_eq]
    simp only [branchScalar]
    rw [lt_div_iff₀ (by norm_num)]
    nlinarith
  · intro a b hab
    simp only [mix, branchScalar]
    have e : ∀ c : K, t / (2 / 5) * (1 - (2 / 5 + 3 / 5 * c)) + t * (2 / 5 + 3 / 5 * c)
        = t * (19 / 10 - 9 / 10 * c) := by
      intro c
      field_simp
      ring
    rw [e, e]
    nlinarith
  · intro depth2 h2
    rw [blendThickness_eq, blendThickness_eq]
    have hle : (blendAlpha depth sub : K) ≤ blendAlpha depth2 sub := by
      simp only [blendAlpha]
      have : (depth : K) ≤ (depth2 : K) := by exact_mod_cast h2
      exact div_le_div_of_nonneg_right this hs.le
    nlinarith

theorem blendThickness_between_witness :
    (1 : ℚ) < blendThickness 1 1 3 ∧ blendThickness (1 : ℚ) 1 3 < 1 / branchScalar :=
  ⟨(blendThickness_between (1 : ℚ) (by norm_num) 1 3 (by decide) (by decide)).2.2.1,
   (blendThickness_between (1 : ℚ) (by norm_num) 1 3 (by decide) (by decide)).2.2.2.1⟩

end Tree

namespace Tree

theorem pruningChance_eq (n : Int) (hn : 1 ≤ n) :
    (pruningChance n : K) = ((n : K) - 1) / ((n : K) + 1) := by
  have h1 : (1 : K) ≤ (n : K) := by exact_mod_cast hn
  have h2 : (1 : K) + (n : K) ≠ 0 := by positivity
  have h3 : (n : K) + 1 ≠ 0 := by positivity
  simp only [pruningChance, growthCurve]
  field_simp
  ring

theorem pruningChance_range (n : Int) (hn : 1 ≤ n) :
    (0 : K) ≤ pruningChance n ∧ (pruningChance n : K) < 1 := by
  have h1 : (1 : K) ≤ (n : K) := by exact_mod_cast hn
  have h3 : (0 : K) < (n : K) + 1 := by positivity
  rw [pruningChance_eq n hn]
  exact ⟨div_nonneg (by linarith) h3.le, (div_lt_one h3).2 (by linarith)⟩

theorem pruningChance_mono (n k : Int) (hn : 1 ≤ n) (hnk : n ≤ k) :
    (pruningChance n : K) ≤ pruningChance k := by
  have h1 : (1 : K) ≤ (n : K) := by exact_mod_cast hn
  have h2 : (n : K) ≤ (k : K) := by exact_mod_cast hnk
  rw [pruningChance_eq n hn, pruningChance_eq k (hn.trans hnk)]
  rw [div_le_div_iff₀ (by positivity) (by linarith)]
  nlinarith

/-- For `treeIterations >= 1` the truncated value is the floor of `20 * pruningChance`, which
lies between 0 and 19, and the guard against zero does not fire. -/
theorem leavesPerBranch_eq [FloorRing K] (n : Int) (hn : 1 ≤ n) :
    leavesPerBranch K n = 25 - Int.floor ((20 : K) * pruningChance n) ∧
    0 ≤ Int.floor ((20 : K) * pruningChance n) ∧
    Int.floor ((20 : K) * pruningChance n) ≤ 19 := by
  obtain ⟨p0, p1⟩ := pruningChance_range (K := K) n hn
  have h0 : (0 : K) ≤ 20 * pruningChance n := by positivity
  have hlo : 0 ≤ Int.floor ((20 : K) * pruningChance n) := Int.floor_nonneg.2 h0
  have hhi : Int.floor ((20 : K) * pruningChance n) < 20 := by
    rw [Int.floor_lt]
    push_cast
    linarith
  have e : leavesPerBranch K n
      = (if 25 - Int.floor ((20 : K) * pruningChance n) = 0 then 1
          else 25 - Int.floor ((20 : K) * pruningChance n)) := by
    simp only [leavesPerBranch, pruningChance] at h0 ⊢
    rw [truncToInt_of_nonneg _ h0]
  rw [e, if_neg (by omega)]
  exact ⟨rfl, hlo, by omega⟩

/-- Counterexample to C26 as stated: one iteration gives 25 leaves per node, two iterations
give 19. -/
theorem leavesPerBranch_one_two :
    leavesPerBranch ℚ 1 = 25 ∧ leavesPerBranch ℚ 2 = 19 ∧
    ¬ (leavesPerBranch ℚ 1 ≤ leavesPerBranch ℚ 2) := by
  have h1 : leavesPerBranch ℚ 1 = 25 := by
    rw [(leavesPerBranch_eq (K := ℚ) 1 (by decide)).1, pruningChance_eq 1 (by decide)]
    norm_num
  have h2 : leavesPerBranch ℚ 2 = 19 := by
    rw [(leavesPerBranch_eq (K := ℚ) 2 (by decide)).1, pruningChance_eq 2 (by decide)]
    have : Int.floor ((20 : ℚ) * ((((2 : Int) : ℚ) - 1) / (((2 : Int) : ℚ) + 1))) = 6 := by
      rw [Int.floor_eq_iff]
      norm_num
    rw [this]
    norm_num
  refine ⟨h1, h2, ?_⟩
  rw [h1, h2]
  decide

/-- **C26 (amended).** The per-node leaf count `leavesPerBranch` computed from
`growthCurve = iterations / (1 + iterations)` is non-increasing in `treeIterations`: for all
`1 <= n <= m`, `leavesPerBranch(m) <= leavesPerBranch(n)` (it falls from 25 towards 6), while
the pruning chance is non-decreasing. -/
theorem leavesPerBranch_non_increasing [FloorRing K] (n k : Int) (hn : 1 ≤ n) (hnk : n ≤ k) :
    leavesPerBranch K k ≤ leavesPerBranch K n ∧
    (pruningChance n : K) ≤ pruningChance k := by
  have hm := pruningChance_mono (K := K) n k hn hnk
  refine ⟨?_, hm⟩
  rw [(leavesPerBranch_eq (K := K) n hn).1, (leavesPerBranch_eq (K := K) k (hn.trans hnk)).1]
  have : Int.floor ((20 : K) * pruningChance n) ≤ Int.floor ((20 : K) * pruningChance k) :=
    Int.floor_mono (by linarith)
  omega

theorem leavesPerBranch_non_increasing_witness :
    leavesPerBranch ℚ 5 ≤ leavesPerBranch ℚ 2 :=
  (leavesPerBranch_non_increasing (K := ℚ) 2 5 (by decide) (by decide)).1

/-- **C30.** For every `treeIterations = n >= 1`, in exact arithmetic:
`pruningChance = (n - 1) / (n + 1)` lies in `[0, 1)`, `leavesPerBranch = 25 - trunc(20 * (n - 1)
/ (n + 1))` lies in `[6, 25]`, the guard `leavesPerBranch == 0` never fires, and the divisor of
`stepSize = length / leavesPerBranch` is not zero. -/
theorem leaf_parameters_in_range [FloorRing K] (n : Int) (hn : 1 ≤ n) :
    (pruningChance n : K) = ((n : K) - 1) / ((n : K) + 1) ∧
    ((0 : K) ≤ pruningChance n ∧ (pruningChance n : K) < 1) ∧
    leavesPerBranch K n = 25 - truncToInt ((20 : K) * (((n : K) - 1) / ((n : K) + 1))) ∧
    (6 ≤ leavesPerBranch K n ∧ leavesPerBranch K n ≤ 25) ∧
    25 - truncToInt ((20 : K) * (growthCurve n * 2 - 1)) ≠ 0 ∧
    ((leavesPerBranch K n : Int) : K) ≠ 0 ∧
    (∀ length : K, stepSize length n * ((leavesPerBranch K n : Int) : K) = length) := by
  obtain ⟨e, hlo, hhi⟩ := leavesPerBranch_eq (K := K) n hn
  obtain ⟨p0, p1⟩ := pruningChance_range (K := K) n hn
  have h0 : (0 : K) ≤ 20 * pruningChance n := by positivity
  have hne : ((leavesPerBranch K n : Int) : K) ≠ 0 := by
    have : leavesPerBranch K n ≠ 0 := by rw [e]; omega
    exact_mod_cast this
  refine ⟨pruningChance_eq n hn, ⟨p0, p1⟩, ?_, ?_, ?_, hne, ?_⟩
  · rw [e, ← pruningChance_eq n hn, truncToInt_of_nonneg _ h0]
  · rw [e]
    constructor <;> omega
  · have h0b : (0 : K) ≤ 20 * (growthCurve n * 2 - 1) := h0
    rw [truncToInt_of_nonneg _ h0b]
    have : Int.floor ((20 : K) * (growthCurve n * 2 - 1))
        = Int.floor ((20 : K) * pruningChance n) := rfl
    omega
  · intro length
    simp only [stepSize]
    exact div_mul_cancel₀ _ hne

theorem leaf_parameters_in_range_witness :
    6 ≤ leavesPerBranch ℚ 5 ∧ leavesPerBranch ℚ 5 ≤ 25 :=
  (leaf_parameters_in_range (K := ℚ) 5 (by decide)).2.2.2.1

end Tree

theorem parseCommit_strings (m : MathOps K) (st : LSystem K) (inAngle inJitter : K)
    (inIters : Nat) (inText : List Char) (inRules : Rules K) :
    ∃ ext, (parseCommit m st inAngle inJitter inIters inText inRules).strings
      = inText :: ext := by
  unfold parseCommit
  have hs2 : (addVerts { st with
        angle := inAngle, jitter := inJitter, strings := [inText], rules := inRules,
        iterData := [], rng := (createGeometry m inAngle inJitter inText st.rng).2 }
      (createGeometry m inAngle inJitter inText st.rng).1).strings = [inText] := by
    simp [addVerts]
  obtain ⟨_, ⟨ext, i2⟩, _⟩ := iterateLoop_spec m inIters (inIters - 1)
    (addVerts { st with
        angle := inAngle, jitter := inJitter, strings := [inText], rules := inRules,
        iterData := [], rng := (createGeometry m inAngle inJitter inText st.rng).2 }
      (createGeometry m inAngle inJitter inText st.rng).1) (by rw [hs2]; simp)
    (by rw [hs2]; simp)
  rw [hs2] at i2
  exact ⟨ext, i2⟩

/-- How a call of `parseFile` can end: with an exception or without returning, the object
untouched, or normally with the object committed by the second half of `parse`. -/
theorem parseFile_cases (m : MathOps K) (stof : List Char → Option K)
    (files : List Char → Option (List Char)) (st : LSystem K) (filename : List Char) :
    (∃ what, parseFile m stof files st filename = (.throws what, st)) ∨
    parseFile m stof files st filename = (.diverges, st) ∨
    (∃ f : Fields K, parseFile m stof files st filename
      = (.ok (), parseCommit m st f.inAngle f.inJitter f.inIters f.inText f.inRules)) := by
  unfold parseFile
  cases files filename with
  | none => exact Or.inl ⟨_, rfl⟩
  | some text =>
    simp only [parseString]
    cases preprocessStream (IStream.ofString text) with
    | throws what => exact Or.inl ⟨what, rfl⟩
    | diverges => exact Or.inr (Or.inl rfl)
    | ok ss =>
      simp only [parse]
      cases parseFields stof (IStream.ofString ss) with
      | throws what => exact Or.inl ⟨what, rfl⟩
      | diverges => exact Or.inr (Or.inl rfl)
      | ok f => exact Or.inr (Or.inr ⟨f, rfl⟩)

theorem lastIter_lt (st : LSystem K) (h : 0 < getNumIter st) : lastIter st < getNumIter st := by
  unfold lastIter
  have e : getNumIter st + 2 ^ 32 - 1 = (getNumIter st - 1) + 2 ^ 32 := by omega
  rw [e, Nat.add_mod_right]
  have := Nat.mod_le (getNumIter st - 1) (2 ^ 32)
  omega

theorem getNumIter_parseCommit_pos (m : MathOps K) (st : LSystem K) (inAngle inJitter : K)
    (inIters : Nat) (inText : List Char) (inRules : Rules K) :
    0 < getNumIter (parseCommit m st inAngle inJitter inIters inText inRules) := by
  obtain ⟨ext, h⟩ := parseCommit_strings m st inAngle inJitter inIters inText inRules
  simp [getNumIter, h]

theorem iterate_error_keeps (m : MathOps K) (st st1 : LSystem K) (e : String)
    (h : iterate m st = (.error e, st1)) :
    st1.strings = st.strings ∧ st1.iterData = st.iterData := by
  cases hb : st.strings.getLast? with
  | none =>
    rw [iterate_eq_of_empty m st (List.getLast?_eq_none_iff.1 hb)] at h
    simp at h
  | some back =>
    by_cases hc : (usedVerts st.iterData + (nextVerts m st back).length) * sizeofVec3 > MAX_BUF
    · rw [iterate_eq_of_exceeds m st back hb hc] at h
      simp only [Prod.mk.injEq] at h
      rw [← h.2]
      exact ⟨rfl, rfl⟩
    · rw [iterate_eq_of_fits m st back hb hc] at h
      simp at h

theorem viewerInv_of_parseFile (m : MathOps K) (stof : List Char → Option K)
    (files : List Char → Option (List Char)) (st : LSystem K) (filename : List Char)
    (hr : Reachable m st) :
    (∃ what, parseFile m stof files st filename = (.throws what, st)) ∨
    parseFile m stof files st filename = (.diverges, st) ∨
    (∃ st1, parseFile m stof files st filename = (.ok (), st1) ∧ Reachable m st1 ∧
      0 < getNumIter st1 ∧ lastIter st1 < getNumIter st1) := by
  rcases parseFile_cases m stof files st filename with h | h | ⟨f, h⟩
  · exact Or.inl h
  · exact Or.inr (Or.inl h)
  · refine Or.inr (Or.inr ⟨_, h, Reachable.parse st _ _ _ _ _ hr, ?_, ?_⟩)
    · exact getNumIter_parseCommit_pos ..
    · exact lastIter_lt _ (getNumIter_parseCommit_pos ..)

theorem viewerStart_inv (m : MathOps K) (stof : List Char → Option K)
    (files : List Char → Option (List Char)) (modelFilenames : List (List Char))
    (jitter : K) (g : Rng K) (configFile : List Char) (v : Viewer K)
    (h : viewerStart m stof files modelFilenames jitter g configFile = .ok v) :
    ViewerInv m v := by
  unfold viewerStart at h
  simp only at h
  by_cases c : configFile ≠ []
  · rw [if_pos c] at h
    rcases viewerInv_of_parseFile m stof files (LSystem.create jitter g) configFile
      (Reachable.create jitter g) with ⟨what, hp⟩ | hp | ⟨st1, hp, h1, h2, h3⟩
    · rw [hp] at h
      simp only [Outcome.ok.injEq] at h
      subst h
      exact ⟨Reachable.create jitter g, fun hpos => by simp [getNumIter, LSystem.create] at hpos⟩
    · rw [hp] at h
      simp at h
    · rw [hp] at h
      simp only [Outcome.ok.injEq] at h
      subst h
      exact ⟨h1, fun _ => h3⟩
  · rw [if_neg c] at h
    simp only [Outcome.ok.injEq] at h
    subst h
    exact ⟨Reachable.create jitter g, fun hpos => by simp [getNumIter, LSystem.create] at hpos⟩

theorem menu_inv (m : MathOps K) (stof : List Char → Option K)
    (files : List Char → Option (List Char)) (modelFilenames : List (List Char))
    (v v1 : Viewer K) (cmd : Int) (hv : ViewerInv m v)
    (h : menu m stof files modelFilenames v cmd = .ok v1) : ViewerInv m v1 := by
  obtain ⟨hr, hi⟩ := hv
  unfold menu at h
  by_cases c1 : cmd = MENU_EXIT
  · rw [if_pos c1] at h
    simp only [Outcome.ok.injEq] at h
    subst h
    exact ⟨hr, hi⟩
  rw [if_neg c1] at h
  by_cases c2 : cmd = MENU_PREVITER
  · rw [if_pos c2] at h
    by_cases c : v.iter ≠ 0
    · rw [if_pos c] at h
      simp only [Outcome.ok.injEq] at h
      subst h
      refine ⟨hr, fun hp => ?_⟩
      have := hi hp
      simp only
      omega
    · rw [if_neg c] at h
      simp only [Outcome.ok.injEq] at h
      subst h
      exact ⟨hr, hi⟩
  rw [if_neg c2] at h
  by_cases c3 : cmd = MENU_NEXTITER
  · rw [if_pos c3] at h
    by_cases c : getNumIter v.lsystem = 0
    · rw [if_pos c] at h
      simp only [Outcome.ok.injEq] at h
      subst h
      exact ⟨hr, hi⟩
    rw [if_neg c] at h
    have hpos : 0 < getNumIter v.lsystem := Nat.pos_of_ne_zero c
    have hlt := hi hpos
    have hmod : (v.iter + 1) % 2 ^ 32 ≤ v.iter + 1 := Nat.mod_le _ _
    by_cases cge : (v.iter + 1) % 2 ^ 32 ≥ getNumIter v.lsystem
    · rw [if_pos cge] at h
      rcases hres : iterate m v.lsystem with ⟨res, st1⟩
      rw [hres] at h
      have hst1 : st1 = (iterate m v.lsystem).2 := by rw [hres]
      have hr1 : Reachable m st1 := hst1 ▸ Reachable.iterate _ hr
      cases res with
      | ok n =>
        simp only [Outcome.ok.injEq] at h
        subst h
        refine ⟨hr1, fun _ => ?_⟩
        have hne : v.lsystem.strings ≠ [] := by
          intro he
          simp [getNumIter, he] at c
        have := iterate_ok_length m v.lsystem st1 n hne hres
        simp only [getNumIter] at hlt ⊢
        omega
      | error e =>
        simp only [Outcome.ok.injEq] at h
        subst h
        refine ⟨hr1, fun _ => ?_⟩
        have := (iterate_error_keeps m v.lsystem st1 e hres).1
        simp only [getNumIter] at hlt ⊢
        rw [this]
        exact hlt
    · rw [if_neg cge] at h
      simp only [Outcome.ok.injEq] at h
      subst h
      refine ⟨hr, fun _ => ?_⟩
      simp only
      omega
  rw [if_neg c3] at h
  by_cases c4 : cmd = MENU_REPARSE
  · rw [if_pos c4] at h
    by_cases c : v.lastFilename ≠ []
    · rw [if_pos c] at h
      rcases viewerInv_of_parseFile m stof files v.lsystem v.lastFilename hr
        with ⟨what, hp⟩ | hp | ⟨st1, hp, h1, h2, h3⟩
      · rw [hp] at h
        simp only [Outcome.ok.injEq] at h
        subst h
        exact ⟨hr, hi⟩
      · rw [hp] at h
        simp at h
      · rw [hp] at h
        simp only [Outcome.ok.injEq] at h
        subst h
        exact ⟨h1, fun _ => h3⟩
    · rw [if_neg c] at h
      simp only [Outcome.ok.injEq] at h
      subst h
      exact ⟨hr, hi⟩
  rw [if_neg c4] at h
  by_cases c5 : cmd ≥ MENU_OBJBASE
  · rw [if_pos c5] at h
    cases hf : modelFilenames.get? (cmd - MENU_OBJBASE).toNat with
    | none =>
      rw [hf] at h
      simp at h
    | some filename =>
      rw [hf] at h
      simp only at h
      rcases viewerInv_of_parseFile m stof files v.lsystem filename hr
        with ⟨what, hp⟩ | hp | ⟨st1, hp, h1, h2, h3⟩
      · rw [hp] at h
        simp only [Outcome.ok.injEq] at h
        subst h
        exact ⟨hr, hi⟩
      · rw [hp] at h
        simp at h
      · rw [hp] at h
        simp only [Outcome.ok.injEq] at h
        subst h
        exact ⟨h1, fun _ => h3⟩
  · rw [if_neg c5] at h
    simp only [Outcome.ok.injEq] at h
    subst h
    exact ⟨hr, hi⟩

theorem viewerReachable_inv (m : MathOps K) (stof : List Char → Option K)
    (modelFilenames : List (List Char)) (v : Viewer K)
    (h : ViewerReachable m stof modelFilenames v) : ViewerInv m v := by
  induction h with
  | start files jitter g configFile v hs =>
    exact viewerStart_inv m stof files modelFilenames jitter g configFile v hs
  | menu files v v1 cmd _ hm ih => exact menu_inv m stof files modelFilenames v v1 cmd ih hm

/-- **C27.** In every state of the viewer (the start of `main`, then any menu commands:
previous, next, reparse, model selection, exit), whenever `getNumIter() > 0` the displayed index
satisfies `iter < getNumIter()`, and `display` finds the record `iterData.at(iter)`; this still
holds after any further command. When `next iteration` calls an `iterate()` that fails on the
buffer limit, the exception is caught, and `iter`, `getNumIter()` and the records are
unchanged. -/
theorem viewer_iter_in_range (m : MathOps K) (stof : List Char → Option K)
    (modelFilenames : List (List Char)) (v : Viewer K)
    (h : ViewerReachable m stof modelFilenames v) :
    (0 < getNumIter v.lsystem →
      v.iter < getNumIter v.lsystem ∧ ∃ id, display v = .ok (some id)) ∧
    (getNumIter v.lsystem = 0 → display v = .ok none) ∧
    (∀ (files : List Char → Option (List Char)) (cmd : Int) (v1 : Viewer K),
      menu m stof files modelFilenames v cmd = .ok v1 →
      0 < getNumIter v1.lsystem → v1.iter < getNumIter v1.lsystem) ∧
    (∀ (files : List Char → Option (List Char)) (e : String) (st1 : LSystem K),
      getNumIter v.lsystem ≠ 0 → (v.iter + 1) % 2 ^ 32 ≥ getNumIter v.lsystem →
      iterate m v.lsystem = (.error e, st1) →
      ∃ v1, menu m stof files modelFilenames v MENU_NEXTITER = .ok v1 ∧ v1.iter = v.iter ∧
        getNumIter v1.lsystem = getNumIter v.lsystem ∧
        v1.lsystem.iterData = v.lsystem.iterData) := by
  have hinv := viewerReachable_inv m stof modelFilenames v h
  obtain ⟨hr, hi⟩ := hinv
  have hlen := (reachable_invariant m v.lsystem hr).2
  refine ⟨?_, ?_, ?_, ?_⟩
  · intro hpos
    refine ⟨hi hpos, ?_⟩
    have hlt : v.iter < v.lsystem.iterData.length := by
      rw [hlen]
      exact hi hpos
    have hget : v.lsystem.iterData.get? v.iter = some (v.lsystem.iterData.get ⟨v.iter, hlt⟩) :=
      List.get?_eq_get hlt
    refine ⟨v.lsystem.iterData.get ⟨v.iter, hlt⟩, ?_⟩
    simp only [display, drawIter, hget, hpos, gt_iff_lt, if_true]
  · intro h0
    simp [display, h0]
  · intro files cmd v1 hm
    exact (menu_inv m stof files modelFilenames v v1 cmd ⟨hr, hi⟩ hm).2
  · intro files e st1 hne hge hit
    refine ⟨{ v with lsystem := st1 }, ?_, rfl, ?_, ?_⟩
    · have c1 : ¬ MENU_NEXTITER = MENU_EXIT := by decide
      have c2 : ¬ MENU_NEXTITER = MENU_PREVITER := by decide
      unfold menu
      rw [if_neg c1, if_neg c2, if_pos rfl, if_neg hne, if_pos hge, hit]
    · simp only [getNumIter]
      rw [(iterate_error_keeps m v.lsystem st1 e hit).1]
    · exact (iterate_error_keeps m v.lsystem st1 e hit).2

theorem viewer_iter_in_range_witness :
    ∃ v : Viewer ℚ,
      viewerStart sampleOps stofDecimal (fun _ => some "90\n3\nF\n".toList) [] 0 halfRng
        "m".toList = .ok v ∧
      v.iter < getNumIter v.lsystem ∧ ∃ id, display v = .ok (some id) := by
  have hp : parseString sampleOps stofDecimal (LSystem.create 0 halfRng) "90\n3\nF\n".toList
      = (.ok (), parseCommit sampleOps (LSystem.create 0 halfRng) 90 0 (toUnsigned 3)
          "F".toList []) :=
    parseString_of_fields sampleOps stofDecimal (LSystem.create 0 halfRng)
      "90\n3\nF\n".toList "90".toList "3".toList "F".toList [] (by decide) 3 [] (90, 0) rfl rfl
      parseAngle_ninety
  have hs : viewerStart sampleOps stofDecimal (fun _ => some "90\n3\nF\n".toList) [] 0 halfRng
      "m".toList
      = .ok { lsystem := parseCommit sampleOps (LSystem.create 0 halfRng) 90 0 (toUnsigned 3)
                "F".toList [],
              iter := lastIter (parseCommit sampleOps (LSystem.create 0 halfRng) 90 0
                (toUnsigned 3) "F".toList []),
              lastFilename := "m".toList, lastFilenameIdx := -1 } := by
    have c : "m".toList ≠ [] := by decide
    unfold viewerStart
    simp only [parseFile, hp, if_pos c]
    rfl
  exact ⟨_, hs, (viewer_iter_in_range sampleOps stofDecimal [] _
    (ViewerReachable.start _ 0 halfRng "m".toList _ hs)).1
    (getNumIter_parseCommit_pos ..)⟩

namespace Tree

theorem AddVertex_vertices (mesh : GLTriangleMesh K) (p n : Vec3 K) (c t : Vec4 K) :
    (mesh.AddVertex p n c t).vertices = mesh.vertices ++ [⟨p, n, c, t⟩] := rfl

theorem AddVertex_triangles (mesh : GLTriangleMesh K) (p n : Vec3 K) (c t : Vec4 K) :
    (mesh.AddVertex p n c t).triangles = mesh.triangles := rfl

theorem foldl_AddVertex (pos nor : Nat → Vec3 K) (col tex : Nat → Vec4 K) (l : List Nat) :
    ∀ mesh : GLTriangleMesh K,
      (l.foldl (fun mesh i => mesh.AddVertex (pos i) (nor i) (col i) (tex i)) mesh).vertices
          = mesh.vertices ++ l.map (fun i => (⟨pos i, nor i, col i, tex i⟩ : Vertex K)) ∧
      (l.foldl (fun mesh i => mesh.AddVertex (pos i) (nor i) (col i) (tex i)) mesh).triangles
          = mesh.triangles := by
  induction l with
  | nil => intro mesh; simp
  | cons i is ih =>
    intro mesh
    simp only [List.foldl_cons, List.map_cons]
    obtain ⟨h1, h2⟩ := ih (mesh.AddVertex (pos i) (nor i) (col i) (tex i))
    rw [h1, h2]
    simp [GLTriangleMesh.AddVertex]

theorem addRingVertices_spec (lib : Lib K) (d : Nat) (f : RingFrame K) (texU : K)
    (mesh : GLTriangleMesh K) :
    (addRingVertices lib (d : Int) f texU mesh).vertices
        = mesh.vertices ++ ringVerts lib.math d f texU ∧
    (addRingVertices lib (d : Int) f texU mesh).triangles = mesh.triangles := by
  have h := foldl_AddVertex
    (fun i => f.position.add
      ((rotate lib.math f.localX (radians lib.math (360 / (d : K) * (i : K))) f.localY).smul
        f.thickness))
    (fun i => rotate lib.math f.localX (radians lib.math (360 / (d : K) * (i : K))) f.localY)
    (fun _ => (⟨1, 1, 1, 1⟩ : Vec4 K)) (fun i => (⟨texU, (i : K) / (d : K), 1, 1⟩ : Vec4 K))
    (List.range d) mesh
  have e1 : ((d : Int)).toNat = d := Int.toNat_natCast d
  have e2 : (((d : Int)) : K) = (d : K) := Int.cast_natCast d
  unfold addRingVertices ringVerts
  simp only [e1, e2]
  rw [AddVertex_vertices, AddVertex_triangles, h.1, h.2]
  exact ⟨by simp, rfl⟩

theorem ringsLoop_spec (lib : Lib K) (treeIterations treeSubdivisions : Int)
    (branch : FractalBranch K) (d : Nat) (nodes : List (Bone K)) :
    ∀ (depth : Nat) (state : K × GLTriangleMesh K),
      ∃ blocks : List (List (Vertex K)),
        blocks.length = nodes.length ∧ (∀ b ∈ blocks, IsRing lib.math d b) ∧
        (ringsLoop lib treeIterations treeSubdivisions branch (d : Int) depth nodes
          state).2.vertices = state.2.vertices ++ blocks.flatten ∧
        (ringsLoop lib treeIterations treeSubdivisions branch (d : Int) depth nodes
          state).2.triangles = state.2.triangles := by
  induction nodes with
  | nil => intro depth state; exact ⟨[], rfl, by simp, by simp [ringsLoop], rfl⟩
  | cons bone rest ih =>
    intro depth state
    obtain ⟨blocks, h1, h2, h3, h4⟩ := ih (depth + 1)
      (addRing lib treeIterations treeSubdivisions branch (d : Int) state depth bone)
    have hs := addRingVertices_spec lib d
      (ringFrame lib treeSubdivisions (branch.nodes.head?.bind (fun b => b.parent)) depth bone
        (getBranchThickness lib.powf treeIterations treeSubdivisions branch.depth
          bone.nodeDepth))
      (state.1 + bone.length / (2 * lib.math.pi *
        getBranchThickness lib.powf treeIterations treeSubdivisions branch.depth
          bone.nodeDepth))
      state.2
    refine ⟨ringVerts lib.math d
      (ringFrame lib treeSubdivisions (branch.nodes.head?.bind (fun b => b.parent)) depth bone
        (getBranchThickness lib.powf treeIterations treeSubdivisions branch.depth
          bone.nodeDepth))
      (state.1 + bone.length / (2 * lib.math.pi *
        getBranchThickness lib.powf treeIterations treeSubdivisions branch.depth
          bone.nodeDepth)) :: blocks, by simp [h1], ?_, ?_, ?_⟩
    · intro b hb
      rcases List.mem_cons.1 hb with rfl | hb
      · exact ⟨_, _, rfl⟩
      · exact h2 b hb
    · rw [ringsLoop, h3]
      simp only [addRing, hs.1, List.flatten_cons, List.append_assoc]
    · rw [ringsLoop, h4]
      simp only [addRing, hs.2]

theorem foldl_DefineNewTriangle (g : Nat → List (Int × Int × Int))
    (step : GLTriangleMesh K → Nat → GLTriangleMesh K)
    (hstep : ∀ mesh i, (step mesh i).triangles = mesh.triangles ++ g i ∧
      (step mesh i).vertices = mesh.vertices) (l : List Nat) :
    ∀ mesh : GLTriangleMesh K,
      (l.foldl step mesh).triangles = mesh.triangles ++ l.flatMap g ∧
      (l.foldl step mesh).vertices = mesh.vertices := by
  induction l with
  | nil => intro mesh; simp
  | cons i is ih =>
    intro mesh
    simp only [List.foldl_cons, List.flatMap_cons]
    obtain ⟨h1, h2⟩ := ih (step mesh i)
    rw [h1, h2, (hstep mesh i).1, (hstep mesh i).2]
    simp

theorem sideLoop_spec (d n : Nat) (mesh : GLTriangleMesh K) :
    (sideLoop (d : Int) n mesh).triangles = mesh.triangles ++ sideTriangles d n ∧
    (sideLoop (d : Int) n mesh).vertices = mesh.vertices := by
  unfold sideLoop sideTriangles
  simp only [Int.toNat_natCast]
  apply foldl_DefineNewTriangle
  intro mesh j
  apply foldl_DefineNewTriangle
  intro mesh i
  simp [GLTriangleMesh.DefineNewTriangle, sidePair]

theorem tipLoop_spec (d n : Nat) (mesh : GLTriangleMesh K) :
    (tipLoop (d : Int) n mesh).triangles
      = mesh.triangles ++ tipTriangles d n ((mesh.vertices.length : Int) - 1) ∧
    (tipLoop (d : Int) n mesh).vertices = mesh.vertices := by
  unfold tipLoop tipTriangles
  have e : ((d : Int) + 1 - 1).toNat = d := by simp
  simp only [e]
  have h := foldl_DefineNewTriangle (K := K)
    (fun (j : Nat) => [(((d : Int) + 1) * ((n : Int) - 1) + ((j : Int) + 1) - 1,
      ((d : Int) + 1) * ((n : Int) - 1) + ((j : Int) + 1), (mesh.vertices.length : Int) - 1)])
    (fun (m : GLTriangleMesh K) (j : Nat) => m.DefineNewTriangle
      (((d : Int) + 1) * ((n : Int) - 1) + ((j : Int) + 1) - 1)
      (((d : Int) + 1) * ((n : Int) - 1) + ((j : Int) + 1)) ((mesh.vertices.length : Int) - 1))
    (fun m j => by simp [GLTriangleMesh.DefineNewTriangle]) (List.range d) mesh
  rw [h.1, h.2]
  refine ⟨?_, rfl⟩
  congr 1
  generalize List.range d = l
  induction l with
  | nil => rfl
  | cons a as ih => simp [ih]

end Tree

namespace Tree

theorem flatten_blocks {α : Type} (L : Nat) (blocks : List (List α))
    (h : ∀ b ∈ blocks, b.length = L) :
    blocks.flatten.length = blocks.length * L ∧
    ∀ (k i : Nat) (b : List α), i < L → blocks[k]? = some b →
      blocks.flatten[k * L + i]? = b[i]? := by
  induction blocks with
  | nil => exact ⟨by simp, fun k i b _ hb => by simp at hb⟩
  | cons c cs ih =>
    have hc : c.length = L := h c (List.mem_cons_self _ _)
    obtain ⟨i1, i2⟩ := ih (fun b hb => h b (List.mem_cons_of_mem _ hb))
    constructor
    · simp only [List.flatten_cons, List.length_append, List.length_cons, i1, hc]
      ring
    · intro k i b hi hb
      simp only [List.flatten_cons]
      cases k with
      | zero =>
        simp only [List.getElem?_cons_zero, Option.some.injEq] at hb
        subst hb
        simp only [Nat.zero_mul, Nat.zero_add]
        exact List.getElem?_append_left (by omega)
      | succ k =>
        simp only [List.getElem?_cons_succ] at hb
        have e : (k + 1) * L + i - c.length = k * L + i := by
          rw [hc, Nat.succ_mul]
          omega
        rw [List.getElem?_append_right (by rw [hc, Nat.succ_mul]; omega), e]
        exact i2 k i b hi hb

theorem ringVerts_length (m : MathOps K) (d : Nat) (f : RingFrame K) (texU : K) :
    (ringVerts m d f texU).length = d + 1 := by
  simp [ringVerts]

theorem ringVerts_ring (m : MathOps K) (d : Nat) (f : RingFrame K) (texU : K) (i : Nat)
    (hi : i < d) :
    (ringVerts m d f texU)[i]? = some
      ⟨f.position.add
          ((rotate m f.localX (radians m (360 / (d : K) * (i : K))) f.localY).smul f.thickness),
        rotate m f.localX (radians m (360 / (d : K) * (i : K))) f.localY,
        ⟨1, 1, 1, 1⟩, ⟨texU, (i : K) / (d : K), 1, 1⟩⟩ := by
  unfold ringVerts
  rw [List.getElem?_append_left (by simp [hi])]
  simp [List.getElem?_map, List.getElem?_range hi]

theorem ringVerts_seam (m : MathOps K) (d : Nat) (f : RingFrame K) (texU : K) :
    (ringVerts m d f texU)[d]? = some
      ⟨f.position.add (f.localX.smul f.thickness), f.localX, ⟨1, 1, 1, 1⟩, ⟨texU, 1, 1, 1⟩⟩ := by
  unfold ringVerts
  rw [List.getElem?_append_right (by simp)]
  simp

theorem rotate_zero_angle (m : MathOps K) (hcos : m.cos 0 = 1) (hsin : m.sin 0 = 0)
    (v n : Vec3 K) (s : K) : rotate m v (radians m (s * 0)) n = v := by
  have e : radians m (s * 0) = 0 := by simp [radians]
  rw [e]
  ext <;> simp [rotate, hcos, hsin, Vec3.smul]

/-- The first vertex of a ring and its seam vertex: same position, same normal. -/
theorem ringVerts_first (m : MathOps K) (hcos : m.cos 0 = 1) (hsin : m.sin 0 = 0) (d : Nat)
    (f : RingFrame K) (texU : K) :
    ∃ v0 : Vertex K, (ringVerts m d f texU)[0]? = some v0 ∧
      v0.position = f.position.add (f.localX.smul f.thickness) ∧ v0.normal = f.localX := by
  cases d with
  | zero => exact ⟨_, ringVerts_seam m 0 f texU, rfl, rfl⟩
  | succ d =>
    refine ⟨_, ringVerts_ring m (d + 1) f texU 0 (by omega), ?_, ?_⟩
    · simp only [Nat.cast_zero]
      rw [rotate_zero_angle m hcos hsin]
    · simp only [Nat.cast_zero]
      rw [rotate_zero_angle m hcos hsin]

/-- The shape of the branch mesh: the rings of the bones one after the other, then the apex;
the side triangles, then the tip triangles. -/
theorem newBranchMesh_shape (lib : Lib K) (treeIterations treeSubdivisions : Int) (d : Nat)
    (branch : FractalBranch K) (hn : branch.nodes ≠ []) :
    ∃ (mesh : GLTriangleMesh K) (blocks : List (List (Vertex K))) (lastBone : Bone K)
      (tip : Vertex K),
      newBranchMesh lib treeIterations treeSubdivisions (d : Int) branch = some mesh ∧
      branch.nodes.getLast? = some lastBone ∧ tip.position = lastBone.tipPosition ∧
      tip.normal = lastBone.transform.forward ∧
      blocks.length = branch.nodes.length ∧ (∀ b ∈ blocks, IsRing lib.math d b) ∧
      mesh.vertices = blocks.flatten ++ [tip] ∧
      mesh.triangles = sideTriangles d branch.nodes.length
        ++ tipTriangles d branch.nodes.length
            (((blocks.flatten ++ [tip]).length : Int) - 1) := by
  cases hl : branch.nodes.getLast? with
  | none => exact absurd (List.getLast?_eq_none_iff.1 hl) hn
  | some lastBone =>
    obtain ⟨blocks, h1, h2, h3, h4⟩ := ringsLoop_spec lib treeIterations treeSubdivisions
      branch d branch.nodes 0 (0, ⟨[], []⟩)
    simp only [List.nil_append] at h3 h4
    have hm : newBranchMesh lib treeIterations treeSubdivisions (d : Int) branch
        = some (tipLoop (d : Int) branch.nodes.length (sideLoop (d : Int) branch.nodes.length
            ((ringsLoop lib treeIterations treeSubdivisions branch (d : Int) 0 branch.nodes
                (0, ⟨[], []⟩)).2.AddVertex lastBone.tipPosition lastBone.transform.forward
              ⟨1, 1, 1, 1⟩
              ⟨(ringsLoop lib treeIterations treeSubdivisions branch (d : Int) 0 branch.nodes
                (0, ⟨[], []⟩)).1 + lastBone.length, 1 / 2, 1, 1⟩))) := by
      simp only [newBranchMesh, hl]
    generalize ringsLoop lib treeIterations treeSubdivisions branch (d : Int) 0 branch.nodes
      (0, ⟨[], []⟩) = S at h3 h4 hm
    refine ⟨_, blocks, lastBone,
      ⟨lastBone.tipPosition, lastBone.transform.forward, ⟨1, 1, 1, 1⟩,
        ⟨S.1 + lastBone.length, 1 / 2, 1, 1⟩⟩, hm, rfl, rfl, rfl, h1, h2, ?_, ?_⟩
    · rw [(tipLoop_spec d _ _).2, (sideLoop_spec d _ _).2, AddVertex_vertices, h3]
    · rw [(tipLoop_spec d _ _).1, (sideLoop_spec d _ _).1, (sideLoop_spec d _ _).2,
        AddVertex_triangles, AddVertex_vertices, h3, h4]
      simp

end Tree

namespace Tree

/-- **C24.** For every branch with `n >= 1` bones and `d = cylinderDivisions`, the branch mesh
has `n * (d + 1) + 1` vertices. The ring of bone `k` is the `d + 1` consecutive vertices from
index `k * (d + 1)` on: vertex `i < d` has texture v-coordinate `i / d`, the extra seam vertex
(index `d` of the ring) has the position and the normal of ring vertex 0 and v-coordinate
exactly 1, and all vertices of the ring share the u-coordinate. The last vertex is the apex, at
the tip position of the last bone. The library is assumed to give `cos 0 = 1`, `sin 0 = 0`. -/
theorem branch_ring_vertices (lib : Lib K) (treeIterations treeSubdivisions : Int) (d : Nat)
    (branch : FractalBranch K) (hn : branch.nodes ≠ []) (hcos : lib.math.cos 0 = 1)
    (hsin : lib.math.sin 0 = 0) :
    ∃ mesh : GLTriangleMesh K,
      newBranchMesh lib treeIterations treeSubdivisions (d : Int) branch = some mesh ∧
      mesh.vertices.length = branch.nodes.length * (d + 1) + 1 ∧
      (∀ k, k < branch.nodes.length → ∃ texU : K,
        (∀ i, i < d → ∃ v : Vertex K, mesh.vertices[k * (d + 1) + i]? = some v ∧
          v.texCoord.x = texU ∧ v.texCoord.y = (i : K) / (d : K)) ∧
        (∃ v0 vs : Vertex K, mesh.vertices[k * (d + 1)]? = some v0 ∧
          mesh.vertices[k * (d + 1) + d]? = some vs ∧ vs.position = v0.position ∧
          vs.normal = v0.normal ∧ vs.texCoord.x = texU ∧ vs.texCoord.y = 1)) ∧
      (∃ (lastBone : Bone K) (tip : Vertex K), branch.nodes.getLast? = some lastBone ∧
        mesh.vertices[branch.nodes.length * (d + 1)]? = some tip ∧
        tip.position = lastBone.tipPosition) := by
  obtain ⟨mesh, blocks, lastBone, tip, hm, hl, htp, _, hbl, hring, hv, _⟩ :=
    newBranchMesh_shape lib treeIterations treeSubdivisions d branch hn
  have hlen : ∀ b ∈ blocks, b.length = d + 1 := by
    intro b hb
    obtain ⟨f, texU, rfl⟩ := hring b hb
    exact ringVerts_length ..
  obtain ⟨hfl, hidx⟩ := flatten_blocks (d + 1) blocks hlen
  refine ⟨mesh, hm, ?_, ?_, lastBone, tip, hl, ?_, htp⟩
  · rw [hv, List.length_append, hfl, hbl]
    rfl
  · intro k hk
    have hkb : k < blocks.length := by rw [hbl]; exact hk
    have hbk : blocks[k]? = some blocks[k] := List.getElem?_eq_getElem hkb
    obtain ⟨f, texU, hb⟩ := hring blocks[k] (List.getElem_mem hkb)
    have hat : ∀ i, i < d + 1 →
        mesh.vertices[k * (d + 1) + i]? = (ringVerts lib.math d f texU)[i]? := by
      intro i hi
      have hbound : k * (d + 1) + i < blocks.flatten.length := by
        rw [hfl]
        have : (k + 1) * (d + 1) ≤ blocks.length * (d + 1) := Nat.mul_le_mul_right _ hkb
        rw [Nat.succ_mul] at this
        omega
      rw [hv, List.getElem?_append_left hbound, hidx k i _ hi hbk, hb]
    refine ⟨texU, ?_, ?_⟩
    · intro i hi
      exact ⟨_, (hat i (by omega)).trans (ringVerts_ring lib.math d f texU i hi), rfl, rfl⟩
    · obtain ⟨v0, h0, hp0, hn0⟩ := ringVerts_first lib.math hcos hsin d f texU
      refine ⟨v0, _, ?_, (hat d (by omega)).trans (ringVerts_seam lib.math d f texU), ?_, ?_,
        rfl, rfl⟩
      · have := hat 0 (by omega)
        rw [Nat.add_zero] at this
        rw [this, h0]
      · exact hp0.symm
      · exact hn0.symm
  · rw [hv, List.getElem?_append_right (by rw [hfl, hbl]), hfl, hbl]
    simp

end Tree

namespace Tree

theorem branch_ring_vertices_witness :
    ∃ mesh : GLTriangleMesh ℚ,
      newBranchMesh sampleLib 1 1 ((4 : Nat) : Int) sampleBranch = some mesh ∧
      mesh.vertices.length = sampleBranch.nodes.length * (4 + 1) + 1 :=
  (branch_ring_vertices sampleLib 1 1 4 sampleBranch (by simp [sampleBranch])
    (by simp [sampleLib, sampleOps]) (by simp [sampleLib, sampleOps])).imp
    (fun _ h => ⟨h.1, h.2.1⟩)

theorem length_flatMap_const {α β : Type} (c : Nat) (g : α → List β)
    (hg : ∀ a, (g a).length = c) (l : List α) : (l.flatMap g).length = l.length * c := by
  induction l with
  | nil => simp
  | cons a as ih =>
    simp only [List.flatMap_cons, List.length_append, List.length_cons, ih, hg]
    ring

theorem sideTriangles_length (d n : Nat) : (sideTriangles d n).length = 2 * d * (n - 1) := by
  unfold sideTriangles
  rw [length_flatMap_const (d * 2) _ (fun j => by
    rw [length_flatMap_const 2 _ (fun i => by simp [sidePair])]
    simp)]
  simp
  ring

theorem tipTriangles_length (d n : Nat) (tipIndex : Int) :
    (tipTriangles d n tipIndex).length = d := by
  simp [tipTriangles]

theorem mem_sideTriangles (d n : Nat) (t : Int × Int × Int) (h : t ∈ sideTriangles d n) :
    ∃ j i, j + 1 < n ∧ i < d ∧ t ∈ sidePair d j i := by
  simp only [sideTriangles, List.mem_flatMap, List.mem_range] at h
  obtain ⟨j, hj, i, hi, ht⟩ := h
  exact ⟨j, i, by omega, hi, ht⟩

theorem mem_tipTriangles (d n : Nat) (tipIndex : Int) (t : Int × Int × Int)
    (h : t ∈ tipTriangles d n tipIndex) :
    ∃ j, j < d ∧ t = (((d : Int) + 1) * ((n : Int) - 1) + (j : Int),
      ((d : Int) + 1) * ((n : Int) - 1) + (j : Int) + 1, tipIndex) := by
  simp only [tipTriangles, List.mem_map, List.mem_range] at h
  obtain ⟨j, hj, ht⟩ := h
  refine ⟨j, hj, ?_⟩
  rw [← ht]
  simp only [Prod.mk.injEq, and_true]
  constructor <;> ring

theorem sidePair_bounds (d n j i : Nat) (hj : j + 1 < n) (hi : i < d) (t : Int × Int × Int)
    (h : t ∈ sidePair d j i) :
    (0 ≤ t.1 ∧ t.1 < (n : Int) * ((d : Int) + 1)) ∧
    (0 ≤ t.2.1 ∧ t.2.1 < (n : Int) * ((d : Int) + 1)) ∧
    (0 ≤ t.2.2 ∧ t.2.2 < (n : Int) * ((d : Int) + 1)) := by
  have hQ : (0 : Int) ≤ (d : Int) + 1 := by omega
  have hj0 : (0 : Int) ≤ (j : Int) := by omega
  have hP : ((j : Int) + 1) * ((d : Int) + 1) ≤ ((n : Int) - 1) * ((d : Int) + 1) :=
    mul_le_mul_of_nonneg_right (by omega) hQ
  have hP0 : (0 : Int) ≤ (j : Int) * ((d : Int) + 1) := mul_nonneg hj0 hQ
  have e1 : ((j : Int) + 1) * ((d : Int) + 1) = (j : Int) * ((d : Int) + 1) + ((d : Int) + 1) := by
    ring
  have e2 : ((n : Int) - 1) * ((d : Int) + 1) = (n : Int) * ((d : Int) + 1) - ((d : Int) + 1) := by
    ring
  have hi2 : (i : Int) < (d : Int) := by exact_mod_cast hi
  simp only [sidePair, List.mem_cons, List.mem_singleton, List.not_mem_nil, or_false] at h
  generalize ((j : Int) + 1) * ((d : Int) + 1) = P at h hP e1
  generalize ((n : Int) - 1) * ((d : Int) + 1) = N1 at hP e2
  generalize (n : Int) * ((d : Int) + 1) = N at e2 ⊢
  generalize (j : Int) * ((d : Int) + 1) = J at hP0 e1
  rcases h with rfl | rfl <;> simp only <;> omega

end Tree

namespace Tree

theorem newBranchMesh_counts (lib : Lib K) (treeIterations treeSubdivisions : Int) (d : Nat)
    (branch : FractalBranch K) (hn : branch.nodes ≠ []) :
    ∃ mesh : GLTriangleMesh K,
      newBranchMesh lib treeIterations treeSubdivisions (d : Int) branch = some mesh ∧
      mesh.vertices.length = branch.nodes.length * (d + 1) + 1 ∧
      mesh.triangles = sideTriangles d branch.nodes.length
        ++ tipTriangles d branch.nodes.length ((branch.nodes.length : Int) * ((d : Int) + 1)) := by
  obtain ⟨mesh, blocks, lastBone, tip, hm, _, _, _, hbl, hring, hv, ht⟩ :=
    newBranchMesh_shape lib treeIterations treeSubdivisions d branch hn
  have hlen : ∀ b ∈ blocks, b.length = d + 1 := by
    intro b hb
    obtain ⟨f, texU, rfl⟩ := hring b hb
    exact ringVerts_length ..
  obtain ⟨hfl, _⟩ := flatten_blocks (d + 1) blocks hlen
  have hvl : (blocks.flatten ++ [tip]).length = branch.nodes.length * (d + 1) + 1 := by
    rw [List.length_append, hfl, hbl]
    rfl
  refine ⟨mesh, hm, by rw [hv, hvl], ?_⟩
  rw [ht, hvl]
  congr 2
  push_cast
  ring

theorem tipTriangle_bounds (d n j : Nat) (hn : 1 ≤ n) (hj : j < d) :
    0 ≤ ((d : Int) + 1) * ((n : Int) - 1) + (j : Int) ∧
    ((d : Int) + 1) * ((n : Int) - 1) + (j : Int) + 1 < (n : Int) * ((d : Int) + 1) := by
  have hQ : (0 : Int) ≤ (d : Int) + 1 := by omega
  have hn1 : (0 : Int) ≤ (n : Int) - 1 := by omega
  have h0 : (0 : Int) ≤ ((d : Int) + 1) * ((n : Int) - 1) := mul_nonneg hQ hn1
  have e : ((d : Int) + 1) * ((n : Int) - 1) = (n : Int) * ((d : Int) + 1) - ((d : Int) + 1) := by
    ring
  have hj2 : (j : Int) < (d : Int) := by exact_mod_cast hj
  generalize ((d : Int) + 1) * ((n : Int) - 1) = L at h0 e ⊢
  generalize (n : Int) * ((d : Int) + 1) = N at e ⊢
  constructor <;> omega

/-- **C25.** For every branch with `n >= 1` bones and `d = cylinderDivisions`, the index buffer
of the branch mesh holds exactly `2 * d * (n - 1)` side triangles, each joining ring `k - 1` and
ring `k` for some `1 <= k < n`, then `d` tip triangles, which all contain the apex index
`n * (d + 1)`; every index of every triangle lies in `[0, n * (d + 1)]` and is below the number
of vertices of the mesh. -/
theorem branch_triangle_indices (lib : Lib K) (treeIterations treeSubdivisions : Int) (d : Nat)
    (branch : FractalBranch K) (hn : branch.nodes ≠ []) :
    ∃ mesh : GLTriangleMesh K,
      newBranchMesh lib treeIterations treeSubdivisions (d : Int) branch = some mesh ∧
      mesh.triangles = sideTriangles d branch.nodes.length
        ++ tipTriangles d branch.nodes.length
            ((branch.nodes.length : Int) * ((d : Int) + 1)) ∧
      (sideTriangles d branch.nodes.length).length = 2 * d * (branch.nodes.length - 1) ∧
      (tipTriangles d branch.nodes.length
        ((branch.nodes.length : Int) * ((d : Int) + 1))).length = d ∧
      mesh.triangles.length = 2 * d * (branch.nodes.length - 1) + d ∧
      (∀ t ∈ sideTriangles d branch.nodes.length,
        ∃ j i, j + 1 < branch.nodes.length ∧ i < d ∧ t ∈ sidePair d j i) ∧
      (∀ t ∈ tipTriangles d branch.nodes.length
          ((branch.nodes.length : Int) * ((d : Int) + 1)),
        t.2.2 = (branch.nodes.length : Int) * ((d : Int) + 1)) ∧
      (∀ t ∈ mesh.triangles,
        (0 ≤ t.1 ∧ t.1 ≤ (branch.nodes.length : Int) * ((d : Int) + 1) ∧
          t.1 < (mesh.vertices.length : Int)) ∧
        (0 ≤ t.2.1 ∧ t.2.1 ≤ (branch.nodes.length : Int) * ((d : Int) + 1) ∧
          t.2.1 < (mesh.vertices.length : Int)) ∧
        (0 ≤ t.2.2 ∧ t.2.2 ≤ (branch.nodes.length : Int) * ((d : Int) + 1) ∧
          t.2.2 < (mesh.vertices.length : Int))) := by
  obtain ⟨mesh, hm, hvl, ht⟩ :=
    newBranchMesh_counts lib treeIterations treeSubdivisions d branch hn
  have hn1 : 1 ≤ branch.nodes.length := by
    cases hnodes : branch.nodes with
    | nil => exact absurd hnodes hn
    | cons b bs => simp
  have hvi : (mesh.vertices.length : Int) = (branch.nodes.length : Int) * ((d : Int) + 1) + 1 := by
    rw [hvl]
    push_cast
    ring
  have hN : (0 : Int) ≤ (branch.nodes.length : Int) * ((d : Int) + 1) :=
    mul_nonneg (by omega) (by omega)
  refine ⟨mesh, hm, ht, sideTriangles_length _ _, tipTriangles_length _ _ _, ?_,
    mem_sideTriangles _ _, ?_, ?_⟩
  · rw [ht, List.length_append, sideTriangles_length, tipTriangles_length]
  · intro t h
    obtain ⟨j, _, rfl⟩ := mem_tipTriangles _ _ _ t h
    rfl
  · intro t h
    rw [ht, List.mem_append] at h
    rw [hvi]
    rcases h with h | h
    · obtain ⟨j, i, hj, hi, hp⟩ := mem_sideTriangles _ _ t h
      obtain ⟨⟨a1, a2⟩, ⟨b1, b2⟩, c1, c2⟩ := sidePair_bounds d _ j i hj hi t hp
      exact ⟨⟨a1, by omega, by omega⟩, ⟨b1, by omega, by omega⟩, c1, by omega, by omega⟩
    · obtain ⟨j, hj, rfl⟩ := mem_tipTriangles _ _ _ t h
      obtain ⟨l1, l2⟩ := tipTriangle_bounds d _ j hn1 hj
      dsimp only
      exact ⟨⟨l1, by omega, by omega⟩, ⟨by omega, by omega, by omega⟩, hN, le_refl _, by omega⟩

theorem branch_triangle_indices_witness :
    ∃ mesh : GLTriangleMesh ℚ,
      newBranchMesh sampleLib 1 1 ((4 : Nat) : Int) sampleBranch = some mesh ∧
      mesh.triangles.length = 2 * 4 * (sampleBranch.nodes.length - 1) + 4 :=
  (branch_triangle_indices sampleLib 1 1 4 sampleBranch (by simp [sampleBranch])).imp
    (fun _ h => ⟨h.1, h.2.2.2.2.1⟩)

end Tree

namespace Tree

/-- Whatever `pow` returns, `getCylinderDivisions` is at least 4. -/
theorem getCylinderDivisions_ge_four [FloorRing K] (pow : K → K → K) (branchDepth : Int) :
    4 ≤ getCylinderDivisions pow branchDepth := by
  unfold getCylinderDivisions
  simp only
  split_ifs with h
  · decide
  · omega

/-- The mesh the callback builds is `newBranchMesh` at a natural number of divisions. -/
theorem branchMeshOf_eq [FloorRing K] (lib : Lib K) (pow : K → K → K)
    (treeIterations treeSubdivisions : Int) (branch : FractalBranch K) :
    branchMeshOf lib pow treeIterations treeSubdivisions branch
      = newBranchMesh lib treeIterations treeSubdivisions
          (((getCylinderDivisions pow branch.depth).toNat : Nat) : Int) branch := by
  unfold branchMeshOf
  rw [Int.toNat_of_nonneg]
  have := getCylinderDivisions_ge_four pow branch.depth
  omega

end Tree

theorem lineBreak_no_newline (l : List Char) (h : '\n' ∉ l) : lineBreak l = (l, none) := by
  induction l with
  | nil => rfl
  | cons c cs ih =>
    simp only [List.mem_cons, not_or] at h
    have hc : ¬ c = '\n' := fun e => h.1 e.symm
    simp [lineBreak, hc, ih h.2]

/-- Reading the last line of a stream, when no newline ends it: the line is returned and
`eofbit` is set. -/
theorem getline_unterminated (bad line : List Char) (t : Bool) (hne : bad ≠ [])
    (hnl : '\n' ∉ bad) :
    getline ⟨bad, false, false, t⟩ line = (bad, ⟨[], true, false, t⟩) := by
  have hb := lineBreak_no_newline bad hnl
  cases hbad : bad with
  | nil => exact absurd hbad hne
  | cons c cs =>
    rw [hbad] at hb
    simp [getline, hb]

/-- The rule loop on a stream of content lines followed by a last line that no newline ends and
that is rejected: the exception of that line is swallowed by `if (istr.eof()) break;`. -/
theorem rulesLoop_unterminated (stof : List Char → Option K) (bad : List Char) (what : String)
    (hne : bad ≠ []) (hnl : '\n' ∉ bad) (hbad : parseRule stof bad = .error what)
    (ls : List (List Char)) :
    (∀ l ∈ ls, Clean l) → ∀ (fuel : Nat) (line : List Char) (acc : Rules K),
      ls.length + 1 < fuel →
      rulesLoop stof fuel ⟨unlines ls ++ bad, false, false, false⟩ line acc
        = (match readRules stof ls with
            | .ok rules => .ok (acc ++ rules)
            | .error what => .throws what) := by
  induction ls with
  | nil =>
    intro _ fuel line acc hf
    cases fuel with
    | zero => simp at hf
    | succ fuel =>
      rw [rulesLoop]
      simp only [unlines, List.flatMap_nil, List.nil_append,
        getline_unterminated bad line false hne hnl, hbad, readRules]
      simp [hne, IStream.eof]
  | cons l ls ih =>
    intro hcl fuel line acc hf
    have hl : Clean l := hcl l (List.mem_cons_self _ _)
    have hls : ∀ x ∈ ls, Clean x := fun x hx => hcl x (List.mem_cons_of_mem _ hx)
    cases fuel with
    | zero => simp at hf
    | succ fuel =>
      have e : unlines (l :: ls) ++ bad = l ++ '\n' :: (unlines ls ++ bad) := by
        rw [unlines_cons]
        simp
      rw [rulesLoop, e]
      simp only [getline_line l _ line false hl.2.2.1, readRules]
      cases hp : parseRule stof l with
      | error what => simp [hl.1, IStream.eof]
      | ok rule =>
        simp only [hl.1, if_false]
        rw [ih hls fuel l (acc ++ [rule]) (by simpa using hf)]
        cases readRules stof ls <;> simp

theorem parseFields_unterminated (stof : List Char → Option K) (a i x : List Char)
    (rs : List (List Char)) (bad : List Char) (what : String)
    (h : ∀ l ∈ a :: i :: x :: rs, Clean l) (hne : bad ≠ []) (hnl : '\n' ∉ bad)
    (hbad : parseRule stof bad = .error what) :
    parseFields stof (IStream.ofString (unlines (a :: i :: x :: rs) ++ bad))
      = parseFields stof (IStream.ofString (unlines (a :: i :: x :: rs))) := by
  rw [parseFields_lines stof a i x rs h]
  have ha : Clean a := h a (by simp)
  have hi : Clean i := h i (by simp)
  have hx : Clean x := h x (by simp)
  have hrs : ∀ l ∈ rs, Clean l := fun l hl => h l (by simp [hl])
  have e : unlines (a :: i :: x :: rs) ++ bad
      = a ++ '\n' :: (i ++ '\n' :: (x ++ '\n' :: (unlines rs ++ bad))) := by
    simp [unlines_cons]
  simp only [parseFields, IStream.ofString, e, getNextLine_clean _ _ _ ha,
    getNextLine_clean _ _ _ hi, getNextLine_clean _ _ _ hx]
  cases stoi i with
  | error what => rfl
  | ok n =>
    simp only
    have hlen : rs.length + 1 < (unlines rs ++ bad).length + 1 := by
      have h1 := length_le_unlines rs
      have h2 : 0 < bad.length := List.length_pos.2 hne
      rw [List.length_append]
      omega
    rw [rulesLoop_unterminated stof bad what hne hnl hbad rs hrs _ x [] hlen]
    cases readRules stof rs with
    | error what => rfl
    | ok rules =>
      simp only [List.nil_append]

/-- **C16 (the code's behaviour).** When the stream handed to `parse` ends with a non-empty rule
line that has no `:` and that no newline ends, `parse` does not fail: the exception
`missing ':'` is caught while `istr.eof()` holds, the loop is left by `break`, and `parse` gives
exactly what it gives on the stream without that line. So a description whose other lines are
accepted is accepted, the line being dropped. -/
theorem parse_drops_unterminated_line (m : MathOps K) (stof : List Char → Option K)
    (st : LSystem K) (a i x : List Char) (rs : List (List Char)) (bad : List Char)
    (hc : ∀ l ∈ a :: i :: x :: rs, Clean l) (hne : bad ≠ []) (hnl : '\n' ∉ bad)
    (hcolon : ':' ∉ bad) :
    parse m stof st (IStream.ofString (unlines (a :: i :: x :: rs) ++ bad))
      = parse m stof st (IStream.ofString (unlines (a :: i :: x :: rs))) ∧
    (∀ (n : Int) (rules : Rules K) (p : K × K), stoi i = .ok n → readRules stof rs = .ok rules →
      parseAngle stof a = .ok p →
      parse m stof st (IStream.ofString (unlines (a :: i :: x :: rs) ++ bad))
        = (.ok (), parseCommit m st p.1 p.2 (toUnsigned n) x rules) ∧
      (parseCommit m st p.1 p.2 (toUnsigned n) x rules).rules = rules) := by
  have hf := parseFields_unterminated stof a i x rs bad "missing ':'" hc hne hnl
    (parseRule_no_colon stof bad hcolon)
  refine ⟨by simp only [parse, hf], ?_⟩
  intro n rules p hi hr ha
  refine ⟨?_, (parseCommit_fields m st p.1 p.2 (toUnsigned n) x rules).1⟩
  simp only [parse, hf, parseFields_lines stof a i x rs hc, hi, hr, ha]

/-- The failing input of C16: the stream `90`, `1`, `F`, `F FF` with no newline after the last
line. `parse` returns normally with no rule; `parseString` on the same text throws. -/
theorem parse_drops_unterminated_line_witness :
    (parse sampleOps stofDecimal (LSystem.create 0 halfRng)
      (IStream.ofString "90\n1\nF\nF FF".toList)).1 = .ok () ∧
    (parse sampleOps stofDecimal (LSystem.create 0 halfRng)
      (IStream.ofString "90\n1\nF\nF FF".toList)).2.rules = [] ∧
    parseString sampleOps stofDecimal (LSystem.create 0 halfRng) "90\n1\nF\nF FF".toList
      = (.throws "missing ':'", LSystem.create 0 halfRng) := by
  have hcl : ∀ l ∈ ["90".toList, "1".toList, "F".toList], Clean l := by
    intro l hl
    have e : cleanLines "90\n1\nF\n".toList = ["90".toList, "1".toList, "F".toList] := by decide
    exact clean_of_mem_cleanLines "90\n1\nF\n".toList l (by rw [e]; exact hl)
  have e : "90\n1\nF\nF FF".toList
      = unlines ["90".toList, "1".toList, "F".toList] ++ "F FF".toList := by decide
  have h := (parse_drops_unterminated_line sampleOps stofDecimal (LSystem.create 0 halfRng)
    "90".toList "1".toList "F".toList [] "F FF".toList hcl (by decide) (by decide)
    (by decide)).2 1 [] (90, 0) rfl rfl parseAngle_ninety
  rw [← e] at h
  refine ⟨by rw [h.1], by rw [h.1]; exact h.2, ?_⟩
  rw [parseString_lines sampleOps stofDecimal _ "90\n1\nF\nF FF".toList "90".toList "1".toList
    "F".toList ["F FF".toList] (by decide)]
  have hi : stoi "1".toList = .ok 1 := rfl
  have hr : readRules stofDecimal ["F FF".toList] = .error "missing ':'" := by
    simp only [readRules, parseRule_no_colon stofDecimal "F FF".toList (by decide)]
  simp only [hi, hr]

end Scalars

end LSys
